import Mathlib

/-!
# ejs-min (`mjs.js`): a shallow embedding of the template cache and pipeline

JavaScript strings are modelled as lists of characters (`Str`).  The two regular
expressions of the source have no `u` flag and treat every code unit alike
except the few ASCII characters they name, so code points and code units give
the same matches.

Plain JavaScript objects used as dictionaries (`sourceCache`, `compiledCache`,
`cacheRelations`, the `map` of `minify`) are association lists in insertion
order (`JsObj`).  Keys are assumed not to be names inherited from
`Object.prototype`.

Unbounded recursion / looping is modelled with a fuel argument; running out of
fuel is the outcome `diverge`, which carries the instance state reached so far
(for the cascade of `class Cache`: `none`).
-/

namespace EjsMin

/-- A JavaScript string. -/
abbrev Str := List Char

/-! ## Plain objects used as dictionaries -/

/-- A plain object: own enumerable string-keyed properties in insertion order. -/
abbrev JsObj (α : Type) := List (Str × α)

namespace JsObj

/-- Property read `obj[key]`; `none` is `undefined`. -/
def get {α : Type} (obj : JsObj α) (key : Str) : Option α :=
  match obj with
  | [] => none
  | (k, v) :: rest => if k = key then some v else get rest key

/-- Property write `obj[key] = v`: an existing key keeps its position. -/
def set {α : Type} (obj : JsObj α) (key : Str) (v : α) : JsObj α :=
  match obj with
  | [] => [(key, v)]
  | (k, w) :: rest => if k = key then (k, v) :: rest else (k, w) :: set rest key v

/-- Property removal `delete obj[key]`. -/
def delete {α : Type} (obj : JsObj α) (key : Str) : JsObj α :=
  obj.filter (fun e => decide (e.1 ≠ key))

/-- The keys a `for (k in obj)` loop enumerates. -/
def keys {α : Type} (obj : JsObj α) : List Str :=
  obj.map Prod.fst

end JsObj

/-! ## External collaborators -/

/-- Errors thrown inside `compileFile`. -/
inductive JsError where
  /-- `fs.readFileSync` on a path that does not exist (ENOENT). -/
  | notFound (path : Str)
  /-- An exception raised by uglify-js, uglifycss or ejs. -/
  | external (msg : Str)
  /-- The `Error('MJS: set root dir!')` thrown by the constructor. -/
  | rootNotSet
  deriving DecidableEq

/-- The render function returned by `ejs.compile`, identified by the text it was
compiled from. -/
structure Artifact where
  template : Str
  deriving DecidableEq

/-- What `precompile` asks `fs.statSync` about a path. -/
inductive Stat where
  /-- The test `stat.isFile()` holds. -/
  | file
  /-- The test `stat.isDirectory()` holds. -/
  | directory
  /-- Neither test holds. -/
  | other
  deriving DecidableEq

/-- The libraries and the file system the module calls. -/
structure Env where
  /-- What `fs.readFileSync(path.resolve(root, name)).toString()` gives; `none` when
  the read throws. -/
  readFileSync : Str → Option Str
  /-- What `path.relative(root, path.resolve(root, name))` gives. -/
  relative : Str → Str
  /-- Models `uglifycss.processString`. -/
  uglifycss : Str → Except JsError Str
  /-- Models `uglifyjs.minify(code, ...).code`. -/
  uglifyjs : Str → Except JsError Str
  /-- The 128-bit MD5 digest, as a number (used modulo `2 ^ 128`). -/
  md5 : Str → Nat
  /-- Models `ejs.compile`. -/
  ejsCompile : Str → Except JsError Artifact
  /-- Models `fs.readdirSync`; `none` when it throws. -/
  readdirSync : Str → Option (List Str)
  /-- Models `fs.statSync`; `none` when it throws. -/
  statSync : Str → Option Stat
  /-- Models `path.resolve(dir, name)`. -/
  resolve : Str → Str → Str
  /-- Models `path.extname`. -/
  extname : Str → Str

/-- Calls to the outside world, recorded in call order (instrumentation only). -/
inductive Event where
  | fetch (name : Str)
  | cssShrink (input : Str)
  | jsShrink (input : Str)
  | engineCompile (input : Str)
  deriving DecidableEq

/-! ## class Cache -/

/-- The three dictionaries of `class Cache`. -/
structure Cache where
  sourceCache : JsObj Str
  compiledCache : JsObj Artifact
  cacheRelations : JsObj (List Str)
  deriving DecidableEq

namespace Cache

/-- The state built by `constructor ()`. -/
def empty : Cache := ⟨[], [], []⟩

def getSourceText (c : Cache) (hash : Str) : Option Str :=
  c.sourceCache.get hash

def setSourceText (c : Cache) (hash text : Str) : Cache :=
  { c with sourceCache := c.sourceCache.set hash text }

def getCompiled (c : Cache) (hash : Str) : Option Artifact :=
  c.compiledCache.get hash

def setCompiled (c : Cache) (hash : Str) (compiled : Artifact) : Cache :=
  { c with compiledCache := c.compiledCache.set hash compiled }

/-- The array `this.cacheRelations[hash] || []`. -/
def parents (c : Cache) (hash : Str) : List Str :=
  (c.cacheRelations.get hash).getD []

/-- The statement `delete this.compiledCache[parent]`. -/
def deleteCompiled (c : Cache) (hash : Str) : Cache :=
  { c with compiledCache := c.compiledCache.delete hash }

/-- One pass of the `forEach` of `clearRelation` over the parent array `ps`, given
the recursive call `rec`.  The second component lists the parents visited, in
visit order (instrumentation only). -/
def clearParents (rec : Cache → Str → Option (Cache × List Str)) :
    List Str → Cache → Option (Cache × List Str)
  | [], c => some (c, [])
  | parent :: ps, c =>
    match rec (c.deleteCompiled parent) parent with
    | none => none
    | some (c1, v1) =>
      match clearParents rec ps c1 with
      | none => none
      | some (c2, v2) => some (c2, parent :: v1 ++ v2)

/-- The method `clearRelation (hash)`.  `none`: the recursion did not end within
`fuel` nested calls. -/
def clearRelation : Nat → Cache → Str → Option (Cache × List Str)
  | 0, _, _ => none
  | fuel + 1, c, hash =>
    clearParents (fun c1 parent => clearRelation fuel c1 parent) (c.parents hash) c

/-- The method `clearOne (hash)`. -/
def clearOne (fuel : Nat) (c : Cache) (hash : Str) : Option Cache :=
  let c1 : Cache := { c with sourceCache := c.sourceCache.delete hash }
  let c2 : Cache := { c1 with compiledCache := c1.compiledCache.delete hash }
  (clearRelation fuel c2 hash).map Prod.fst

/-- The cascade visits made by `clearOne (hash)`. -/
def clearOneVisits (fuel : Nat) (c : Cache) (hash : Str) : Option (List Str) :=
  let c1 : Cache := { c with sourceCache := c.sourceCache.delete hash }
  let c2 : Cache := { c1 with compiledCache := c1.compiledCache.delete hash }
  (clearRelation fuel c2 hash).map Prod.snd

/-- The loop body of `clearAll` run over the keys `hs`. -/
def clearEach (fuel : Nat) : List Str → Cache → Option Cache
  | [], c => some c
  | hash :: hs, c =>
    match clearOne fuel c hash with
    | none => none
    | some c1 => clearEach fuel hs c1

/-- The method `clearAll ()`: `for (let hash in this.sourceCache) this.clearOne(hash)`.
Each pass deletes only the key being visited, so the keys enumerated are those
present at the start. -/
def clearAll (fuel : Nat) (c : Cache) : Option Cache :=
  clearEach fuel c.sourceCache.keys c

/-- The method `addRelation (child, parent)`. -/
def addRelation (c : Cache) (child parent : Str) : Cache :=
  let ps := c.parents child
  { c with cacheRelations :=
      c.cacheRelations.set child (if parent ∈ ps then ps else ps ++ [parent]) }

/-- The edge (child, parent) is recorded: `parent` is in `cacheRelations[child]`. -/
def IsParent (c : Cache) (child parent : Str) : Prop :=
  parent ∈ c.parents child

/-- No identifier is its own transitive parent. -/
def Acyclic (c : Cache) : Prop :=
  ∀ x, ¬ Relation.TransGen c.IsParent x x

end Cache

/-! ## Regular expressions and string primitives -/

/-- The class `\s`: white space and line terminators. -/
def isSpace (c : Char) : Bool :=
  let n := c.toNat
  n == 9 || n == 10 || n == 11 || n == 12 || n == 13 || n == 32 || n == 160 ||
  n == 5760 || (8192 ≤ n && n ≤ 8202) || n == 8232 || n == 8233 || n == 8239 ||
  n == 8287 || n == 12288 || n == 65279

/-- The characters `.` does not match. -/
def isLineTerminator (c : Char) : Bool :=
  let n := c.toNat
  n == 10 || n == 13 || n == 8232 || n == 8233

/-- The class `[\'\"]`. -/
def isQuote (c : Char) : Bool :=
  c.toNat == 39 || c.toNat == 34

/-- The class `[^%>]`. -/
def notMarker (c : Char) : Bool :=
  !(c == '%' || c == '>')

/-- Match the literal `lit` at the start of the text; the rest of the text on success. -/
def expect : Str → Str → Option Str
  | [], s => some s
  | _ :: _, [] => none
  | p :: ps, c :: cs => if p = c then expect ps cs else none

/-- The tail `[\'\"]\s*%>` of the include pattern, anchored: the text consumed and
the rest. -/
def closeInclude : Str → Option (Str × Str)
  | [] => none
  | q :: s1 =>
    if isQuote q then
      match s1.dropWhile isSpace with
      | '%' :: '>' :: rest => some (q :: s1.takeWhile isSpace ++ ['%', '>'], rest)
      | _ => none
    else none

/-- The lazy group `(.+?)` followed by the tail of the include pattern: the
shortest non-empty run of non-line-terminators after which the tail matches.
Result: group, text consumed by the tail, rest. -/
def lazyName : Str → Option (Str × Str × Str)
  | [] => none
  | c :: t =>
    if isLineTerminator c then none
    else
      match closeInclude t with
      | some (cl, rest) => some ([c], cl, rest)
      | none =>
        match lazyName t with
        | some (g, cl, rest) => some (c :: g, cl, rest)
        | none => none

/-- The pattern `<%\s*include\s[\'\"](.+?)[\'\"]\s*%>` anchored at the start of the
text: `match[0]`, `match[1]` and the rest of the text. -/
def matchInclude : Str → Option (Str × Str × Str)
  | '<' :: '%' :: s1 =>
    match expect "include".toList (s1.dropWhile isSpace) with
    | some (w :: q :: s2) =>
      if isSpace w && isQuote q then
        match lazyName s2 with
        | some (g, cl, rest) =>
          some ('<' :: '%' :: s1.takeWhile isSpace ++ "include".toList ++ [w, q] ++ g ++ cl,
            g, rest)
        | none => none
      else none
    | _ => none
  | _ => none

/-- The pattern `<%([^%>]+)?%>` anchored at the start of the text: `match[0]` and
the rest of the text. -/
def matchDirective : Str → Option (Str × Str)
  | '<' :: '%' :: s1 =>
    match s1.dropWhile notMarker with
    | '%' :: '>' :: rest => some ('<' :: '%' :: s1.takeWhile notMarker ++ ['%', '>'], rest)
    | _ => none
  | _ => none

/-- What `re.exec` returns for the include pattern. -/
structure ReMatch where
  /-- Where the match starts. -/
  index : Nat
  /-- The matched text, `match[0]`. -/
  whole : Str
  /-- The capture, `match[1]`. -/
  group : Str
  deriving DecidableEq

/-- Leftmost match of the include pattern in `s`, whose first character has
index `i`. -/
def scanInclude : Str → Nat → Option ReMatch
  | [], _ => none
  | c :: t, i =>
    match matchInclude (c :: t) with
    | some (w, g, _) => some ⟨i, w, g⟩
    | none => scanInclude t (i + 1)

/-- The call `re.exec(s)` for the global include pattern with `re.lastIndex = lastIndex`.
On a match the new `lastIndex` is `index + whole.length`. -/
def execInclude (s : Str) (lastIndex : Nat) : Option ReMatch :=
  scanInclude (s.drop lastIndex) lastIndex

/-- All matches of the global directive pattern in reading order: the values of
`match[0]` over the loop `while (match = re.exec(codestring))`.  `skip` counts the
characters still covered by the previous match. -/
def directiveSpans : Nat → Str → List Str
  | _, [] => []
  | skip + 1, _ :: t => directiveSpans skip t
  | 0, c :: t =>
    match matchDirective (c :: t) with
    | some (w, _) => w :: directiveSpans (w.length - 1) t
    | none => directiveSpans 0 t

/-- First occurrence of `pat` in the text: the text before it and the text after it. -/
def splitFirst (pat : Str) : Str → Option (Str × Str)
  | [] => (expect pat []).map (fun a => ([], a))
  | c :: t =>
    match expect pat (c :: t) with
    | some after => some ([], after)
    | none =>
      match splitFirst pat t with
      | some (b, a) => some (c :: b, a)
      | none => none

/-- The replacement text of `String.prototype.replace` for a string pattern
(GetSubstitution with no captures): `$$`, `$&`, dollar-backtick and dollar-quote are
expanded, every other character stands for itself. -/
def getSubstitution (matched before after : Str) : Str → Str
  | [] => []
  | [c] => [c]
  | c :: d :: t =>
    if c = '$' then
      if d = '$' then '$' :: getSubstitution matched before after t
      else if d = '&' then matched ++ getSubstitution matched before after t
      else if d.toNat = 96 then before ++ getSubstitution matched before after t
      else if d.toNat = 39 then after ++ getSubstitution matched before after t
      else c :: getSubstitution matched before after (d :: t)
    else c :: getSubstitution matched before after (d :: t)

/-- The call `s.replace(pat, rep)` with a string pattern: the first occurrence only. -/
def jsReplace (s pat rep : Str) : Str :=
  match splitFirst pat s with
  | none => s
  | some (b, a) => b ++ getSubstitution pat b a rep ++ a

/-- The scan of `s.split(pat).join(rep)` for a non-empty `pat`; `skip` counts the
characters still covered by the occurrence just replaced. -/
def splitJoinAux (pat rep : Str) : Nat → Str → Str
  | _, [] => []
  | skip + 1, _ :: t => splitJoinAux pat rep skip t
  | 0, c :: t =>
    match expect pat (c :: t) with
    | some _ => rep ++ splitJoinAux pat rep (pat.length - 1) t
    | none => c :: splitJoinAux pat rep 0 t

/-- The expression `s.split(pat).join(rep)`: every occurrence, left to right.  An
empty separator splits between all characters. -/
def splitJoin (s pat rep : Str) : Str :=
  match pat with
  | [] => List.intercalate rep (s.map (fun c => [c]))
  | _ :: _ => splitJoinAux pat rep 0 s

/-- One lower-case hexadecimal digit. -/
def hexChar (n : Nat) : Char :=
  if n % 16 < 10 then Char.ofNat (48 + n % 16) else Char.ofNat (87 + n % 16)

/-- The last `k` hexadecimal digits of `n`, most significant first. -/
def toHex : Nat → Nat → Str
  | 0, _ => []
  | k + 1, n => toHex k (n / 16) ++ [hexChar n]

/-- The expression `'match' + crypto.createHash('md5').update(span).digest('hex')`. -/
def placeholder (env : Env) (span : Str) : Str :=
  "match".toList ++ toHex 32 (env.md5 span % 2 ^ 128)

/-- The test `reMjs.test(name)` for `/\.mjs$/`. -/
def reMjs (name : Str) : Bool :=
  ".mjs".toList.isSuffixOf name

/-- The test `reCss.test(name)` for `/\.css$/`. -/
def reCss (name : Str) : Bool :=
  ".css".toList.isSuffixOf name

/-! ## class Mjs -/

/-- The option record after defaults are merged in. -/
structure Options where
  root : Str
  compress : Bool
  watch : Bool
  precompile : Bool
  log : Bool
  deriving DecidableEq

/-- An instance of `class Mjs`; `effects` records the external calls made so far
(instrumentation only). -/
structure Mjs where
  options : Options
  cache : Cache
  effects : List Event
  deriving DecidableEq

/-- How a method call ends. -/
inductive Outcome (α : Type) where
  /-- Normal return. -/
  | ok (value : α) (self : Mjs)
  /-- An exception (for `compileFile`: the error passed to the callback). -/
  | throw (err : JsError) (self : Mjs)
  /-- The call does not return within the fuel given: the recursion or the loop
  is still running, in state `self`, when the fuel is used up (in the source: a
  stack overflow or a loop that never ends). -/
  | diverge (self : Mjs)
  deriving DecidableEq

namespace Mjs

/-- Record an external call. -/
def emit (self : Mjs) (e : Event) : Mjs :=
  { self with effects := self.effects ++ [e] }

/-- A cached text that passes the test `if (! filestring)` as present: defined and
not the empty string. -/
def truthy : Option Str → Option Str
  | some (c :: t) => some (c :: t)
  | _ => none

/-- Lines 86-98 of `read`: take the text from the cache or fetch and store it. -/
def loadSource (env : Env) (self : Mjs) (tmplname : Str) : Outcome Str :=
  match truthy (self.cache.getSourceText tmplname) with
  | some filestring => .ok filestring self
  | none =>
    let s1 := self.emit (.fetch tmplname)
    match env.readFileSync tmplname with
    | none => .throw (.notFound tmplname) s1
    | some raw =>
      if reCss tmplname then
        let s2 := s1.emit (.cssShrink raw)
        match env.uglifycss raw with
        | .error e => .throw e s2
        | .ok shrunk => .ok shrunk { s2 with cache := s2.cache.setSourceText tmplname shrunk }
      else .ok raw { s1 with cache := s1.cache.setSourceText tmplname raw }

/-- The loop `while (match = re.exec(filestring))` of `read`, with `rd` the
recursive call `this.read(match[1], tmplname)`. -/
def includeLoop (rd : Mjs → Str → Outcome Str) :
    Nat → Mjs → Str → Nat → Outcome Str
  | 0, self, _, _ => .diverge self
  | fuel + 1, self, filestring, lastIndex =>
    match execInclude filestring lastIndex with
    | none => .ok filestring self
    | some m =>
      match rd self m.group with
      | .ok includer s1 =>
        includeLoop rd fuel s1 (jsReplace filestring m.whole includer)
          (m.index + m.whole.length)
      | .throw e s1 => .throw e s1
      | .diverge s1 => .diverge s1

/-- The method `read (tmplname, parent)`. -/
def read (env : Env) : Nat → Mjs → Str → Option Str → Outcome Str
  | 0, self, _, _ => .diverge self
  | fuel + 1, self, tmplname, parent =>
    match loadSource env self tmplname with
    | .throw e s1 => .throw e s1
    | .diverge s1 => .diverge s1
    | .ok filestring s1 =>
      let s2 : Mjs :=
        match parent with
        | some (c :: p) => { s1 with cache := s1.cache.addRelation tmplname (c :: p) }
        | _ => s1
      if reMjs tmplname then
        includeLoop (fun s child => read env fuel s child (some tmplname)) fuel s2 filestring 0
      else .ok filestring s2

/-- The first loop of `minify`: each match of the directive pattern in
`codestring`, in order, is replaced (first occurrence in `result`) by its
placeholder, and the pair is recorded in `map`. -/
def substitute (env : Env) : List Str → Str × JsObj Str → Str × JsObj Str
  | [], acc => acc
  | span :: spans, (result, map) =>
    substitute env spans
      (jsReplace result span (placeholder env span), map.set (placeholder env span) span)

/-- The last loop of `minify`: `for (let i in map) result = result.split(i).join(map[i])`. -/
def restore : JsObj Str → Str → Str
  | [], result => result
  | (token, span) :: map, result => restore map (splitJoin result token span)

/-- The method `minify (codestring)`. -/
def minify (env : Env) (self : Mjs) (codestring : Str) : Outcome Str :=
  let sub := substitute env (directiveSpans 0 codestring) (codestring, [])
  let s1 := self.emit (.jsShrink sub.1)
  match env.uglifyjs sub.1 with
  | .error e => .throw e s1
  | .ok code => .ok (restore sub.2 code) s1

/-- The method `compileFile (tmplname, cb)`; the outcome is what `cb` receives. -/
def compileFile (env : Env) (fuel : Nat) (self : Mjs) (tmplname : Str) : Outcome Artifact :=
  let hash := env.relative tmplname
  match self.cache.getCompiled hash with
  | some compiled => .ok compiled self
  | none =>
    match read env fuel self hash none with
    | .throw e s1 => .throw e s1
    | .diverge s1 => .diverge s1
    | .ok sourceText s1 =>
      let shrunk : Outcome Str :=
        if s1.options.compress then
          if reCss hash then
            match env.uglifycss sourceText with
            | .error e => .throw e (s1.emit (.cssShrink sourceText))
            | .ok t => .ok t (s1.emit (.cssShrink sourceText))
          else minify env s1 sourceText
        else .ok sourceText s1
      match shrunk with
      | .throw e s2 => .throw e s2
      | .diverge s1 => .diverge s1
      | .ok compiled s2 =>
        let s3 := s2.emit (.engineCompile compiled)
        match env.ejsCompile compiled with
        | .error e => .throw e s3
        | .ok fn => .ok fn { s3 with cache := s3.cache.setCompiled hash fn }

/-- The `filter` pass of `precompile (dir)` over the directory entries: a file
whose extension is `.mjs` is kept, a directory is precompiled on the spot by the
recursive call `rec`, anything else is dropped. -/
def precompileFilter (env : Env) (rec : Mjs → Str → Outcome Unit) (dir : Str) :
    List Str → Mjs → Outcome (List Str)
  | [], self => .ok [] self
  | inode :: rest, self =>
    match env.statSync (env.resolve dir inode) with
    | none => .throw (.notFound (env.resolve dir inode)) self
    | some stat =>
      if env.extname inode = ".mjs".toList ∧ stat = Stat.file then
        match precompileFilter env rec dir rest self with
        | .ok kept s1 => .ok (inode :: kept) s1
        | .throw e s1 => .throw e s1
        | .diverge s1 => .diverge s1
      else if stat = Stat.directory then
        match rec self (env.resolve dir inode) with
        | .ok _ s1 => precompileFilter env rec dir rest s1
        | .throw e s1 => .throw e s1
        | .diverge s1 => .diverge s1
      else precompileFilter env rec dir rest self

/-- The `forEach` pass of `precompile (dir)`: each kept template is compiled; the
callback only logs, so a compile error is dropped. -/
def precompileEach (env : Env) (fuel : Nat) (dir : Str) : List Str → Mjs → Outcome Unit
  | [], self => .ok () self
  | tmplname :: rest, self =>
    match compileFile env fuel self (env.resolve dir tmplname) with
    | .ok _ s1 => precompileEach env fuel dir rest s1
    | .throw _ s1 => precompileEach env fuel dir rest s1
    | .diverge s1 => .diverge s1

/-- The method `precompile (dir)`. -/
def precompile (env : Env) : Nat → Mjs → Str → Outcome Unit
  | 0, self, _ => .diverge self
  | fuel + 1, self, dir =>
    match env.readdirSync dir with
    | none => .throw (.notFound dir) self
    | some inodes =>
      match precompileFilter env (fun s sub => precompile env fuel s sub) dir inodes self with
      | .ok kept s1 => precompileEach env fuel dir kept s1
      | .throw e s1 => .throw e s1
      | .diverge s1 => .diverge s1

end Mjs

/-- The `options` argument of the constructor: `none` is a property the caller
did not supply. -/
structure RawOptions where
  root : Option Str
  compress : Option Bool
  watch : Option Bool
  precompile : Option Bool
  log : Option Bool
  deriving DecidableEq

/-- How `new Mjs(options)` ends. -/
inductive Construction where
  /-- The instance returned. -/
  | built (self : Mjs)
  /-- The constructor throws; no instance is returned. -/
  | failed (err : JsError)
  /-- The constructor does not return within the fuel given. -/
  | diverge
  deriving DecidableEq

/-- The constructor of `class Mjs`, with `configure ()` inlined: the defaults are
merged with the options, a falsy `root` throws, and `precompile` runs when
asked for.  The timer that `watch` starts does nothing during construction. -/
def Mjs.construct (env : Env) (fuel : Nat) (options : RawOptions) : Construction :=
  match Mjs.truthy options.root with
  | none => .failed .rootNotSet
  | some root =>
    let self : Mjs :=
      ⟨⟨root, options.compress.getD true, options.watch.getD false,
          options.precompile.getD false, options.log.getD false⟩, Cache.empty, []⟩
    if self.options.precompile then
      match Mjs.precompile env fuel self self.options.root with
      | .ok _ s1 => .built s1
      | .throw e _ => .failed e
      | .diverge _ => .diverge
    else .built self

/-! ## Example collaborators and states -/

/-- A file system holding `files`, all of them directly in the directory `/views`,
with shrinkers that return their input, an engine that accepts every text,
identifiers already root-relative and a toy digest. -/
def exampleEnv (files : JsObj Str) : Env where
  readFileSync := fun name => JsObj.get files name
  relative := fun name => name
  uglifycss := fun s => .ok s
  uglifyjs := fun s => .ok s
  md5 := fun s => s.foldl (fun a ch => a * 31 + ch.toNat) 7
  ejsCompile := fun s => .ok ⟨s⟩
  readdirSync := fun dir => if dir = "/views".toList then some (JsObj.keys files) else none
  statSync := fun path => (JsObj.get files path).map (fun _ => Stat.file)
  resolve := fun _ name => name
  extname := fun name => if reMjs name then ".mjs".toList else []

/-- The file system of `exampleEnv files` with any shrinkers, digest and engine. -/
def libEnv (files : JsObj Str) (css js : Str → Except JsError Str) (md5 : Str → Nat)
    (engine : Str → Except JsError Artifact) : Env :=
  { exampleEnv files with uglifycss := css, uglifyjs := js, md5 := md5, ejsCompile := engine }

/-- A fresh instance with the default options and root `/views`. -/
def freshMjs : Mjs :=
  ⟨⟨"/views".toList, true, false, false, false⟩, Cache.empty, []⟩

/-- The state a call ends in (or is in when the fuel is used up). -/
def Outcome.state {α : Type} : Outcome α → Mjs
  | .ok _ s => s
  | .throw _ s => s
  | .diverge s => s

/-- Files: `a.mjs` includes `b.mjs`, which includes `c.mjs`. -/
def chainFiles : JsObj Str :=
  [("a.mjs".toList, "<h1><% include 'b.mjs' %></h1>".toList),
   ("b.mjs".toList, "<b><% include 'c.mjs' %></b>".toList),
   ("c.mjs".toList, "<%= title %>".toList)]

/-- The cache after `a.mjs` of `chainFiles` is compiled by a fresh instance. -/
def chainCache : Cache :=
  (Mjs.compileFile (exampleEnv chainFiles) 4 freshMjs "a.mjs".toList).state.cache

/-- Files: as `chainFiles`, with the text of `c.mjs` changed. -/
def chainFilesChanged : JsObj Str :=
  [("a.mjs".toList, "<h1><% include 'b.mjs' %></h1>".toList),
   ("b.mjs".toList, "<b><% include 'c.mjs' %></b>".toList),
   ("c.mjs".toList, "<%= subtitle %>".toList)]

/-- The instance after `a.mjs` of `chainFiles` is compiled by a fresh instance. -/
def chainState : Mjs :=
  (Mjs.compileFile (exampleEnv chainFiles) 4 freshMjs "a.mjs".toList).state

/-- The cache of `chainState` after `clearOne("c.mjs")`. -/
def chainClearedCache : Cache :=
  (chainState.cache.clearOne 3 "c.mjs".toList).getD Cache.empty

/-- Files: `a.mjs` includes `b.mjs`, which includes `a.mjs`. -/
def circularFiles : JsObj Str :=
  [("a.mjs".toList, "<% include 'b.mjs' %>".toList),
   ("b.mjs".toList, "<% include 'a.mjs' %>".toList)]

/-- Files: `a.mjs` and `b.mjs` both include `c.mjs`. -/
def twoIncluderFiles : JsObj Str :=
  [("a.mjs".toList, "<% include 'c.mjs' %> from a".toList),
   ("b.mjs".toList, "<% include 'c.mjs' %> from b".toList),
   ("c.mjs".toList, "shared".toList)]

/-- Files: `a.mjs` includes `x.mjs` and then `c.mjs`, `b.mjs` includes `c.mjs`; the
text of `x.mjs` is shorter than the directive naming it. -/
def sharedSkipFiles : JsObj Str :=
  [("a.mjs".toList, "<% include 'x.mjs' %><% include 'c.mjs' %>".toList),
   ("x.mjs".toList, "x".toList),
   ("b.mjs".toList, "<% include 'c.mjs' %> from b".toList),
   ("c.mjs".toList, "shared".toList)]

/-- Files: `a.mjs` includes `x.mjs` and then `b.mjs`, and `b.mjs` includes `a.mjs`;
the text of `x.mjs` is shorter than the directive naming it. -/
def circularSkipFiles : JsObj Str :=
  [("a.mjs".toList, "<% include 'x.mjs' %><% include 'b.mjs' %>".toList),
   ("x.mjs".toList, "x".toList),
   ("b.mjs".toList, "<% include 'a.mjs' %>".toList)]

/-- Files: the template `a.mjs` is empty. -/
def emptyFiles : JsObj Str :=
  [("a.mjs".toList, [])]

/-- The instance after a fresh instance has read the empty `a.mjs`. -/
def emptyCachedState : Mjs :=
  (Mjs.read (exampleEnv emptyFiles) 2 freshMjs "a.mjs".toList none).state

/-- Files: `a.mjs` includes the plain file `x.html`, whose text ends in what looks
like an include directive for `y.mjs`. -/
def rescanFiles : JsObj Str :=
  [("a.mjs".toList, "<% include 'x.html' %>".toList),
   ("x.html".toList, "<p>some static markup</p><% include 'y.mjs' %>".toList),
   ("y.mjs".toList, "Y!".toList)]

/-- The state in which the read of `a.mjs` of `circularFiles` runs out of fuel 3. -/
def circularState : Mjs :=
  (Mjs.read (exampleEnv circularFiles) 3 freshMjs "a.mjs".toList none).state

/-- Relations recorded when `a.mjs` and `b.mjs` both include `c.mjs`, with both
compiled. -/
def twoParentCache : Cache :=
  ⟨[], [("a.mjs".toList, ⟨"A".toList⟩), ("b.mjs".toList, ⟨"B".toList⟩)],
    [("c.mjs".toList, ["a.mjs".toList, "b.mjs".toList])]⟩

/-- Relations of a diamond: `a` is included by `b` and by `c`, both included by `d`. -/
def diamondCache : Cache :=
  ⟨[], [("d".toList, ⟨"D".toList⟩)],
    [("a".toList, ["b".toList, "c".toList]), ("b".toList, ["d".toList]),
     ("c".toList, ["d".toList])]⟩

/-- Files: `a.mjs` includes `b.mjs` and then `m.mjs`, which does not exist. -/
def failFiles : JsObj Str :=
  [("a.mjs".toList, "<% include 'b.mjs' %><hr/><hr/><hr/><% include 'm.mjs' %>".toList),
   ("b.mjs".toList, "<b>hi</b>".toList)]

/-- Files: `a.mjs` holds two adjacent include directives; the text of `b.mjs` is
shorter than the directive naming it. -/
def skipFiles : JsObj Str :=
  [("a.mjs".toList, "<% include 'b.mjs' %><% include 'c.mjs' %>".toList),
   ("b.mjs".toList, "<b>hi</b>".toList),
   ("c.mjs".toList, "<i>yo</i>".toList)]

/-- Files: as `skipFiles`, but the second directive names `m.mjs`, which does not
exist. -/
def missingFiles : JsObj Str :=
  [("a.mjs".toList, "<% include 'b.mjs' %><% include 'm.mjs' %>".toList),
   ("b.mjs".toList, "<b>hi</b>".toList)]

/-- Files: `a.mjs` includes `b.mjs`, whose text holds a dollar sign followed by a
quote. -/
def dollarFiles : JsObj Str :=
  [("a.mjs".toList, "<p><% include 'b.mjs' %></p>".toList),
   ("b.mjs".toList, "<script>var unit = '$';</script>".toList)]

/-- What a call hands back: a value, an error, or nothing when it diverges. -/
def Outcome.result {α : Type} : Outcome α → Option (Except JsError α)
  | .ok v _ => some (.ok v)
  | .throw e _ => some (.error e)
  | .diverge _ => none

/-- The text a fetch of `name` stores in the Content Store: the file as read,
shrunk when `name` is a stylesheet; `none` when the fetch throws. -/
def loadText (env : Env) (name : Str) : Option Str :=
  match env.readFileSync name with
  | none => none
  | some raw =>
    if reCss name then
      match env.uglifycss raw with
      | .ok shrunk => some shrunk
      | .error _ => none
    else some raw

/-- Every usable Content Entry holds the text a fetch would store now. -/
def Cache.Coherent (env : Env) (c : Cache) : Prop :=
  ∀ x text, Mjs.truthy (c.getSourceText x) = some text → loadText env x = some text

/-- The cache states the methods of `class Cache` reach from the empty cache. -/
inductive Cache.Reachable : Cache → Prop where
  | empty : Cache.Reachable Cache.empty
  | setSourceText {c : Cache} (h : Cache.Reachable c) (hash text : Str) :
    Cache.Reachable (c.setSourceText hash text)
  | setCompiled {c : Cache} (h : Cache.Reachable c) (hash : Str) (compiled : Artifact) :
    Cache.Reachable (c.setCompiled hash compiled)
  | addRelation {c : Cache} (h : Cache.Reachable c) (child parent : Str) :
    Cache.Reachable (c.addRelation child parent)
  | clearRelation {c c2 : Cache} {vs : List Str} (h : Cache.Reachable c) (fuel : Nat)
    (hash : Str) (hr : c.clearRelation fuel hash = some (c2, vs)) : Cache.Reachable c2
  | clearOne {c c2 : Cache} (h : Cache.Reachable c) (fuel : Nat) (hash : Str)
    (hr : c.clearOne fuel hash = some c2) : Cache.Reachable c2
  | clearAll {c c2 : Cache} (h : Cache.Reachable c) (fuel : Nat)
    (hr : c.clearAll fuel = some c2) : Cache.Reachable c2

/-- Two instance states that agree with the backing store and treat the
identifier `C` alike: it is usable in both Content Stores or in neither, and a
fetch of it is logged in both or in neither. -/
def Mjs.SameFor (env : Env) (C : Str) (s t : Mjs) : Prop :=
  s.cache.Coherent env ∧ t.cache.Coherent env ∧
  (Mjs.truthy (s.cache.getSourceText C) = none ↔ Mjs.truthy (t.cache.getSourceText C) = none) ∧
  (Event.fetch C ∈ s.effects ↔ Event.fetch C ∈ t.effects)

/-- The cache a `clearOne (hash)` leaves when it is cut short after the cascade has
visited the parents `vs`. -/
def Cache.clearOneAborted (c : Cache) (hash : Str) (vs : List Str) : Cache :=
  vs.foldl Cache.deleteCompiled
    ⟨c.sourceCache.delete hash, c.compiledCache.delete hash, c.cacheRelations⟩

/-- The instance states reached from `s` by calls of `compileFile`, `clearOne` and
`clearAll`, however they end. -/
inductive Mjs.Reaches (env : Env) (s : Mjs) : Mjs → Prop where
  | refl : Mjs.Reaches env s s
  | compileFile {t : Mjs} (h : Mjs.Reaches env s t) (fuel : Nat) (id : Str) :
    Mjs.Reaches env s (Mjs.compileFile env fuel t id).state
  | clearOne {t : Mjs} {c2 : Cache} (h : Mjs.Reaches env s t) (fuel : Nat) (hash : Str)
    (hr : t.cache.clearOne fuel hash = some c2) : Mjs.Reaches env s { t with cache := c2 }
  | clearAll {t : Mjs} {c2 : Cache} (h : Mjs.Reaches env s t) (fuel : Nat)
    (hr : t.cache.clearAll fuel = some c2) : Mjs.Reaches env s { t with cache := c2 }
  /-- A `clearOne(hash)` that is cut short by a stack overflow (also inside
  `clearAll`): the two entries of `hash` are deleted, and the Compiled Entries of
  the parents visited until then, `vs`. -/
  | clearOneAborted {t : Mjs} (h : Mjs.Reaches env s t) (hash : Str) (vs : List Str) :
    Mjs.Reaches env s { t with cache := t.cache.clearOneAborted hash vs }

/-- The texts the directive pattern matches: the open marker, a body free of
`%` and `>`, the close marker. -/
def IsSpan (w : Str) : Prop :=
  ∃ body : Str, w = '<' :: '%' :: body ++ ['%', '>'] ∧ ∀ c ∈ body, notMarker c = true

/-- The text with every match of the directive pattern (as enumerated by
`directiveSpans`) replaced by `f` of the match; `skip` as in `directiveSpans`. -/
def rewriteSpans (f : Str → Str) : Nat → Str → Str
  | _, [] => []
  | skip + 1, _ :: t => rewriteSpans f skip t
  | 0, c :: t =>
    match matchDirective (c :: t) with
    | some (w, _) => f w ++ rewriteSpans f (w.length - 1) t
    | none => c :: rewriteSpans f 0 t

/-- A text with a directive holding quotes, two adjacent directives and a
repeated directive. -/
def roundTripText : Str :=
  "var a = <%= t(\"q\") %><% x %>; f(<% x %>);".toList

/-! ## State relations used in the statements -/

/-- The property `P` holds of the state a call ends in (or is in when the fuel is
used up). -/
def Outcome.Ends {α : Type} (P : Mjs → Prop) : Outcome α → Prop
  | .ok _ s => P s
  | .throw _ s => P s
  | .diverge s => P s

/-- The state `t` comes from `s` by reads: same options and Compiled Store, every
non-empty Content Entry kept, every relation edge kept, effects only appended. -/
structure Mjs.Extends (s t : Mjs) : Prop where
  options_eq : t.options = s.options
  compiled_eq : t.cache.compiledCache = s.cache.compiledCache
  source_kept : ∀ x text, Mjs.truthy (s.cache.getSourceText x) = some text →
    t.cache.getSourceText x = some text
  edges_kept : ∀ child parent, s.cache.IsParent child parent → t.cache.IsParent child parent
  effects_grow : ∃ evs, t.effects = s.effects ++ evs

end EjsMin

namespace EjsMin

/-! ## Dictionary lemmas -/

theorem JsObj.get_delete_self {α : Type} (obj : JsObj α) (key : Str) :
    JsObj.get (JsObj.delete obj key) key = none := by
  induction obj with
  | nil => rfl
  | cons e rest ih =>
    obtain ⟨k, v⟩ := e
    by_cases h : k = key
    · simpa [JsObj.delete, List.filter_cons, h] using ih
    · simpa [JsObj.delete, List.filter_cons, h, JsObj.get] using ih

theorem JsObj.get_delete_ne {α : Type} (obj : JsObj α) {key other : Str} (hne : other ≠ key) :
    JsObj.get (JsObj.delete obj key) other = JsObj.get obj other := by
  induction obj with
  | nil => rfl
  | cons e rest ih =>
    obtain ⟨k, v⟩ := e
    by_cases h : k = key
    · subst h
      have hk : ¬ k = other := fun hk => hne hk.symm
      simpa [JsObj.delete, List.filter_cons, JsObj.get, hk] using ih
    · by_cases hk : k = other
      · subst hk
        simp [JsObj.delete, List.filter_cons, h, JsObj.get]
      · simpa [JsObj.delete, List.filter_cons, h, JsObj.get, hk] using ih

theorem JsObj.get_delete_eq_none {α : Type} (obj : JsObj α) (key other : Str)
    (h : JsObj.get obj other = none) : JsObj.get (JsObj.delete obj key) other = none := by
  by_cases hk : other = key
  · subst hk; exact JsObj.get_delete_self obj other
  · rw [JsObj.get_delete_ne obj hk]; exact h

theorem JsObj.get_set_self {α : Type} (obj : JsObj α) (key : Str) (v : α) :
    JsObj.get (JsObj.set obj key v) key = some v := by
  induction obj with
  | nil => simp [JsObj.set, JsObj.get]
  | cons e rest ih =>
    obtain ⟨k, w⟩ := e
    by_cases h : k = key
    · simp [JsObj.set, JsObj.get, h]
    · simpa [JsObj.set, JsObj.get, h] using ih

theorem JsObj.get_set_ne {α : Type} (obj : JsObj α) {key other : Str} (v : α)
    (hne : other ≠ key) : JsObj.get (JsObj.set obj key v) other = JsObj.get obj other := by
  induction obj with
  | nil =>
    have : key ≠ other := fun h => hne h.symm
    simp [JsObj.set, JsObj.get, this]
  | cons e rest ih =>
    obtain ⟨k, w⟩ := e
    by_cases h : k = key
    · subst h
      have hk : ¬ k = other := fun hk => hne hk.symm
      simp [JsObj.set, JsObj.get, hk]
    · by_cases hk : k = other
      · subst hk
        simp [JsObj.set, JsObj.get, h]
      · simpa [JsObj.set, JsObj.get, h, hk] using ih

theorem JsObj.mem_of_get {α : Type} (obj : JsObj α) (key : Str) (v : α)
    (h : JsObj.get obj key = some v) : (key, v) ∈ obj := by
  induction obj with
  | nil => simp [JsObj.get] at h
  | cons e rest ih =>
    obtain ⟨k, w⟩ := e
    by_cases hk : k = key
    · simp [JsObj.get, hk] at h
      simp [hk, h]
    · simp [JsObj.get, hk] at h
      exact List.mem_cons_of_mem _ (ih h)

end EjsMin

namespace EjsMin

/-! ## The cascade `clearRelation` -/

namespace Cache

/-- The cache after the compiled entries of `vs` are deleted one after the other. -/
theorem deleteAll_relations (vs : List Str) (c : Cache) :
    (vs.foldl deleteCompiled c).cacheRelations = c.cacheRelations ∧
    (vs.foldl deleteCompiled c).sourceCache = c.sourceCache := by
  induction vs generalizing c with
  | nil => exact ⟨rfl, rfl⟩
  | cons v vs ih => simpa [deleteCompiled] using ih (c.deleteCompiled v)

theorem isParent_congr {c d : Cache} (h : d.cacheRelations = c.cacheRelations) :
    d.IsParent = c.IsParent := by
  funext a b
  simp [IsParent, parents, h]

theorem getCompiled_deleteAll_of_mem (vs : List Str) (c : Cache) (x : Str) (hx : x ∈ vs) :
    (vs.foldl deleteCompiled c).getCompiled x = none := by
  induction vs generalizing c with
  | nil => simp at hx
  | cons v vs ih =>
    by_cases hv : x ∈ vs
    · exact ih _ hv
    · have hxv : x = v := by simpa [hv] using hx
      subst hxv
      have key : ∀ (ws : List Str) (d : Cache), d.getCompiled x = none →
          (ws.foldl deleteCompiled d).getCompiled x = none := by
        intro ws
        induction ws with
        | nil => intro d hd; exact hd
        | cons w ws ihw =>
          intro d hd
          exact ihw _ (JsObj.get_delete_eq_none d.compiledCache w x hd)
      exact key vs _ (JsObj.get_delete_self c.compiledCache x)

theorem getCompiled_deleteAll_of_none (vs : List Str) (c : Cache) (x : Str)
    (hx : c.getCompiled x = none) : (vs.foldl deleteCompiled c).getCompiled x = none := by
  induction vs generalizing c with
  | nil => exact hx
  | cons v vs ih => exact ih _ (JsObj.get_delete_eq_none c.compiledCache v x hx)

theorem getCompiled_deleteAll_of_not_mem (vs : List Str) (c : Cache) (x : Str)
    (hx : x ∉ vs) : (vs.foldl deleteCompiled c).getCompiled x = c.getCompiled x := by
  induction vs generalizing c with
  | nil => rfl
  | cons v vs ih =>
    have h1 : x ≠ v := fun h => hx (h ▸ List.mem_cons_self _ _)
    have h2 : x ∉ vs := fun h => hx (List.mem_cons_of_mem _ h)
    rw [List.foldl_cons, ih _ h2]
    exact JsObj.get_delete_ne c.compiledCache h1

/-- What `clearRelation` does when it returns: it deletes the compiled entries of
the identifiers it visits, and it visits exactly the transitive parents of `hash`. -/
theorem clearRelation_spec (fuel : Nat) (c : Cache) (hash : Str) (c2 : Cache) (vs : List Str)
    (h : clearRelation fuel c hash = some (c2, vs)) :
    c2 = vs.foldl deleteCompiled c ∧ ∀ v, v ∈ vs ↔ Relation.TransGen c.IsParent hash v := by
  suffices H : ∀ (fuel : Nat) (R : Str → Str → Prop) (c : Cache), c.IsParent = R →
      ∀ hash c2 vs, clearRelation fuel c hash = some (c2, vs) →
        c2 = vs.foldl deleteCompiled c ∧ ∀ v, v ∈ vs ↔ Relation.TransGen R hash v from
    H fuel _ c rfl hash c2 vs h
  clear h
  intro fuel R
  induction fuel with
  | zero => intro c _ hash c2 vs h; simp [clearRelation] at h
  | succ n ih =>
    intro c hR hash c2 vs h
    simp only [clearRelation] at h
    have hrec : ∀ d p d1 v1, d.cacheRelations = c.cacheRelations →
        clearRelation n d p = some (d1, v1) →
        d1 = v1.foldl deleteCompiled d ∧ ∀ v, v ∈ v1 ↔ Relation.TransGen R p v := by
      intro d p d1 v1 hd hr
      exact ih d ((isParent_congr hd).trans hR) p d1 v1 hr
    -- the recursive calls are only ever made on caches with the same relations
    have key : ∀ (ps : List Str) (d d2 : Cache) (ws : List Str),
        d.cacheRelations = c.cacheRelations →
        clearParents (fun c1 parent => clearRelation n c1 parent) ps d = some (d2, ws) →
        d2 = ws.foldl deleteCompiled d ∧
          ∀ v, v ∈ ws ↔ ∃ p ∈ ps, v = p ∨ Relation.TransGen R p v := by
      intro ps
      induction ps with
      | nil =>
        intro d d2 ws _ hp
        simp [clearParents] at hp
        obtain ⟨rfl, rfl⟩ := hp
        simp
      | cons p ps ihp =>
        intro d d2 ws hd hp
        simp only [clearParents] at hp
        cases hr : clearRelation n (d.deleteCompiled p) p with
        | none => simp [hr] at hp
        | some r1 =>
          obtain ⟨c1, v1⟩ := r1
          simp only [hr] at hp
          cases hr2 : clearParents (fun c1 parent => clearRelation n c1 parent) ps c1 with
          | none => simp [hr2] at hp
          | some r2 =>
            obtain ⟨c3, v2⟩ := r2
            simp only [hr2, Option.some.injEq, Prod.mk.injEq] at hp
            obtain ⟨rfl, rfl⟩ := hp
            obtain ⟨e1, m1⟩ := hrec (d.deleteCompiled p) p c1 v1 hd hr
            have hc1 : c1.cacheRelations = c.cacheRelations := by
              rw [e1, (deleteAll_relations v1 _).1]; exact hd
            obtain ⟨e2, m2⟩ := ihp c1 _ _ hc1 hr2
            refine ⟨?_, ?_⟩
            · rw [e2, e1]
              simp [List.foldl_append]
            · intro v
              simp only [List.cons_append, List.mem_cons, List.mem_append, m1, m2]
              constructor
              · rintro (h | h | ⟨q, hq, h⟩)
                · exact ⟨p, Or.inl rfl, Or.inl h⟩
                · exact ⟨p, Or.inl rfl, Or.inr h⟩
                · exact ⟨q, Or.inr hq, h⟩
              · rintro ⟨q, (rfl | hq), h⟩
                · rcases h with h | h
                  · exact Or.inl h
                  · exact Or.inr (Or.inl h)
                · exact Or.inr (Or.inr ⟨q, hq, h⟩)
    obtain ⟨e, m⟩ := key (c.parents hash) c c2 vs rfl h
    refine ⟨e, fun v => (m v).trans ?_⟩
    constructor
    · rintro ⟨p, hp, (rfl | h)⟩
      · exact Relation.TransGen.single (hR ▸ hp)
      · exact Relation.TransGen.head (hR ▸ hp) h
    · intro h
      rcases Relation.TransGen.head'_iff.mp h with ⟨p, hp, hpv⟩
      have hp' : p ∈ c.parents hash := by rw [← hR] at hp; exact hp
      rcases Relation.reflTransGen_iff_eq_or_transGen.mp hpv with rfl | h2
      · exact ⟨v, hp', Or.inl rfl⟩
      · exact ⟨p, hp', Or.inr h2⟩

end Cache

end EjsMin

namespace EjsMin

namespace Cache

/-- The cascade returns when every parent has a smaller rank than its child. -/
theorem clearRelation_isSome_of_rank (rank : Str → Nat) (rel : JsObj (List Str))
    (hrank : ∀ a b, b ∈ (rel.get a).getD [] → rank b < rank a)
    (fuel : Nat) (c : Cache) (hc : c.cacheRelations = rel) (hash : Str)
    (hfuel : rank hash < fuel) : (clearRelation fuel c hash).isSome = true := by
  induction fuel generalizing c hash with
  | zero => omega
  | succ n ih =>
    simp only [clearRelation]
    have key : ∀ (ps : List Str) (d : Cache), d.cacheRelations = rel →
        (∀ p ∈ ps, rank p < n) →
        (clearParents (fun c1 parent => clearRelation n c1 parent) ps d).isSome = true := by
      intro ps
      induction ps with
      | nil => intro d _ _; rfl
      | cons p ps ihp =>
        intro d hd hps
        simp only [clearParents]
        have h1 := ih (d.deleteCompiled p) hd p (hps p (List.mem_cons_self _ _))
        cases hr : clearRelation n (d.deleteCompiled p) p with
        | none => simp [hr] at h1
        | some r1 =>
          obtain ⟨c1, v1⟩ := r1
          have hc1 : c1.cacheRelations = rel := by
            rw [(clearRelation_spec _ _ _ _ _ hr).1, (deleteAll_relations v1 _).1]; exact hd
          have h2 := ihp c1 hc1 (fun q hq => hps q (List.mem_cons_of_mem _ hq))
          cases hr2 : clearParents (fun c1 parent => clearRelation n c1 parent) ps c1 with
          | none => simp [hr2] at h2
          | some r2 => obtain ⟨c3, v2⟩ := r2; simp [hr2]
    apply key _ c hc
    intro p hp
    have := hrank hash p (by simpa [parents, hc] using hp)
    omega

/-- An acyclic relation graph has a rank function that decreases from child to
parent: the number of identifiers reachable from each identifier. -/
theorem exists_rank_of_acyclic (c : Cache) (hac : c.Acyclic) :
    ∃ rank : Str → Nat, ∀ a b, c.IsParent a b → rank b < rank a := by
  classical
  let nodes : Finset Str := (c.cacheRelations.flatMap (fun e => e.2)).toFinset
  refine ⟨fun x => (nodes.filter (fun y => Relation.TransGen c.IsParent x y)).card, ?_⟩
  intro a b hab
  apply Finset.card_lt_card
  rw [Finset.ssubset_iff_of_subset]
  · refine ⟨b, ?_, ?_⟩
    · simp only [Finset.mem_filter]
      refine ⟨?_, Relation.TransGen.single hab⟩
      simp only [nodes, List.mem_toFinset, List.mem_flatMap]
      unfold IsParent parents at hab
      cases hg : JsObj.get c.cacheRelations a with
      | none => simp [hg] at hab
      | some ps =>
        simp [hg] at hab
        exact ⟨(a, ps), JsObj.mem_of_get _ _ _ hg, hab⟩
    · simp only [Finset.mem_filter, not_and]
      intro _ hbb
      exact hac b hbb
  · intro y hy
    simp only [Finset.mem_filter] at hy ⊢
    exact ⟨hy.1, Relation.TransGen.head hab hy.2⟩

/-- On an acyclic relation graph the cascade returns once the fuel is large enough. -/
theorem clearRelation_terminates (c : Cache) (hac : c.Acyclic) :
    ∃ n : Str → Nat, ∀ fuel hash, n hash < fuel → ∀ d : Cache, d.cacheRelations = c.cacheRelations →
      (clearRelation fuel d hash).isSome = true := by
  obtain ⟨rank, hrank⟩ := exists_rank_of_acyclic c hac
  refine ⟨rank, fun fuel hash hf d hd => ?_⟩
  exact clearRelation_isSome_of_rank rank c.cacheRelations
    (fun a b hb => hrank a b (by simpa [IsParent, parents] using hb)) fuel d hd hash hf

end Cache

end EjsMin

namespace EjsMin

namespace Cache

/-- A graph whose parents all have a smaller rank than their children is acyclic. -/
theorem acyclic_of_rank (c : Cache) (rank : Str → Nat)
    (h : ∀ e ∈ c.cacheRelations, ∀ p ∈ e.2, rank p < rank e.1) : c.Acyclic := by
  have step : ∀ a b, c.IsParent a b → rank b < rank a := by
    intro a b hab
    unfold IsParent parents at hab
    cases hg : JsObj.get c.cacheRelations a with
    | none => simp [hg] at hab
    | some ps =>
      simp [hg] at hab
      exact h (a, ps) (JsObj.mem_of_get _ _ _ hg) b hab
  have tr : ∀ a b, Relation.TransGen c.IsParent a b → rank b < rank a := by
    intro a b hab
    induction hab with
    | single h1 => exact step _ _ h1
    | tail _ h2 ih => exact lt_trans (step _ _ h2) ih
  intro x hx
  exact lt_irrefl _ (tr x x hx)

/-- What `clearOne` leaves behind when the cascade returns. -/
theorem clearOne_spec (fuel : Nat) (c c2 : Cache) (hash : Str)
    (h : clearOne fuel c hash = some c2) :
    c2.getSourceText hash = none ∧ c2.getCompiled hash = none ∧
    c2.cacheRelations = c.cacheRelations ∧
    ∀ x, Relation.TransGen c.IsParent hash x → c2.getCompiled x = none := by
  unfold clearOne at h
  simp only [Option.map_eq_some', Prod.exists, exists_and_right, exists_eq_right] at h
  obtain ⟨vs, hr⟩ := h
  obtain ⟨e, m⟩ := clearRelation_spec _ _ _ _ _ hr
  refine ⟨?_, ?_, ?_, ?_⟩
  · rw [e, getSourceText, (deleteAll_relations vs _).2]
    exact JsObj.get_delete_self _ _
  · rw [e]
    exact getCompiled_deleteAll_of_none vs _ hash (JsObj.get_delete_self _ _)
  · rw [e, (deleteAll_relations vs _).1]
  · intro x hx
    rw [e]
    apply getCompiled_deleteAll_of_mem
    rw [m]
    exact hx

theorem clearOne_isSome (c : Cache) (hac : c.Acyclic) :
    ∃ n : Str → Nat, ∀ fuel hash, n hash < fuel → (clearOne fuel c hash).isSome = true := by
  obtain ⟨n, hn⟩ := clearRelation_terminates c hac
  refine ⟨n, fun fuel hash hf => ?_⟩
  unfold clearOne
  simp only [Option.isSome_map']
  exact hn fuel hash hf _ rfl

end Cache

/-- C1. Cascading invalidation: on an acyclic relation graph `clearOne(C)` returns
(for all large enough fuel), and afterwards the Compiled Store has no entry for
`C` nor for any identifier that the recorded include chain makes a transitive
includer of `C`. -/
theorem C1_clearOne_cascades (c : Cache) (hac : c.Acyclic) (C : Str) :
    ∃ n : Nat, ∀ fuel, n < fuel → ∃ c2, Cache.clearOne fuel c C = some c2 ∧
      c2.getCompiled C = none ∧
      ∀ X, Relation.TransGen c.IsParent C X → c2.getCompiled X = none := by
  obtain ⟨n, hn⟩ := Cache.clearOne_isSome c hac
  refine ⟨n C, fun fuel hf => ?_⟩
  have hs := hn fuel C hf
  cases hr : Cache.clearOne fuel c C with
  | none => simp [hr] at hs
  | some c2 =>
    obtain ⟨_, h2, _, h4⟩ := Cache.clearOne_spec fuel c c2 C hr
    exact ⟨c2, rfl, h2, h4⟩

theorem chainCache_eq : chainCache =
    ⟨[("a.mjs".toList, "<h1><% include 'b.mjs' %></h1>".toList),
      ("b.mjs".toList, "<b><% include 'c.mjs' %></b>".toList),
      ("c.mjs".toList, "<%= title %>".toList)],
     [("a.mjs".toList, ⟨"<h1><b><%= title %></b></h1>".toList⟩)],
     [("b.mjs".toList, ["a.mjs".toList]), ("c.mjs".toList, ["b.mjs".toList])]⟩ := by
  decide

end EjsMin

namespace EjsMin

theorem chainCache_acyclic : chainCache.Acyclic := by
  apply Cache.acyclic_of_rank chainCache
    (fun s => if s = "c.mjs".toList then 2 else if s = "b.mjs".toList then 1 else 0)
  rw [chainCache_eq]
  decide

theorem twoParentCache_acyclic : twoParentCache.Acyclic := by
  apply Cache.acyclic_of_rank twoParentCache (fun s => if s = "c.mjs".toList then 1 else 0)
  decide

theorem diamondCache_acyclic : diamondCache.Acyclic := by
  apply Cache.acyclic_of_rank diamondCache
    (fun s => if s = "a".toList then 2 else if s = "d".toList then 0 else 1)
  decide

/-- Witness for C1: the cache left by compiling `a.mjs` (which includes `b.mjs`,
which includes `c.mjs`) is acyclic, so the cascade from `c.mjs` clears it. -/
theorem C1_clearOne_cascades_witness :
    chainCache.Acyclic ∧
    ∃ n : Nat, ∀ fuel, n < fuel → ∃ c2, Cache.clearOne fuel chainCache "c.mjs".toList = some c2 ∧
      c2.getCompiled "c.mjs".toList = none ∧
      ∀ X, Relation.TransGen chainCache.IsParent "c.mjs".toList X → c2.getCompiled X = none :=
  ⟨chainCache_acyclic, C1_clearOne_cascades chainCache chainCache_acyclic "c.mjs".toList⟩

/-- C9, as stated, fails: after `clearOne("c.mjs")` on the two-parent cache the
Relation Graph still has `c.mjs` as a key, with both parents. -/
theorem C9_counterexample :
    twoParentCache.Acyclic ∧
    ∃ c2, Cache.clearOne 2 twoParentCache "c.mjs".toList = some c2 ∧
      c2.cacheRelations.get "c.mjs".toList = some ["a.mjs".toList, "b.mjs".toList] ∧
      c2.parents "c.mjs".toList ≠ [] :=
  ⟨twoParentCache_acyclic, _, rfl, by decide, by decide⟩

/-- C9, amended. On an acyclic relation graph `clearOne(id)` returns (for all
large enough fuel), and afterwards the Content Store has no entry for `id`, the
Compiled Store has no entry for `id`, and the Relation Graph is unchanged, so
`id` keeps its parent list. -/
theorem C9_clearOne_removes_entries (c : Cache) (hac : c.Acyclic) (id : Str) :
    ∃ n : Nat, ∀ fuel, n < fuel → ∃ c2, Cache.clearOne fuel c id = some c2 ∧
      c2.getSourceText id = none ∧ c2.getCompiled id = none ∧
      c2.cacheRelations = c.cacheRelations ∧ c2.parents id = c.parents id := by
  obtain ⟨n, hn⟩ := Cache.clearOne_isSome c hac
  refine ⟨n id, fun fuel hf => ?_⟩
  have hs := hn fuel id hf
  cases hr : Cache.clearOne fuel c id with
  | none => simp [hr] at hs
  | some c2 =>
    obtain ⟨h1, h2, h3, _⟩ := Cache.clearOne_spec fuel c c2 id hr
    exact ⟨c2, rfl, h1, h2, h3, by simp [Cache.parents, h3]⟩

/-- Witness for the amended C9 on the two-parent cache. -/
theorem C9_clearOne_removes_entries_witness :
    twoParentCache.Acyclic ∧
    ∃ n : Nat, ∀ fuel, n < fuel → ∃ c2, Cache.clearOne fuel twoParentCache "c.mjs".toList = some c2 ∧
      c2.getSourceText "c.mjs".toList = none ∧ c2.getCompiled "c.mjs".toList = none ∧
      c2.cacheRelations = twoParentCache.cacheRelations ∧
      c2.parents "c.mjs".toList = twoParentCache.parents "c.mjs".toList :=
  ⟨twoParentCache_acyclic,
    C9_clearOne_removes_entries twoParentCache twoParentCache_acyclic "c.mjs".toList⟩

/-- C10, as stated, fails: in the diamond the cascade from `a` visits `d` twice,
once through `b` and once through `c`. -/
theorem C10_counterexample :
    diamondCache.Acyclic ∧
    (Cache.clearRelation 3 diamondCache "a".toList).map Prod.snd =
      some ["b".toList, "d".toList, "c".toList, "d".toList] ∧
    ((Cache.clearRelation 3 diamondCache "a".toList).map
      (fun r => r.2.count "d".toList)) = some 2 :=
  ⟨diamondCache_acyclic, by decide, by decide⟩

/-- C10, amended. On an acyclic relation graph one call of `clearRelation(id)`
returns (for all large enough fuel) and visits exactly the parents reachable from
`id`, each at least once; and when `C` has the two parents `A` and `B`, which have
no parents themselves, `clearOne(C)` makes exactly two cascade visits, one for
`A` and one for `B`. -/
theorem C10_cascade_visits (c : Cache) (hac : c.Acyclic) (id : Str) :
    (∃ n : Nat, ∀ fuel, n < fuel → ∃ c2 vs, Cache.clearRelation fuel c id = some (c2, vs) ∧
      ∀ v, v ∈ vs ↔ Relation.TransGen c.IsParent id v) ∧
    (∀ A B fuel, c.parents id = [A, B] → c.parents A = [] → c.parents B = [] → 2 ≤ fuel →
      Cache.clearOneVisits fuel c id = some [A, B]) := by
  constructor
  · obtain ⟨n, hn⟩ := Cache.clearRelation_terminates c hac
    refine ⟨n id, fun fuel hf => ?_⟩
    have hs := hn fuel id hf c rfl
    cases hr : Cache.clearRelation fuel c id with
    | none => simp [hr] at hs
    | some r =>
      obtain ⟨c2, vs⟩ := r
      exact ⟨c2, vs, rfl, (Cache.clearRelation_spec _ _ _ _ _ hr).2⟩
  · intro A B fuel hid hA hB hf
    obtain ⟨k, rfl⟩ : ∃ k, fuel = k + 2 := ⟨fuel - 2, by omega⟩
    have hp : ∀ (d : Cache) (x : Str), d.cacheRelations = c.cacheRelations →
        d.parents x = c.parents x := by
      intro d x hd; simp [Cache.parents, hd]
    simp [Cache.clearOneVisits, Cache.clearRelation, Cache.clearParents, hp, hid, hA, hB,
      Cache.deleteCompiled]

/-- Witness for the amended C10 on the two-parent cache: two visits. -/
theorem C10_cascade_visits_witness :
    twoParentCache.Acyclic ∧
    Cache.clearOneVisits 2 twoParentCache "c.mjs".toList =
      some ["a.mjs".toList, "b.mjs".toList] :=
  ⟨twoParentCache_acyclic,
    (C10_cascade_visits twoParentCache twoParentCache_acyclic "c.mjs".toList).2
      "a.mjs".toList "b.mjs".toList 2 (by decide) (by decide) (by decide) (by decide)⟩

end EjsMin

namespace EjsMin

/-! ## What `read` may change -/

namespace Mjs

theorem truthy_eq_some {o : Option Str} {text : Str} (h : truthy o = some text) :
    o = some text ∧ text ≠ [] := by
  cases o with
  | none => simp [truthy] at h
  | some t =>
    cases t with
    | nil => simp [truthy] at h
    | cons c r =>
      simp only [truthy, Option.some.injEq] at h
      subst h
      exact ⟨rfl, by simp⟩

theorem truthy_of_eq_some {o : Option Str} {text : Str} (h : o = some text) (hne : text ≠ []) :
    truthy o = some text := by
  subst h
  cases text with
  | nil => exact absurd rfl hne
  | cons c r => rfl

theorem Extends.refl (s : Mjs) : s.Extends s :=
  ⟨rfl, rfl, fun _ _ h => (truthy_eq_some h).1,
   fun _ _ h => h, ⟨[], by simp⟩⟩

theorem Extends.trans {s t u : Mjs} (h1 : s.Extends t) (h2 : t.Extends u) : s.Extends u := by
  refine ⟨h2.options_eq.trans h1.options_eq, h2.compiled_eq.trans h1.compiled_eq, ?_, ?_, ?_⟩
  · intro x text h
    have hne := (truthy_eq_some h).2
    exact h2.source_kept x text (truthy_of_eq_some (h1.source_kept x text h) hne)
  · intro a b h
    exact h2.edges_kept a b (h1.edges_kept a b h)
  · obtain ⟨e1, he1⟩ := h1.effects_grow
    obtain ⟨e2, he2⟩ := h2.effects_grow
    exact ⟨e1 ++ e2, by rw [he2, he1, List.append_assoc]⟩

theorem Extends.emit (s : Mjs) (e : Event) : s.Extends (s.emit e) :=
  ⟨rfl, rfl, fun _ _ h => (truthy_eq_some h).1, fun _ _ h => h, ⟨[e], rfl⟩⟩

/-- Storing a text under a name that has no usable text keeps every usable text. -/
theorem Extends.setSourceText (s : Mjs) (name text : Str)
    (h : truthy (s.cache.getSourceText name) = none) :
    s.Extends { s with cache := s.cache.setSourceText name text } := by
  refine ⟨rfl, rfl, ?_, fun _ _ h => h, ⟨[], by simp⟩⟩
  intro x t hx
  have hne : x ≠ name := by
    rintro rfl
    rw [h] at hx
    exact Option.noConfusion hx
  show JsObj.get (JsObj.set s.cache.sourceCache name text) x = some t
  rw [JsObj.get_set_ne _ _ hne]
  exact (truthy_eq_some hx).1

theorem parents_addRelation_self (c : Cache) (child parent : Str) :
    (c.addRelation child parent).parents child =
      if parent ∈ c.parents child then c.parents child else c.parents child ++ [parent] := by
  simp [Cache.addRelation, Cache.parents, JsObj.get_set_self]

theorem parents_addRelation_ne (c : Cache) (child parent other : Str) (h : other ≠ child) :
    (c.addRelation child parent).parents other = c.parents other := by
  simp [Cache.addRelation, Cache.parents, JsObj.get_set_ne _ _ h]

theorem isParent_addRelation (c : Cache) (child parent : Str) :
    (c.addRelation child parent).IsParent child parent := by
  unfold Cache.IsParent
  rw [parents_addRelation_self]
  split
  · assumption
  · simp

theorem Extends.addRelation (s : Mjs) (child parent : Str) :
    s.Extends { s with cache := s.cache.addRelation child parent } := by
  refine ⟨rfl, rfl, fun x text h => (truthy_eq_some h).1, ?_, ⟨[], by simp⟩⟩
  intro a b hab
  show b ∈ (s.cache.addRelation child parent).parents a
  by_cases ha : a = child
  · subst ha
    rw [parents_addRelation_self]
    split
    · exact hab
    · exact List.mem_append_left _ hab
  · rw [parents_addRelation_ne _ _ _ _ ha]
    exact hab

theorem loadSource_extends (env : Env) (s : Mjs) (name : Str) :
    (loadSource env s name).Ends s.Extends := by
  unfold loadSource
  cases ht : truthy (s.cache.getSourceText name) with
  | some t => exact Extends.refl s
  | none =>
    have h1 := Extends.emit s (.fetch name)
    cases hf : env.readFileSync name with
    | none => exact h1
    | some raw =>
      by_cases hc : reCss name = true
      · simp only [hc, if_true]
        have h2 := h1.trans (Extends.emit _ (.cssShrink raw))
        cases hu : env.uglifycss raw with
        | error e => exact h2
        | ok shrunk =>
          exact h2.trans (Extends.setSourceText _ name shrunk ht)
      · simp only [hc]
        exact h1.trans (Extends.setSourceText _ name raw ht)

theorem includeLoop_extends (rd : Mjs → Str → Outcome Str)
    (hrd : ∀ s child, (rd s child).Ends s.Extends)
    (fuel : Nat) (s : Mjs) (text : Str) (lastIndex : Nat) :
    (includeLoop rd fuel s text lastIndex).Ends s.Extends := by
  induction fuel generalizing s text lastIndex with
  | zero => exact Extends.refl s
  | succ n ih =>
    unfold includeLoop
    cases hm : execInclude text lastIndex with
    | none => exact Extends.refl s
    | some m =>
      have h1 := hrd s m.group
      cases hr : rd s m.group with
      | diverge s1 => rw [hr] at h1; simp only [hr]; exact h1
      | throw e s1 => rw [hr] at h1; simp only [hr]; exact h1
      | ok includer s1 =>
        rw [hr] at h1
        have h2 := ih s1 (jsReplace text m.whole includer) (m.index + m.whole.length)
        simp only [hr]
        revert h2
        generalize includeLoop rd n s1 (jsReplace text m.whole includer)
            (m.index + m.whole.length) = out
        intro h2
        cases out with
        | diverge s2 => exact Extends.trans h1 h2
        | throw e s2 => exact Extends.trans h1 h2
        | ok v s2 => exact Extends.trans h1 h2

/-- Whatever way `read` ends, the state it leaves extends the state it started in. -/
theorem read_extends (env : Env) (fuel : Nat) (s : Mjs) (name : Str) (parent : Option Str) :
    (read env fuel s name parent).Ends s.Extends := by
  induction fuel generalizing s name parent with
  | zero => exact Extends.refl s
  | succ n ih =>
    unfold read
    have h1 := loadSource_extends env s name
    cases hl : loadSource env s name with
    | diverge s1 => rw [hl] at h1; exact h1
    | throw e s1 => rw [hl] at h1; exact h1
    | ok text s1 =>
      rw [hl] at h1
      simp only []
      have h2 : s.Extends (match parent with
          | some (c :: p) => { s1 with cache := s1.cache.addRelation name (c :: p) }
          | _ => s1) := by
        cases parent with
        | none => exact h1
        | some p =>
          cases p with
          | nil => exact h1
          | cons c p => exact h1.trans (Extends.addRelation _ _ _)
      revert h2
      generalize (match parent with
          | some (c :: p) => ({ s1 with cache := s1.cache.addRelation name (c :: p) } : Mjs)
          | _ => s1) = s2
      intro h2
      by_cases hm : reMjs name = true
      · simp only [hm, if_true]
        have h3 := includeLoop_extends (fun s child => read env n s child (some name))
          (fun s child => ih s child (some name)) n s2 text 0
        revert h3
        generalize includeLoop (fun s child => read env n s child (some name)) n s2 text 0 = out
        intro h3
        cases out with
        | diverge s3 => exact Extends.trans h2 h3
        | throw e s3 => exact Extends.trans h2 h3
        | ok v s3 => exact Extends.trans h2 h3
      · simp only [hm]
        exact h2

end Mjs

end EjsMin

namespace EjsMin

/-- The ordering behind C8: when the first include directive of a template names
a file that is neither cached nor in the backing store, `read` raises the
not-found error for it and stores nothing under its name. -/
theorem Mjs.read_first_include_missing (env : Env) (fuel : Nat) (self s1 : Mjs)
    (name text : Str) (parent : Option Str) (m : ReMatch)
    (hmjs : reMjs name = true)
    (hload : Mjs.loadSource env self name = .ok text s1)
    (hexec : execInclude text 0 = some m)
    (huncached : Mjs.truthy (s1.cache.getSourceText m.group) = none)
    (habsent : env.readFileSync m.group = none) :
    ∃ s2, Mjs.read env (fuel + 2) self name parent = .throw (.notFound m.group) s2 ∧
      s2.cache.getSourceText m.group = s1.cache.getSourceText m.group ∧
      s2.cache.compiledCache = self.cache.compiledCache := by
  have hext := Mjs.loadSource_extends env self name
  rw [hload] at hext
  have key : ∀ s : Mjs, s.cache.sourceCache = s1.cache.sourceCache →
      s.cache.compiledCache = s1.cache.compiledCache →
      ∃ s2, Mjs.includeLoop (fun s child => Mjs.read env (fuel + 1) s child (some name))
          (fuel + 1) s text 0 = .throw (.notFound m.group) s2 ∧
        s2.cache.getSourceText m.group = s1.cache.getSourceText m.group ∧
        s2.cache.compiledCache = self.cache.compiledCache := by
    intro s hs hc
    have hun : Mjs.truthy (s.cache.getSourceText m.group) = none := by
      unfold Cache.getSourceText at huncached ⊢
      rw [hs]; exact huncached
    refine ⟨s.emit (.fetch m.group), ?_, ?_, ?_⟩
    · simp only [Mjs.includeLoop, hexec, Mjs.read, Mjs.loadSource, hun, habsent]
    · show JsObj.get s.cache.sourceCache m.group = _
      rw [hs]; rfl
    · show s.cache.compiledCache = _
      rw [hc, hext.compiled_eq]
  unfold Mjs.read
  simp only [hload, hmjs, if_true]
  cases parent with
  | none => exact key s1 rfl rfl
  | some p =>
    cases p with
    | nil => exact key s1 rfl rfl
    | cons c p => exact key _ rfl rfl

end EjsMin

namespace EjsMin

/-! ## `compileFile` -/

/-- C2. Idempotent compile: when `compileFile(id)` has returned an artifact, a
second call on the state it left (no invalidation in between) returns the same
artifact and the same state, whatever the backing store, the shrinkers and the
engine now answer and whatever the fuel: the effect log is unchanged, so there
is no fetch, no minification and no engine compile, and the cache is unchanged. -/
theorem C2_compileFile_idempotent (env env2 : Env) (hrel : env2.relative = env.relative)
    (fuel fuel2 : Nat) (self s1 : Mjs) (id : Str) (fn : Artifact)
    (h : Mjs.compileFile env fuel self id = .ok fn s1) :
    Mjs.compileFile env2 fuel2 s1 id = .ok fn s1 := by
  have hget : s1.cache.getCompiled (env.relative id) = some fn := by
    unfold Mjs.compileFile at h
    simp only [] at h
    cases hc : self.cache.getCompiled (env.relative id) with
    | some compiled =>
      simp only [hc, Outcome.ok.injEq] at h
      obtain ⟨rfl, rfl⟩ := h
      exact hc
    | none =>
      simp only [hc] at h
      split at h
      · exact Outcome.noConfusion h
      · exact Outcome.noConfusion h
      · split at h
        · exact Outcome.noConfusion h
        · exact Outcome.noConfusion h
        · split at h
          · exact Outcome.noConfusion h
          · simp only [Outcome.ok.injEq] at h
            obtain ⟨rfl, rfl⟩ := h
            exact JsObj.get_set_self _ _ _
  unfold Mjs.compileFile
  simp only [hrel, hget]

/-- Witness for C2: compiling `a.mjs` of `chainFiles` twice. -/
theorem C2_compileFile_idempotent_witness :
    Mjs.compileFile (exampleEnv []) 0
      (Mjs.compileFile (exampleEnv chainFiles) 4 freshMjs "a.mjs".toList).state "a.mjs".toList =
    .ok ⟨"<h1><b><%= title %></b></h1>".toList⟩
      (Mjs.compileFile (exampleEnv chainFiles) 4 freshMjs "a.mjs".toList).state :=
  C2_compileFile_idempotent (exampleEnv chainFiles) (exampleEnv []) rfl 4 0 freshMjs _
    "a.mjs".toList _ (by decide)

/-- C3 fails on the code: `a.mjs` is `pre + D + post` with `D` its only include
directive, naming `b.mjs`, whose text `T` holds no include directive but a dollar
sign followed by a quote; `String.prototype.replace` expands that pair to the
text after the match, so `read("a.mjs")` does not return `pre + T + post`. -/
theorem C3_dollar_pattern_expanded :
    execInclude "<p><% include 'b.mjs' %></p>".toList 0 =
      some ⟨3, "<% include 'b.mjs' %>".toList, "b.mjs".toList⟩ ∧
    execInclude "<p><% include 'b.mjs' %></p>".toList 24 = none ∧
    execInclude "<script>var unit = '$';</script>".toList 0 = none ∧
    (∃ s, Mjs.read (exampleEnv dollarFiles) 3 freshMjs "a.mjs".toList none =
      .ok "<p><script>var unit = '</p>;</script></p>".toList s ∧
      s.cache.parents "b.mjs".toList = ["a.mjs".toList]) ∧
    "<p><script>var unit = '</p>;</script></p>".toList ≠
      "<p>".toList ++ "<script>var unit = '$';</script>".toList ++ "</p>".toList :=
  ⟨by decide, by decide, by decide, ⟨_, rfl, by decide⟩, by decide⟩

/-- C4 fails on the code: after the first substitution `lastIndex` (21) lies past
the start (9) of the second directive, which is never matched and stays in the
text `read` returns. -/
theorem C4_directive_skipped :
    (∃ s, Mjs.read (exampleEnv skipFiles) 3 freshMjs "a.mjs".toList none =
      .ok "<b>hi</b><% include 'c.mjs' %>".toList s) ∧
    execInclude "<b>hi</b><% include 'c.mjs' %>".toList 0 =
      some ⟨9, "<% include 'c.mjs' %>".toList, "c.mjs".toList⟩ :=
  ⟨⟨_, rfl⟩, by decide⟩

/-- C6 fails on the code: a directive whose body holds `>` is not matched by the
directive pattern, so the text handed to the shrinker still holds both markers. -/
theorem C6_marker_reaches_shrinker :
    directiveSpans 0 "<% if (a > b) print(a) %>yes<%= a %>".toList = ["<%= a %>".toList] ∧
    (Mjs.substitute (exampleEnv []) (directiveSpans 0 "<% if (a > b) print(a) %>yes<%= a %>".toList)
      ("<% if (a > b) print(a) %>yes<%= a %>".toList, [])).1 =
      "<% if (a > b) print(a) %>yes".toList ++ placeholder (exampleEnv []) "<%= a %>".toList ∧
    (Mjs.minify (exampleEnv []) freshMjs "<% if (a > b) print(a) %>yes<%= a %>".toList).state.effects =
      [.jsShrink ("<% if (a > b) print(a) %>yes".toList ++
        placeholder (exampleEnv []) "<%= a %>".toList)] ∧
    "<%".toList <:+: "<% if (a > b) print(a) %>yes".toList ++
        placeholder (exampleEnv []) "<%= a %>".toList ∧
    "%>".toList <:+: "<% if (a > b) print(a) %>yes".toList ++
        placeholder (exampleEnv []) "<%= a %>".toList :=
  ⟨by decide, by decide, by decide, by decide, by decide⟩

/-- C7, as stated, fails: after the failed compile of `a.mjs` of `failFiles` the
Content Store holds `a.mjs` and `b.mjs` and the Relation Graph the edge
(`b.mjs`, `a.mjs`); only the Compiled Store is as before. -/
theorem C7_counterexample :
    ∃ s, Mjs.compileFile (exampleEnv failFiles) 3 freshMjs "a.mjs".toList =
      .throw (.notFound "m.mjs".toList) s ∧
    s.cache.sourceCache.keys = ["a.mjs".toList, "b.mjs".toList] ∧
    s.cache.cacheRelations = [("b.mjs".toList, ["a.mjs".toList])] ∧
    s.cache.compiledCache = [] ∧
    s.cache ≠ freshMjs.cache :=
  ⟨_, rfl, by decide, by decide, by decide, by decide⟩

/-- C7, amended. When `id` has no Compiled Entry and its assembly fails (`read`
raises `e`), `compileFile(id)` reports `e` to its callback and writes nothing to
the Compiled Store, which still has no entry for `id`; the Content Store and the
Relation Graph keep what `read` stored before the failure, and lose nothing:
every non-empty Content Entry and every edge present before is still there. -/
theorem C7_failed_compile (env : Env) (fuel : Nat) (self s1 : Mjs) (id : Str) (e : JsError)
    (hmiss : self.cache.getCompiled (env.relative id) = none)
    (hread : Mjs.read env fuel self (env.relative id) none = .throw e s1) :
    Mjs.compileFile env fuel self id = .throw e s1 ∧
    s1.cache.compiledCache = self.cache.compiledCache ∧
    s1.cache.getCompiled (env.relative id) = none ∧
    (∀ x text, text ≠ [] → self.cache.getSourceText x = some text →
      s1.cache.getSourceText x = some text) ∧
    (∀ child parent, self.cache.IsParent child parent → s1.cache.IsParent child parent) := by
  have hext : self.Extends s1 := by
    have := Mjs.read_extends env fuel self (env.relative id) none
    rw [hread] at this
    exact this
  refine ⟨?_, hext.compiled_eq, ?_, ?_, hext.edges_kept⟩
  · unfold Mjs.compileFile
    simp only [hmiss, hread]
  · unfold Cache.getCompiled at hmiss ⊢
    rw [hext.compiled_eq]
    exact hmiss
  · intro x text hne hx
    exact hext.source_kept x text (Mjs.truthy_of_eq_some hx hne)

/-- Witness for the amended C7 on `failFiles`. -/
theorem C7_failed_compile_witness :
    Mjs.compileFile (exampleEnv failFiles) 3 freshMjs "a.mjs".toList =
      .throw (.notFound "m.mjs".toList)
        (Mjs.read (exampleEnv failFiles) 3 freshMjs "a.mjs".toList none).state ∧
    (Mjs.read (exampleEnv failFiles) 3 freshMjs "a.mjs".toList none).state.cache.compiledCache =
      [] :=
  ⟨(C7_failed_compile (exampleEnv failFiles) 3 freshMjs _ "a.mjs".toList
      (.notFound "m.mjs".toList) (by decide) (by decide)).1,
   (C7_failed_compile (exampleEnv failFiles) 3 freshMjs _ "a.mjs".toList
      (.notFound "m.mjs".toList) (by decide) (by decide)).2.1⟩

end EjsMin

namespace EjsMin

/-! ## Placeholder tokens -/

theorem hexChar_props (n : Nat) :
    hexChar n ≠ 'm' ∧ hexChar n ≠ '<' ∧ hexChar n ≠ '%' ∧ hexChar n ≠ '>' ∧ hexChar n ≠ '$' := by
  have h : n % 16 < 16 := Nat.mod_lt _ (by decide)
  unfold hexChar
  generalize n % 16 = r at h
  interval_cases r <;> decide

theorem toHex_length (k n : Nat) : (toHex k n).length = k := by
  induction k generalizing n with
  | zero => rfl
  | succ k ih => simp [toHex, ih]

theorem toHex_props (k n : Nat) :
    ∀ c ∈ toHex k n, c ≠ 'm' ∧ c ≠ '<' ∧ c ≠ '%' ∧ c ≠ '>' ∧ c ≠ '$' := by
  induction k generalizing n with
  | zero => intro c hc; simp [toHex] at hc
  | succ k ih =>
    intro c hc
    simp only [toHex, List.mem_append, List.mem_singleton] at hc
    rcases hc with hc | rfl
    · exact ih _ c hc
    · exact hexChar_props n

/-- The shape of a placeholder: the letter m, then 36 characters none of which is
the letter m; no marker character and no dollar sign anywhere. -/
theorem placeholder_shape (env : Env) (span : Str) :
    ∃ tl, placeholder env span = 'm' :: tl ∧ tl.length = 36 ∧
      (∀ c ∈ tl, c ≠ 'm' ∧ c ≠ '<' ∧ c ≠ '%' ∧ c ≠ '>' ∧ c ≠ '$') := by
  refine ⟨"atch".toList ++ toHex 32 (env.md5 span % 2 ^ 128), rfl, ?_, ?_⟩
  · simp [toHex_length]
  · intro c hc
    simp only [List.mem_append] at hc
    rcases hc with hc | hc
    · have : c = 'a' ∨ c = 't' ∨ c = 'c' ∨ c = 'h' := by simpa using hc
      rcases this with rfl | rfl | rfl | rfl <;> decide
    · exact toHex_props _ _ c hc

end EjsMin

namespace EjsMin

/-! ## String primitives -/

theorem expect_eq_some (lit s rest : Str) : expect lit s = some rest ↔ s = lit ++ rest := by
  induction lit generalizing s with
  | nil => simp [expect, eq_comm]
  | cons p ps ih =>
    cases s with
    | nil => simp [expect]
    | cons c cs =>
      by_cases h : p = c
      · subst h; simp [expect, ih]
      · have h2 : ¬ c = p := fun e => h e.symm
        simp [expect, h, h2]

theorem expect_eq_none (lit s : Str) : expect lit s = none ↔ ¬ lit <+: s := by
  constructor
  · rintro h ⟨rest, rfl⟩
    rw [(expect_eq_some lit _ rest).mpr rfl] at h
    exact Option.noConfusion h
  · intro h
    cases he : expect lit s with
    | none => rfl
    | some rest => exact absurd ⟨rest, ((expect_eq_some _ _ _).mp he).symm⟩ h

theorem matchDirective_some (s w rest : Str) (h : matchDirective s = some (w, rest)) :
    s = w ++ rest ∧ IsSpan w := by
  unfold matchDirective at h
  split at h
  · rename_i s1
    split at h
    · rename_i rest1 hd
      simp only [Option.some.injEq, Prod.mk.injEq] at h
      obtain ⟨rfl, rfl⟩ := h
      refine ⟨?_, s1.takeWhile notMarker, rfl, ?_⟩
      · have := List.takeWhile_append_dropWhile notMarker s1
        rw [hd] at this
        simp only [List.cons_append, List.append_assoc, List.nil_append]
        rw [this]
      · intro c hc
        exact List.mem_takeWhile_imp hc
    · exact Option.noConfusion h
  · exact Option.noConfusion h

theorem matchDirective_of_span (w z : Str) (hw : IsSpan w) :
    matchDirective (w ++ z) = some (w, z) := by
  obtain ⟨body, rfl, hb⟩ := hw
  have hd : List.dropWhile notMarker (body ++ '%' :: '>' :: z) = '%' :: '>' :: z := by
    induction body with
    | nil => simp [notMarker]
    | cons c cs ih =>
      have hc := hb c (List.mem_cons_self _ _)
      simp only [List.cons_append, List.dropWhile_cons, hc, if_true]
      exact ih (fun d hd => hb d (List.mem_cons_of_mem _ hd))
  have ht : List.takeWhile notMarker (body ++ '%' :: '>' :: z) = body := by
    clear hd
    induction body with
    | nil => simp [notMarker]
    | cons c cs ih =>
      have hc := hb c (List.mem_cons_self _ _)
      simp only [List.cons_append, List.takeWhile_cons, hc, if_true]
      rw [ih (fun d hd => hb d (List.mem_cons_of_mem _ hd))]
  simp only [List.cons_append, List.append_assoc, List.nil_append, matchDirective, hd, ht]

/-- A text that starts with a span is matched at its start. -/
theorem matchDirective_ne_none_of_prefix (w s : Str) (hw : IsSpan w) (hp : w <+: s) :
    matchDirective s ≠ none := by
  obtain ⟨z, rfl⟩ := hp
  rw [matchDirective_of_span w z hw]
  exact fun h => Option.noConfusion h

theorem IsSpan.ne_nil {w : Str} (hw : IsSpan w) : w ≠ [] := by
  obtain ⟨body, rfl, _⟩ := hw
  simp

theorem IsSpan.head {w : Str} (hw : IsSpan w) : ∃ t, w = '<' :: t := by
  obtain ⟨body, rfl, _⟩ := hw
  exact ⟨_, rfl⟩

theorem IsSpan.last {w : Str} (hw : IsSpan w) : ∃ t, w = t ++ ['>'] := by
  obtain ⟨body, rfl, _⟩ := hw
  exact ⟨'<' :: '%' :: body ++ ['%'], by simp⟩

/-- Induction along the scan of the directive pattern: a match is consumed whole,
any other character is stepped over. -/
theorem scan_induction (P : Str → Prop) (hnil : P [])
    (hmatch : ∀ w rest, matchDirective (w ++ rest) = some (w, rest) → IsSpan w →
      P rest → P (w ++ rest))
    (hstep : ∀ c t, matchDirective (c :: t) = none → P t → P (c :: t)) :
    ∀ s, P s := by
  intro s
  obtain ⟨n, hn⟩ : ∃ n, s.length = n := ⟨_, rfl⟩
  induction n using Nat.strong_induction_on generalizing s with
  | _ n ih =>
    cases s with
    | nil => exact hnil
    | cons c t =>
      cases hm : matchDirective (c :: t) with
      | none => exact hstep c t hm (ih t.length (by simp [← hn]) t rfl)
      | some r =>
        obtain ⟨w, rest⟩ := r
        obtain ⟨hs, hw⟩ := matchDirective_some _ _ _ hm
        rw [hs] at hm ⊢
        have hlen : rest.length < n := by
          have h1 : (c :: t).length = w.length + rest.length := by rw [hs]; simp
          have h2 : 0 < w.length := List.length_pos.mpr hw.ne_nil
          omega
        exact hmatch w rest hm hw (ih rest.length hlen rest rfl)

theorem directiveSpans_skip (a b : Str) :
    directiveSpans a.length (a ++ b) = directiveSpans 0 b := by
  induction a with
  | nil => rfl
  | cons c a ih =>
    simp only [List.length_cons, List.cons_append, directiveSpans]
    exact ih

theorem directiveSpans_match (w rest : Str) (h : matchDirective (w ++ rest) = some (w, rest))
    (hw : IsSpan w) : directiveSpans 0 (w ++ rest) = w :: directiveSpans 0 rest := by
  obtain ⟨t, rfl⟩ := hw.head
  simp only [List.cons_append] at h ⊢
  simp only [directiveSpans, h, List.length_cons, Nat.add_sub_cancel]
  rw [directiveSpans_skip]

theorem directiveSpans_step (c : Char) (t : Str) (h : matchDirective (c :: t) = none) :
    directiveSpans 0 (c :: t) = directiveSpans 0 t := by
  simp only [directiveSpans, h]

theorem rewriteSpans_skip (f : Str → Str) (a b : Str) :
    rewriteSpans f a.length (a ++ b) = rewriteSpans f 0 b := by
  induction a with
  | nil => rfl
  | cons c a ih =>
    simp only [List.length_cons, List.cons_append, rewriteSpans]
    exact ih

theorem rewriteSpans_match (f : Str → Str) (w rest : Str)
    (h : matchDirective (w ++ rest) = some (w, rest)) (hw : IsSpan w) :
    rewriteSpans f 0 (w ++ rest) = f w ++ rewriteSpans f 0 rest := by
  obtain ⟨t, rfl⟩ := hw.head
  simp only [List.cons_append] at h ⊢
  simp only [rewriteSpans, h, List.length_cons, Nat.add_sub_cancel]
  rw [rewriteSpans_skip]

theorem rewriteSpans_step (f : Str → Str) (c : Char) (t : Str)
    (h : matchDirective (c :: t) = none) :
    rewriteSpans f 0 (c :: t) = c :: rewriteSpans f 0 t := by
  simp only [rewriteSpans, h]

/-- Every match the scan enumerates is a span and occurs in the text. -/
theorem mem_directiveSpans (s w : Str) (h : w ∈ directiveSpans 0 s) : IsSpan w ∧ w <:+: s := by
  induction s using scan_induction with
  | hnil => simp [directiveSpans] at h
  | hmatch v rest hm hv ih =>
    rw [directiveSpans_match v rest hm hv] at h
    rcases List.mem_cons.mp h with rfl | h
    · exact ⟨hv, ⟨[], rest, by simp⟩⟩
    · obtain ⟨h1, h2⟩ := ih h
      exact ⟨h1, h2.trans ⟨v, [], by simp⟩⟩
  | hstep c t hm ih =>
    rw [directiveSpans_step c t hm] at h
    obtain ⟨h1, h2⟩ := ih h
    exact ⟨h1, h2.trans ⟨[c], [], by simp⟩⟩

/-- Replacing every span by itself gives the text back. -/
theorem rewriteSpans_self (f : Str → Str) (s : Str)
    (hf : ∀ w ∈ directiveSpans 0 s, f w = w) : rewriteSpans f 0 s = s := by
  induction s using scan_induction with
  | hnil => rfl
  | hmatch v rest hm hv ih =>
    rw [directiveSpans_match v rest hm hv] at hf
    rw [rewriteSpans_match f v rest hm hv, hf v (List.mem_cons_self _ _),
      ih (fun w hw => hf w (List.mem_cons_of_mem _ hw))]
  | hstep c t hm ih =>
    rw [directiveSpans_step c t hm] at hf
    rw [rewriteSpans_step f c t hm, ih hf]

theorem rewriteSpans_congr (f g : Str → Str) (s : Str)
    (hfg : ∀ w ∈ directiveSpans 0 s, f w = g w) : rewriteSpans f 0 s = rewriteSpans g 0 s := by
  induction s using scan_induction with
  | hnil => rfl
  | hmatch v rest hm hv ih =>
    rw [directiveSpans_match v rest hm hv] at hfg
    rw [rewriteSpans_match f v rest hm hv, rewriteSpans_match g v rest hm hv,
      hfg v (List.mem_cons_self _ _), ih (fun w hw => hfg w (List.mem_cons_of_mem _ hw))]
  | hstep c t hm ih =>
    rw [directiveSpans_step c t hm] at hfg
    rw [rewriteSpans_step f c t hm, rewriteSpans_step g c t hm, ih hfg]

end EjsMin

namespace EjsMin

/-! ## The substitution loop of `minify` -/

theorem splitFirst_first (pat done z : Str) (hpat : pat ≠ [])
    (hfirst : ∀ u v, done = u ++ v → v ≠ [] → ¬ pat <+: v ++ (pat ++ z)) :
    splitFirst pat (done ++ (pat ++ z)) = some (done, z) := by
  induction done with
  | nil =>
    cases pat with
    | nil => exact absurd rfl hpat
    | cons p ps =>
      have he : expect (p :: ps) (p :: (ps ++ z)) = some z := (expect_eq_some _ _ _).mpr rfl
      show splitFirst (p :: ps) (p :: (ps ++ z)) = some ([], z)
      simp only [splitFirst, he]
  | cons c d ih =>
    have hn : expect pat (c :: d ++ (pat ++ z)) = none :=
      (expect_eq_none _ _).mpr (hfirst [] (c :: d) rfl (by simp))
    simp only [List.cons_append] at hn ⊢
    simp only [splitFirst, hn]
    rw [ih (fun u v huv hv => hfirst (c :: u) v (by rw [huv]; rfl) hv)]

theorem getSubstitution_of_no_dollar (matched before after rep : Str)
    (h : ∀ c ∈ rep, c ≠ '$') : getSubstitution matched before after rep = rep := by
  induction rep with
  | nil => rfl
  | cons c t ih =>
    have hc : c ≠ '$' := h c (List.mem_cons_self _ _)
    have ht := ih (fun d hd => h d (List.mem_cons_of_mem _ hd))
    cases t with
    | nil => rfl
    | cons d t2 => simp only [getSubstitution, hc, if_false, ht]

/-- When the first occurrence of the pattern is where expected and the
replacement holds no dollar sign, `replace` swaps exactly that occurrence. -/
theorem jsReplace_first (pat rep done z : Str) (hpat : pat ≠ [])
    (hrep : ∀ c ∈ rep, c ≠ '$')
    (hfirst : ∀ u v, done = u ++ v → v ≠ [] → ¬ pat <+: v ++ (pat ++ z)) :
    jsReplace (done ++ (pat ++ z)) pat rep = done ++ (rep ++ z) := by
  unfold jsReplace
  rw [splitFirst_first pat done z hpat hfirst]
  simp only [getSubstitution_of_no_dollar _ _ _ rep hrep, List.append_assoc]

/-- A text ending in `>` that starts inside `v` and runs into a following text `tok`
free of `>` either ends inside `v` or covers `tok` whole. -/
theorem prefix_cross (w v tok z : Str) (hlast : ∃ t, w = t ++ ['>'])
    (htok : ∀ c ∈ tok, c ≠ '>') (h : w <+: v ++ (tok ++ z)) :
    w <+: v ∨ tok <:+: w := by
  obtain ⟨r, hr⟩ := h
  rcases List.append_eq_append_iff.mp hr with ⟨a, hv, _⟩ | ⟨c, hw, hc⟩
  · exact Or.inl ⟨a, hv.symm⟩
  · rcases List.append_eq_append_iff.mp hc with ⟨a, hca, _⟩ | ⟨c2, htk, _⟩
    · exact Or.inr ⟨v, a, by rw [hw, hca, List.append_assoc]⟩
    · by_cases hcn : c = []
      · subst hcn
        exact Or.inl ⟨[], by simp [hw]⟩
      · exfalso
        obtain ⟨t, ht⟩ := hlast
        have hmem : '>' ∈ c := by
          have h1 : (v ++ c).getLast? = some '>' := by rw [← hw, ht]; simp
          rw [List.getLast?_append_of_ne_nil _ hcn] at h1
          exact List.mem_of_getLast?_eq_some h1
        exact htok '>' (by rw [htk]; exact List.mem_append_left _ hmem) rfl

/-- The first loop of `minify`, started on `done ++ rest` with the matches of
`rest` still to do, rewrites `rest` and leaves `done` alone, provided no span
occurs starting inside `done`. -/
theorem substitute_spec (env : Env) (G : List Str) (hG1 : ∀ w ∈ G, IsSpan w)
    (hG2 : ∀ w ∈ G, ∀ w2 ∈ G, ¬ placeholder env w2 <:+: w) (rest : Str) :
    ∀ (done : Str) (map : JsObj Str), (∀ w ∈ directiveSpans 0 rest, w ∈ G) →
      (∀ w ∈ G, ∀ u v, done = u ++ v → v ≠ [] → ¬ w <+: v ++ rest) →
      Mjs.substitute env (directiveSpans 0 rest) (done ++ rest, map) =
        (done ++ rewriteSpans (placeholder env) 0 rest,
          (directiveSpans 0 rest).foldl (fun m w => JsObj.set m (placeholder env w) w) map) := by
  induction rest using scan_induction with
  | hnil => intro done map _ _; rfl
  | hmatch w rest hm hw ih =>
    intro done map hsub hinv
    rw [directiveSpans_match w rest hm hw] at hsub ⊢
    rw [rewriteSpans_match _ w rest hm hw]
    have hwG : w ∈ G := hsub w (List.mem_cons_self _ _)
    obtain ⟨tl, htok, _, htl⟩ := placeholder_shape env w
    have hchars : ∀ c ∈ placeholder env w, c ≠ '<' ∧ c ≠ '%' ∧ c ≠ '>' ∧ c ≠ '$' := by
      intro c hc
      rw [htok] at hc
      rcases List.mem_cons.mp hc with rfl | hc
      · decide
      · exact (htl c hc).2
    simp only [Mjs.substitute, List.foldl_cons]
    rw [jsReplace_first w (placeholder env w) done rest hw.ne_nil
      (fun c hc => (hchars c hc).2.2.2) (fun u v huv hv => hinv w hwG u v huv hv)]
    rw [← List.append_assoc done, ih (done ++ placeholder env w) _
      (fun x hx => hsub x (List.mem_cons_of_mem _ hx)), List.append_assoc]
    intro x hx u v huv hv hpre
    -- where does the suffix `v` of `done ++ token` start?
    rcases List.append_eq_append_iff.mp huv with ⟨a, hu, htk⟩ | ⟨c, hd, hvc⟩
    · -- inside the token: a span starts with `<`, the token holds none
      obtain ⟨t, hxt⟩ := (hG1 x hx).head
      cases v with
      | nil => exact hv rfl
      | cons c v2 =>
        have hc : c = '<' := by
          obtain ⟨r, hr⟩ := hpre
          rw [hxt] at hr
          simp only [List.cons_append, List.cons.injEq] at hr
          exact hr.1.symm
        have hmem : c ∈ placeholder env w := by rw [htk]; simp
        exact (hchars c hmem).1 hc
    · -- inside `done`
      by_cases hcn : c = []
      · subst hcn
        simp only [List.nil_append] at hvc
        obtain ⟨t, hxt⟩ := (hG1 x hx).head
        rw [hvc, htok, hxt] at hpre
        obtain ⟨r, hr⟩ := hpre
        simp at hr
      · rw [hvc, List.append_assoc] at hpre
        rcases prefix_cross x c (placeholder env w) rest (hG1 x hx).last
          (fun d hd => (hchars d hd).2.2.1) hpre with h1 | h2
        · exact hinv x hx u c hd hcn (h1.trans ⟨w ++ rest, rfl⟩)
        · exact hG2 x hx w hwG h2
  | hstep c t hm ih =>
    intro done map hsub hinv
    rw [directiveSpans_step c t hm] at hsub ⊢
    rw [rewriteSpans_step _ c t hm]
    have e1 : done ++ c :: t = (done ++ [c]) ++ t := by simp
    have e2 : done ++ c :: rewriteSpans (placeholder env) 0 t =
        (done ++ [c]) ++ rewriteSpans (placeholder env) 0 t := by simp
    rw [e1, e2]
    apply ih (done ++ [c]) map hsub
    intro x hx u v huv hv hpre
    rcases List.append_eq_append_iff.mp huv with ⟨a, hu, htk⟩ | ⟨d, hd, hvc⟩
    · -- `v` is the last character alone
      have hvc : v = [c] := by
        cases a with
        | nil => simpa using htk.symm
        | cons a1 a2 =>
          have := congrArg List.length htk
          simp only [List.length_cons, List.length_append, List.length_nil,
            List.length_singleton] at this
          have hv0 : v = [] := List.length_eq_zero.mp (by omega)
          exact absurd hv0 hv
      subst hvc
      exact matchDirective_ne_none_of_prefix x (c :: t) (hG1 x hx) (by simpa using hpre) hm
    · by_cases hdn : d = []
      · subst hdn
        simp only [List.nil_append] at hvc
        subst hvc
        exact matchDirective_ne_none_of_prefix x (c :: t) (hG1 x hx) (by simpa using hpre) hm
      · rw [hvc, List.append_assoc] at hpre
        exact hinv x hx u d hd hdn (by simpa using hpre)

end EjsMin

namespace EjsMin

/-! ## The restoring loop of `minify` -/

theorem splitJoinAux_skip (pat rep a b : Str) :
    splitJoinAux pat rep a.length (a ++ b) = splitJoinAux pat rep 0 b := by
  induction a with
  | nil => rfl
  | cons c a ih =>
    simp only [List.length_cons, List.cons_append, splitJoinAux]
    exact ih

theorem splitJoinAux_hit (pat rep x : Str) (hpat : pat ≠ []) :
    splitJoinAux pat rep 0 (pat ++ x) = rep ++ splitJoinAux pat rep 0 x := by
  cases pat with
  | nil => exact absurd rfl hpat
  | cons p ps =>
    have he : expect (p :: ps) (p :: (ps ++ x)) = some x := (expect_eq_some _ _ _).mpr rfl
    show splitJoinAux (p :: ps) rep 0 (p :: (ps ++ x)) = _
    simp only [splitJoinAux, he, List.length_cons, Nat.add_sub_cancel]
    rw [splitJoinAux_skip]

theorem splitJoinAux_pass (pat rep a x : Str)
    (h : ∀ u v, a = u ++ v → v ≠ [] → ¬ pat <+: v ++ x) :
    splitJoinAux pat rep 0 (a ++ x) = a ++ splitJoinAux pat rep 0 x := by
  induction a with
  | nil => rfl
  | cons c a ih =>
    have hn : expect pat (c :: (a ++ x)) = none :=
      (expect_eq_none _ _).mpr (h [] (c :: a) rfl (by simp))
    show splitJoinAux pat rep 0 (c :: (a ++ x)) = c :: (a ++ splitJoinAux pat rep 0 x)
    simp only [splitJoinAux, hn]
    rw [ih (fun u v huv hv => h (c :: u) v (by rw [huv]; rfl) hv)]

/-- A run of characters that holds neither `<` nor the letter m and starts the
rewritten text starts the original text too: it ends before the first span. -/
theorem prefix_of_prefix_rewriteSpans (f : Str → Str) (s : Str)
    (hf : ∀ w ∈ directiveSpans 0 s, ∃ c t, f w = c :: t ∧ (c = '<' ∨ c = 'm')) :
    ∀ run : Str, (∀ c ∈ run, c ≠ '<' ∧ c ≠ 'm') → run <+: rewriteSpans f 0 s → run <+: s := by
  induction s using scan_induction with
  | hnil =>
    intro run _ h
    exact h
  | hmatch w rest hm hw _ =>
    intro run hrun h
    rw [rewriteSpans_match f w rest hm hw] at h
    rw [directiveSpans_match w rest hm hw] at hf
    obtain ⟨c, t, hfw, hc⟩ := hf w (List.mem_cons_self _ _)
    cases run with
    | nil => exact List.nil_prefix
    | cons d run2 =>
      exfalso
      obtain ⟨r, hr⟩ := h
      rw [hfw] at hr
      simp only [List.cons_append, List.cons.injEq] at hr
      have hd := hrun d (List.mem_cons_self _ _)
      rcases hc with hc | hc
      · exact hd.1 (by rw [hr.1, hc])
      · exact hd.2 (by rw [hr.1, hc])
  | hstep c t hm ih =>
    intro run hrun h
    rw [rewriteSpans_step f c t hm] at h
    rw [directiveSpans_step c t hm] at hf
    cases run with
    | nil => exact List.nil_prefix
    | cons d run2 =>
      obtain ⟨r, hr⟩ := h
      simp only [List.cons_append, List.cons.injEq] at hr
      obtain ⟨z, hz⟩ := ih hf run2 (fun e he => hrun e (List.mem_cons_of_mem _ he)) ⟨r, hr.2⟩
      exact ⟨z, by rw [← hz, hr.1]; rfl⟩

/-- One pass of the restoring loop: replacing the token of the span `w0` in a
partly restored text restores exactly the occurrences of `w0`. -/
theorem splitJoinAux_rewriteSpans (env : Env) (G : List Str) (hG1 : ∀ w ∈ G, IsSpan w)
    (hinj : ∀ a ∈ G, ∀ b ∈ G, placeholder env a = placeholder env b → a = b)
    (w0 : Str) (hw0 : w0 ∈ G) (f : Str → Str)
    (hf : ∀ w ∈ G, f w = w ∨ f w = placeholder env w) (s : Str) :
    (∀ w ∈ directiveSpans 0 s, w ∈ G) → ¬ placeholder env w0 <:+: s →
    splitJoinAux (placeholder env w0) w0 0 (rewriteSpans f 0 s) =
      rewriteSpans (fun w => if w = w0 then w0 else f w) 0 s := by
  obtain ⟨tl, htok, hlen, htl⟩ := placeholder_shape env w0
  have hheads : ∀ t : Str, (∀ w ∈ directiveSpans 0 t, w ∈ G) →
      ∀ w ∈ directiveSpans 0 t, ∃ c r, f w = c :: r ∧ (c = '<' ∨ c = 'm') := by
    intro t ht w hw
    rcases hf w (ht w hw) with h | h
    · obtain ⟨r, hr⟩ := (hG1 w (ht w hw)).head
      exact ⟨'<', r, by rw [h, hr], Or.inl rfl⟩
    · obtain ⟨r, hr, _⟩ := placeholder_shape env w
      exact ⟨'m', r, by rw [h, hr], Or.inr rfl⟩
  induction s using scan_induction with
  | hnil => intro _ _; rfl
  | hmatch w rest hm hw ih =>
    intro hsub hfree
    rw [directiveSpans_match w rest hm hw] at hsub
    have hwG : w ∈ G := hsub w (List.mem_cons_self _ _)
    have hrest : ∀ x ∈ directiveSpans 0 rest, x ∈ G :=
      fun x hx => hsub x (List.mem_cons_of_mem _ hx)
    have hfree2 : ¬ placeholder env w0 <:+: rest :=
      fun h => hfree (h.trans ⟨w, [], by simp⟩)
    have hnotin : ¬ placeholder env w0 <:+: w := fun h => hfree (h.trans ⟨[], rest, by simp⟩)
    rw [rewriteSpans_match f w rest hm hw, rewriteSpans_match _ w rest hm hw]
    rcases hf w hwG with hfw | hfw
    · -- the span is already restored: the token cannot start inside it
      rw [hfw, splitJoinAux_pass _ _ w _ ?_, ih hrest hfree2]
      · by_cases hww : w = w0
        · simp [hww]
        · simp [hww, hfw]
      · intro u v huv hv hpre
        have hvlast : ∃ t, v = t ++ ['>'] := by
          obtain ⟨t, ht⟩ := hw.last
          rw [ht] at huv
          rcases List.append_eq_append_iff.mp huv with ⟨a, _, ha⟩ | ⟨c, _, hc⟩
          · cases a with
            | nil => exact ⟨[], by simpa using ha.symm⟩
            | cons a1 a2 =>
              have := congrArg List.length ha
              simp only [List.length_cons, List.length_append, List.length_nil,
                List.length_singleton] at this
              exact absurd (List.length_eq_zero.mp (by omega)) hv
          · exact ⟨c, hc⟩
        -- the token has no `>`: it fits inside `v`
        obtain ⟨r, hr⟩ := hpre
        rcases List.append_eq_append_iff.mp hr with ⟨a, hva, _⟩ | ⟨c, hpc, _⟩
        · exact hnotin ⟨u, a, by rw [huv, hva, List.append_assoc]⟩
        · obtain ⟨t, ht⟩ := hvlast
          have hmem : '>' ∈ placeholder env w0 := by
            rw [hpc, ht]; simp
          rw [htok] at hmem
          rcases List.mem_cons.mp hmem with h | h
          · exact absurd h (by decide)
          · exact (htl _ h).2.2.2.1 rfl
    · by_cases hww : w = w0
      · -- the token of `w0` itself
        subst hww
        rw [hfw, splitJoinAux_hit _ _ _ (by rw [htok]; simp), ih hrest hfree2]
        simp
      · -- the token of another span
        have hne : placeholder env w ≠ placeholder env w0 :=
          fun h => hww (hinj w hwG w0 hw0 h)
        obtain ⟨tl2, htok2, hlen2, htl2⟩ := placeholder_shape env w
        rw [hfw, splitJoinAux_pass _ _ (placeholder env w) _ ?_, ih hrest hfree2]
        · simp [hww, hfw]
        · intro u v huv hv hpre
          cases u with
          | nil =>
            -- same length, so a prefix would be the whole token
            simp only [List.nil_append] at huv
            subst huv
            obtain ⟨r, hr⟩ := hpre
            have := List.append_inj hr (by rw [htok, htok2]; simp [hlen, hlen2])
            exact hne this.1.symm
          | cons u1 u2 =>
            -- further in, the letter m does not occur
            rw [htok2] at huv
            simp only [List.cons_append, List.cons.injEq] at huv
            cases v with
            | nil => exact hv rfl
            | cons v1 v2 =>
              obtain ⟨r, hr⟩ := hpre
              rw [htok] at hr
              simp only [List.cons_append, List.cons.injEq] at hr
              have hmem : v1 ∈ tl2 := by rw [huv.2]; simp
              exact (htl2 v1 hmem).1 hr.1.symm
  | hstep c t hm ih =>
    intro hsub hfree
    rw [directiveSpans_step c t hm] at hsub
    have hfree2 : ¬ placeholder env w0 <:+: t := fun h => hfree (h.trans ⟨[c], [], by simp⟩)
    rw [rewriteSpans_step f c t hm, rewriteSpans_step _ c t hm]
    have hpass := splitJoinAux_pass (placeholder env w0) w0 [c] (rewriteSpans f 0 t) ?_
    · simp only [List.singleton_append] at hpass
      rw [hpass, ih hsub hfree2]
    · intro u v huv hv hpre
      have hvc : v = [c] := by
        cases u with
        | nil => simpa using huv.symm
        | cons u1 u2 =>
          have := congrArg List.length huv
          simp only [List.length_cons, List.length_append, List.length_nil,
            List.length_singleton] at this
          exact absurd (List.length_eq_zero.mp (by omega)) hv
      subst hvc
      rw [htok] at hpre
      obtain ⟨r, hr⟩ := hpre
      simp only [List.cons_append, List.cons.injEq, List.nil_append] at hr
      have hrun : tl <+: t :=
        prefix_of_prefix_rewriteSpans f t (hheads t hsub) tl
          (fun d hd => ⟨(htl d hd).2.1, (htl d hd).1⟩) ⟨r, hr.2⟩
      obtain ⟨z, hz⟩ := hrun
      exact hfree ⟨[], z, by rw [htok, ← hz, ← hr.1]; simp⟩

end EjsMin

namespace EjsMin

theorem JsObj.mem_set {α : Type} (m : JsObj α) (k : Str) (v : α) (e : Str × α)
    (h : e ∈ JsObj.set m k v) : e ∈ m ∨ e = (k, v) := by
  induction m with
  | nil => simpa [JsObj.set] using h
  | cons x rest ih =>
    obtain ⟨k1, v1⟩ := x
    by_cases hk : k1 = k
    · subst hk
      simp only [JsObj.set, if_true, List.mem_cons] at h
      rcases h with h | h
      · exact Or.inr h
      · exact Or.inl (List.mem_cons_of_mem _ h)
    · simp only [JsObj.set, hk, if_false, List.mem_cons] at h
      rcases h with h | h
      · exact Or.inl (h ▸ List.mem_cons_self _ _)
      · rcases ih h with h2 | h2
        · exact Or.inl (List.mem_cons_of_mem _ h2)
        · exact Or.inr h2

theorem JsObj.mem_set_self {α : Type} (m : JsObj α) (k : Str) (v : α) :
    (k, v) ∈ JsObj.set m k v := by
  induction m with
  | nil => simp [JsObj.set]
  | cons x rest ih =>
    obtain ⟨k1, v1⟩ := x
    by_cases hk : k1 = k
    · subst hk; simp [JsObj.set]
    · simp only [JsObj.set, hk, if_false]
      exact List.mem_cons_of_mem _ ih

theorem JsObj.mem_set_of_ne {α : Type} (m : JsObj α) (k : Str) (v : α) (e : Str × α)
    (h : e ∈ m) (hne : e.1 ≠ k) : e ∈ JsObj.set m k v := by
  induction m with
  | nil => simp at h
  | cons x rest ih =>
    obtain ⟨k1, v1⟩ := x
    rcases List.mem_cons.mp h with h1 | h1
    · subst h1
      simp only [JsObj.set, show ¬ k1 = k from hne, if_false]
      exact List.mem_cons_self _ _
    · by_cases hk : k1 = k
      · subst hk
        simp only [JsObj.set, if_true]
        exact List.mem_cons_of_mem _ h1
      · simp only [JsObj.set, hk, if_false]
        exact List.mem_cons_of_mem _ (ih h1)

/-- The `map` built by the first loop: every entry pairs a matched span with its
token, and every matched span has its entry, when distinct spans have distinct
tokens. -/
theorem recorded_map (env : Env) (G : List Str)
    (hinj : ∀ a ∈ G, ∀ b ∈ G, placeholder env a = placeholder env b → a = b)
    (spans : List Str) (hsub : ∀ w ∈ spans, w ∈ G) :
    ∀ map : JsObj Str, (∀ e ∈ map, e.2 ∈ G ∧ e.1 = placeholder env e.2) →
      (∀ e ∈ spans.foldl (fun m w => JsObj.set m (placeholder env w) w) map,
        e.2 ∈ G ∧ e.1 = placeholder env e.2) ∧
      (∀ w, (w ∈ spans ∨ ∃ e ∈ map, e.2 = w) →
        ∃ e ∈ spans.foldl (fun m w => JsObj.set m (placeholder env w) w) map, e.2 = w) := by
  induction spans with
  | nil =>
    intro map hmap
    refine ⟨hmap, ?_⟩
    rintro w (hw | hw)
    · simp at hw
    · exact hw
  | cons s spans ih =>
    intro map hmap
    have hsG : s ∈ G := hsub s (List.mem_cons_self _ _)
    have hmap2 : ∀ e ∈ JsObj.set map (placeholder env s) s,
        e.2 ∈ G ∧ e.1 = placeholder env e.2 := by
      intro e he
      rcases JsObj.mem_set _ _ _ _ he with h | h
      · exact hmap e h
      · subst h; exact ⟨hsG, rfl⟩
    obtain ⟨h1, h2⟩ := ih (fun w hw => hsub w (List.mem_cons_of_mem _ hw)) _ hmap2
    refine ⟨h1, ?_⟩
    intro w hw
    apply h2
    rcases hw with hw | ⟨e, he, hew⟩
    · rcases List.mem_cons.mp hw with rfl | hw
      · exact Or.inr ⟨_, JsObj.mem_set_self _ _ _, rfl⟩
      · exact Or.inl hw
    · right
      by_cases hk : e.1 = placeholder env s
      · have : e.2 = s := hinj _ (hmap e he).1 _ hsG ((hmap e he).2.symm.trans hk)
        exact ⟨_, JsObj.mem_set_self _ _ _, by rw [← hew, this]⟩
      · exact ⟨e, JsObj.mem_set_of_ne _ _ _ e he hk, hew⟩

theorem splitJoin_placeholder (env : Env) (s w rep : Str) :
    splitJoin s (placeholder env w) rep = splitJoinAux (placeholder env w) rep 0 s := by
  obtain ⟨tl, htok, _, _⟩ := placeholder_shape env w
  rw [htok]
  rfl

/-- The last loop of `minify` on a partly restored text restores the spans of
every entry of `map`. -/
theorem restore_spec (env : Env) (text : Str)
    (hfree : ∀ w ∈ directiveSpans 0 text, ¬ placeholder env w <:+: text)
    (hinj : ∀ a ∈ directiveSpans 0 text, ∀ b ∈ directiveSpans 0 text,
      placeholder env a = placeholder env b → a = b)
    (map : JsObj Str) :
    ∀ f : Str → Str, (∀ w ∈ directiveSpans 0 text, f w = w ∨ f w = placeholder env w) →
      (∀ e ∈ map, e.2 ∈ directiveSpans 0 text ∧ e.1 = placeholder env e.2) →
      Mjs.restore map (rewriteSpans f 0 text) =
        rewriteSpans (fun w => if w ∈ map.map Prod.snd then w else f w) 0 text := by
  induction map with
  | nil => intro f _ _; simp [Mjs.restore]
  | cons e map ih =>
    intro f hf hmap
    obtain ⟨tok, span⟩ := e
    obtain ⟨hspan, htok⟩ := hmap (tok, span) (List.mem_cons_self _ _)
    simp only at hspan htok
    subst htok
    simp only [Mjs.restore]
    rw [splitJoin_placeholder,
      splitJoinAux_rewriteSpans env (directiveSpans 0 text)
        (fun w hw => (mem_directiveSpans text w hw).1) hinj span hspan f hf text
        (fun w hw => hw) (hfree span hspan)]
    rw [ih _ ?_ (fun e he => hmap e (List.mem_cons_of_mem _ he))]
    · apply rewriteSpans_congr
      intro w _
      by_cases h1 : w ∈ List.map Prod.snd map
      · simp [h1]
      · by_cases h2 : w = span
        · simp [h2]
        · simp [h1, h2]
    · intro w hw
      by_cases h2 : w = span
      · left; simp [h2]
      · simpa [h2] using hf w hw

/-- C5. Directive round trip: when the text holds none of the placeholder tokens
of its own directive spans, distinct spans have distinct tokens and the shrinker
returns its input unchanged, `minify` returns the text unchanged: restoring the
substituted text gives the text back, every span verbatim at its place. -/
theorem C5_minify_round_trip (env : Env) (self : Mjs) (text : Str)
    (hfree : ∀ w ∈ directiveSpans 0 text, ¬ placeholder env w <:+: text)
    (hinj : ∀ a ∈ directiveSpans 0 text, ∀ b ∈ directiveSpans 0 text,
      placeholder env a = placeholder env b → a = b)
    (hshrink : ∀ t, env.uglifyjs t = .ok t) :
    Mjs.restore (Mjs.substitute env (directiveSpans 0 text) (text, [])).2
      (Mjs.substitute env (directiveSpans 0 text) (text, [])).1 = text ∧
    ∃ s, Mjs.minify env self text = .ok text s := by
  have hG1 : ∀ w ∈ directiveSpans 0 text, IsSpan w :=
    fun w hw => (mem_directiveSpans text w hw).1
  have hG2 : ∀ w ∈ directiveSpans 0 text, ∀ w2 ∈ directiveSpans 0 text,
      ¬ placeholder env w2 <:+: w :=
    fun w hw w2 hw2 h => hfree w2 hw2 (h.trans (mem_directiveSpans text w hw).2)
  have hsub := substitute_spec env (directiveSpans 0 text) hG1 hG2 text [] []
    (fun w hw => hw) (fun w _ u v huv hv _ => by
      have : v = [] := by
        have := congrArg List.length huv
        simp only [List.length_nil, List.length_append] at this
        exact List.length_eq_zero.mp (by omega)
      exact hv this)
  simp only [List.nil_append] at hsub
  obtain ⟨hm1, hm2⟩ := recorded_map env (directiveSpans 0 text) hinj (directiveSpans 0 text)
    (fun w hw => hw) [] (by simp)
  have hround : Mjs.restore (Mjs.substitute env (directiveSpans 0 text) (text, [])).2
      (Mjs.substitute env (directiveSpans 0 text) (text, [])).1 = text := by
    rw [hsub]
    simp only
    rw [restore_spec env text hfree hinj _ (placeholder env) (fun w _ => Or.inr rfl) hm1]
    apply rewriteSpans_self
    intro w hw
    obtain ⟨e, he, hew⟩ := hm2 w (Or.inl hw)
    have : w ∈ List.map Prod.snd
        (List.foldl (fun m w => JsObj.set m (placeholder env w) w) [] (directiveSpans 0 text)) :=
      List.mem_map.mpr ⟨e, he, hew⟩
    simp [this]
  refine ⟨hround, ?_⟩
  unfold Mjs.minify
  simp only [hshrink, hround]
  exact ⟨_, rfl⟩

end EjsMin

namespace EjsMin

/-- Witness for C5 on `roundTripText`, whose three matches are a directive with
quotes and the same directive twice. -/
theorem C5_minify_round_trip_witness :
    directiveSpans 0 roundTripText =
      ["<%= t(\"q\") %>".toList, "<% x %>".toList, "<% x %>".toList] ∧
    Mjs.restore (Mjs.substitute (exampleEnv []) (directiveSpans 0 roundTripText)
        (roundTripText, [])).2
      (Mjs.substitute (exampleEnv []) (directiveSpans 0 roundTripText) (roundTripText, [])).1 =
        roundTripText ∧
    ∃ s, Mjs.minify (exampleEnv []) freshMjs roundTripText = .ok roundTripText s :=
  ⟨by decide,
   C5_minify_round_trip (exampleEnv []) freshMjs roundTripText (by decide) (by decide)
    (fun _ => rfl)⟩

end EjsMin

namespace EjsMin

/-! ## `clearAll` -/

theorem JsObj.get_ne_none_iff {α : Type} (obj : JsObj α) (key : Str) :
    JsObj.get obj key ≠ none ↔ key ∈ JsObj.keys obj := by
  induction obj with
  | nil => simp [JsObj.get, JsObj.keys]
  | cons e rest ih =>
    obtain ⟨k, v⟩ := e
    by_cases h : k = key
    · subst h
      constructor
      · intro _
        exact List.mem_cons_self _ _
      · intro _
        simp only [JsObj.get, if_true]
        exact fun h => Option.noConfusion h
    · have h2 : ¬ key = k := fun e => h e.symm
      simp only [JsObj.get, h, if_false, ih, JsObj.keys, List.map_cons, List.mem_cons, h2,
        false_or]

theorem JsObj.get_filter_of_not {α : Type} (obj : JsObj α) (p : Str → Bool) (key : Str)
    (h : p key = false) : JsObj.get (List.filter (fun e => p e.1) obj) key = none := by
  induction obj with
  | nil => rfl
  | cons e rest ih =>
    obtain ⟨k, v⟩ := e
    by_cases hk : p k = true
    · have hne : ¬ k = key := by rintro rfl; rw [h] at hk; exact Bool.noConfusion hk
      simp only [List.filter_cons, hk, if_true, JsObj.get, hne, if_false]
      exact ih
    · simp only [List.filter_cons, hk]
      exact ih

theorem JsObj.get_filter_of_none {α : Type} (obj : JsObj α) (p : Str → Bool) (key : Str)
    (h : JsObj.get obj key = none) : JsObj.get (List.filter (fun e => p e.1) obj) key = none := by
  induction obj with
  | nil => rfl
  | cons e rest ih =>
    obtain ⟨k, v⟩ := e
    by_cases hk : k = key
    · simp [JsObj.get, hk] at h
    · simp only [JsObj.get, hk, if_false] at h
      by_cases hp : p k = true
      · simp only [List.filter_cons, hp, if_true, JsObj.get, hk, if_false]
        exact ih h
      · simp only [List.filter_cons, hp]
        exact ih h

theorem JsObj.get_filter_of_pos {α : Type} (obj : JsObj α) (p : Str → Bool) (key : Str)
    (h : p key = true) : JsObj.get (List.filter (fun e => p e.1) obj) key = JsObj.get obj key := by
  induction obj with
  | nil => rfl
  | cons e rest ih =>
    obtain ⟨k, v⟩ := e
    by_cases hk : k = key
    · subst hk
      simp only [List.filter_cons, h, if_true, JsObj.get]
    · by_cases hp : p k = true
      · simp only [List.filter_cons, hp, if_true, JsObj.get, hk, if_false]
        exact ih
      · simp only [List.filter_cons, hp, JsObj.get, hk, if_false]
        exact ih

namespace Cache

theorem compiledCache_deleteAll (vs : List Str) (c : Cache) :
    (vs.foldl deleteCompiled c).compiledCache =
      c.compiledCache.filter (fun e => decide (e.1 ∉ vs)) := by
  induction vs generalizing c with
  | nil => simp
  | cons v vs ih =>
    rw [List.foldl_cons, ih]
    simp only [deleteCompiled, JsObj.delete, List.filter_filter]
    apply List.filter_congr
    intro e _
    by_cases h1 : e.1 = v <;> by_cases h2 : e.1 ∈ vs <;> simp [h1, h2]

/-- What one `clearOne` leaves, as filters of the stores it started from. -/
theorem clearOne_filters (fuel : Nat) (c c2 : Cache) (hash : Str)
    (h : clearOne fuel c hash = some c2) :
    c2.cacheRelations = c.cacheRelations ∧
    c2.sourceCache = c.sourceCache.filter (fun e => decide (e.1 ∉ [hash])) ∧
    ∃ vs : List Str, c2.compiledCache = c.compiledCache.filter (fun e => decide (e.1 ∉ vs)) ∧
      ∀ v, v ∈ vs ↔ (v = hash ∨ Relation.TransGen c.IsParent hash v) := by
  unfold clearOne at h
  simp only [Option.map_eq_some', Prod.exists, exists_and_right, exists_eq_right] at h
  obtain ⟨vs, hr⟩ := h
  obtain ⟨e, m⟩ := clearRelation_spec _ _ _ _ _ hr
  refine ⟨?_, ?_, hash :: vs, ?_, ?_⟩
  · rw [e, (deleteAll_relations vs _).1]
  · rw [e, (deleteAll_relations vs _).2]
    simp only [JsObj.delete]
    apply List.filter_congr
    intro x _
    simp
  · rw [e, compiledCache_deleteAll]
    simp only [JsObj.delete, List.filter_filter]
    apply List.filter_congr
    intro x _
    by_cases h1 : x.1 = hash <;> by_cases h2 : x.1 ∈ vs <;> simp [h1, h2]
  · intro v
    rw [List.mem_cons, m]
    rfl

/-- What the loop of `clearAll` over the keys `hs` leaves. -/
theorem clearEach_filters (fuel : Nat) (hs : List Str) (c c2 : Cache)
    (h : clearEach fuel hs c = some c2) :
    c2.cacheRelations = c.cacheRelations ∧
    c2.sourceCache = c.sourceCache.filter (fun e => decide (e.1 ∉ hs)) ∧
    ∃ vs : List Str, c2.compiledCache = c.compiledCache.filter (fun e => decide (e.1 ∉ vs)) ∧
      ∀ v, v ∈ vs ↔ ∃ x ∈ hs, v = x ∨ Relation.TransGen c.IsParent x v := by
  induction hs generalizing c with
  | nil =>
    simp only [clearEach, Option.some.injEq] at h
    subst h
    exact ⟨rfl, by simp, [], by simp, by simp⟩
  | cons x hs ih =>
    simp only [clearEach] at h
    cases h1 : clearOne fuel c x with
    | none => simp [h1] at h
    | some c1 =>
      simp only [h1] at h
      obtain ⟨r1, s1, vs1, k1, m1⟩ := clearOne_filters fuel c c1 x h1
      obtain ⟨r2, s2, vs2, k2, m2⟩ := ih c1 h
      have hpar : c1.IsParent = c.IsParent := isParent_congr r1
      refine ⟨r2.trans r1, ?_, vs1 ++ vs2, ?_, ?_⟩
      · rw [s2, s1, List.filter_filter]
        apply List.filter_congr
        intro e _
        by_cases h3 : e.1 = x <;> by_cases h4 : e.1 ∈ hs <;> simp [h3, h4]
      · rw [k2, k1, List.filter_filter]
        apply List.filter_congr
        intro e _
        by_cases h3 : e.1 ∈ vs1 <;> by_cases h4 : e.1 ∈ vs2 <;> simp [h3, h4]
      · intro v
        rw [List.mem_append, m1, m2, hpar]
        constructor
        · rintro (h5 | ⟨y, hy, h5⟩)
          · exact ⟨x, List.mem_cons_self _ _, h5⟩
          · exact ⟨y, List.mem_cons_of_mem _ hy, h5⟩
        · rintro ⟨y, hy, h5⟩
          rcases List.mem_cons.mp hy with rfl | hy
          · exact Or.inl h5
          · exact Or.inr ⟨y, hy, h5⟩

/-- The loop of `clearAll` returns once the fuel exceeds the rank of every key. -/
theorem clearEach_isSome (c : Cache) (n : Str → Nat)
    (hn : ∀ fuel hash, n hash < fuel → ∀ d : Cache, d.cacheRelations = c.cacheRelations →
      (clearRelation fuel d hash).isSome = true)
    (fuel : Nat) (hs : List Str) (hfuel : ∀ x ∈ hs, n x < fuel) (d : Cache)
    (hd : d.cacheRelations = c.cacheRelations) : (clearEach fuel hs d).isSome = true := by
  induction hs generalizing d with
  | nil => rfl
  | cons x hs ih =>
    simp only [clearEach]
    have h1 : (clearOne fuel d x).isSome = true := by
      unfold clearOne
      simp only [Option.isSome_map']
      exact hn fuel x (hfuel x (List.mem_cons_self _ _)) _ hd
    cases h2 : clearOne fuel d x with
    | none => simp [h2] at h1
    | some d1 =>
      simp only []
      exact ih (fun y hy => hfuel y (List.mem_cons_of_mem _ hy)) d1
        ((clearOne_spec fuel d d1 x h2).2.2.1.trans hd)

theorem exists_bound (n : Str → Nat) (hs : List Str) : ∃ N, ∀ x ∈ hs, n x ≤ N := by
  induction hs with
  | nil => exact ⟨0, by simp⟩
  | cons x hs ih =>
    obtain ⟨N, hN⟩ := ih
    refine ⟨max (n x) N, ?_⟩
    intro y hy
    rcases List.mem_cons.mp hy with rfl | hy
    · exact le_max_left _ _
    · exact le_trans (hN y hy) (le_max_right _ _)

end Cache

/-- C11. On an acyclic relation graph `clearAll` returns (for all large enough
fuel); afterwards the Content Store is empty and no identifier that had a Content
Entry, nor any of its transitive parents, has a Compiled Entry; and applying
`clearOne` to the keys of the Content Store in turn, in whatever order, gives the
same cache. -/
theorem C11_clearAll (c : Cache) (hac : c.Acyclic) :
    ∃ N : Nat, ∀ fuel, N < fuel → ∃ c2, c.clearAll fuel = some c2 ∧
      c2.sourceCache = [] ∧
      (∀ x, c.getSourceText x ≠ none → c2.getCompiled x = none) ∧
      (∀ x y, c.getSourceText x ≠ none → Relation.TransGen c.IsParent x y →
        c2.getCompiled y = none) ∧
      (∀ hs : List Str, hs.Perm (JsObj.keys c.sourceCache) →
        Cache.clearEach fuel hs c = some c2) := by
  obtain ⟨n, hn⟩ := Cache.clearRelation_terminates c hac
  obtain ⟨N, hN⟩ := Cache.exists_bound n (JsObj.keys c.sourceCache)
  refine ⟨N, fun fuel hf => ?_⟩
  have hsome : ∀ hs : List Str, hs.Perm (JsObj.keys c.sourceCache) →
      (Cache.clearEach fuel hs c).isSome = true := by
    intro hs hp
    exact Cache.clearEach_isSome c n hn fuel hs
      (fun x hx => lt_of_le_of_lt (hN x (hp.mem_iff.mp hx)) hf) c rfl
  have h0 := hsome _ (List.Perm.refl _)
  cases hr : Cache.clearEach fuel (JsObj.keys c.sourceCache) c with
  | none => simp [hr] at h0
  | some c2 =>
    obtain ⟨r, s, vs, k, m⟩ := Cache.clearEach_filters fuel _ c c2 hr
    have hcomp : ∀ y, y ∈ vs → c2.getCompiled y = none := by
      intro y hy
      unfold Cache.getCompiled
      rw [k]
      exact JsObj.get_filter_of_not _ (fun key => decide (key ∉ vs)) y (by simpa using hy)
    refine ⟨c2, hr, ?_, ?_, ?_, ?_⟩
    · rw [s, List.filter_eq_nil_iff]
      intro e he
      have : e.1 ∈ JsObj.keys c.sourceCache := List.mem_map.mpr ⟨e, he, rfl⟩
      simpa using this
    · intro x hx
      exact hcomp x ((m x).mpr ⟨x, (JsObj.get_ne_none_iff _ _).mp hx, Or.inl rfl⟩)
    · intro x y hx hxy
      exact hcomp y ((m y).mpr ⟨x, (JsObj.get_ne_none_iff _ _).mp hx, Or.inr hxy⟩)
    · intro hs hp
      have h1 := hsome hs hp
      cases hr2 : Cache.clearEach fuel hs c with
      | none => simp [hr2] at h1
      | some c3 =>
        obtain ⟨r3, s3, vs3, k3, m3⟩ := Cache.clearEach_filters fuel _ c c3 hr2
        have e1 : c3.sourceCache = c2.sourceCache := by
          rw [s3, s]
          apply List.filter_congr
          intro e _
          simp [hp.mem_iff]
        have e2 : c3.compiledCache = c2.compiledCache := by
          rw [k3, k]
          apply List.filter_congr
          intro e _
          have : e.1 ∈ vs3 ↔ e.1 ∈ vs := by
            rw [m3, m]
            constructor
            · rintro ⟨x, hx, h⟩; exact ⟨x, hp.mem_iff.mp hx, h⟩
            · rintro ⟨x, hx, h⟩; exact ⟨x, hp.mem_iff.mpr hx, h⟩
          simp [this]
        have e3 : c3.cacheRelations = c2.cacheRelations := r3.trans r.symm
        cases c2; cases c3
        simp only at e1 e2 e3
        subst e1 e2 e3
        rfl

end EjsMin

namespace EjsMin

/-! ## `addRelation` -/

theorem JsObj.set_of_get {α : Type} (obj : JsObj α) (key : Str) (v : α)
    (h : JsObj.get obj key = some v) : JsObj.set obj key v = obj := by
  induction obj with
  | nil => simp [JsObj.get] at h
  | cons e rest ih =>
    obtain ⟨k, w⟩ := e
    by_cases hk : k = key
    · subst hk
      simp only [JsObj.get, if_true, Option.some.injEq] at h
      subst h
      simp [JsObj.set]
    · simp only [JsObj.get, hk, if_false] at h
      simp only [JsObj.set, hk, if_false, ih h]

theorem countP_eq_one_of_nodup (l : List Str) (a : Str) (hn : l.Nodup) (hm : a ∈ l) :
    l.countP (fun x => decide (x = a)) = 1 := by
  induction l with
  | nil => simp at hm
  | cons b l ih =>
    rw [List.nodup_cons] at hn
    by_cases hb : b = a
    · subst hb
      have h0 : l.countP (fun x => decide (x = b)) = 0 := by
        rw [List.countP_eq_zero]
        intro x hx
        have : x ≠ b := fun e => hn.1 (e ▸ hx)
        simpa using this
      simp [List.countP_cons, h0]
    · have hm2 : a ∈ l := by
        rcases List.mem_cons.mp hm with h | h
        · exact absurd h.symm hb
        · exact h
      simp [List.countP_cons, hb, ih hn.2 hm2]

namespace Cache

/-- Adding an edge that is already recorded changes nothing. -/
theorem addRelation_of_mem (c : Cache) (child parent : Str) (h : parent ∈ c.parents child) :
    c.addRelation child parent = c := by
  have hget : JsObj.get c.cacheRelations child = some (c.parents child) := by
    unfold parents at h ⊢
    cases hg : JsObj.get c.cacheRelations child with
    | none => simp [hg] at h
    | some ps => rfl
  unfold addRelation
  simp only [h, if_true, JsObj.set_of_get _ _ _ hget]

/-- In every state the methods of `Cache` reach from the empty cache, no parent
list holds an identifier twice. -/
theorem Reachable.nodup {c : Cache} (h : c.Reachable) : ∀ x, (c.parents x).Nodup := by
  induction h with
  | empty => intro x; simp [parents, Cache.empty, JsObj.get]
  | setSourceText _ _ _ ih => exact ih
  | setCompiled _ _ _ ih => exact ih
  | addRelation _ child parent ih =>
    intro x
    by_cases hx : x = child
    · subst hx
      rw [Mjs.parents_addRelation_self]
      split
      · exact ih x
      · rename_i hn
        exact List.Nodup.append (ih x) (List.nodup_singleton _) (by simpa using hn)
    · rw [Mjs.parents_addRelation_ne _ _ _ _ hx]
      exact ih x
  | clearRelation _ fuel hash hr ih =>
    intro x
    have e := (clearRelation_spec _ _ _ _ _ hr).1
    simp only [parents, e, (deleteAll_relations _ _).1]
    exact ih x
  | clearOne _ fuel hash hr ih =>
    intro x
    have e := (clearOne_spec _ _ _ _ hr).2.2.1
    simp only [parents, e]
    exact ih x
  | clearAll _ fuel hr ih =>
    intro x
    have e := (clearEach_filters _ _ _ _ hr).1
    simp only [parents, e]
    exact ih x

end Cache

/-- C13. After `addRelation(child, parent)` the parent is in the child's parent
list: appended when it was absent, and with the cache left as it was when it was
present, so calling it twice is the same as calling it once; no other child's
list and neither store changes; and in every state reached from the empty cache
by the methods of `Cache` every parent list is free of duplicates, so the parent
is in the list exactly once. -/
theorem C13_addRelation (c : Cache) (child parent : Str) :
    parent ∈ (c.addRelation child parent).parents child ∧
    (parent ∉ c.parents child →
      (c.addRelation child parent).parents child = c.parents child ++ [parent]) ∧
    (parent ∈ c.parents child → c.addRelation child parent = c) ∧
    (c.addRelation child parent).addRelation child parent = c.addRelation child parent ∧
    (∀ other, other ≠ child → (c.addRelation child parent).parents other = c.parents other) ∧
    (c.addRelation child parent).sourceCache = c.sourceCache ∧
    (c.addRelation child parent).compiledCache = c.compiledCache ∧
    (c.Reachable → (∀ x, (c.parents x).Nodup) ∧
      ((c.addRelation child parent).parents child).countP (fun p => decide (p = parent)) = 1) := by
  have hmem : parent ∈ (c.addRelation child parent).parents child :=
    Mjs.isParent_addRelation c child parent
  refine ⟨hmem, ?_, Cache.addRelation_of_mem c child parent,
    Cache.addRelation_of_mem _ child parent hmem,
    fun other ho => Mjs.parents_addRelation_ne c child parent other ho, rfl, rfl, ?_⟩
  · intro hn
    rw [Mjs.parents_addRelation_self]
    simp [hn]
  · intro hr
    refine ⟨hr.nodup, ?_⟩
    exact countP_eq_one_of_nodup _ _ ((hr.addRelation child parent).nodup child) hmem

/-- Witness for C13: the same edge added twice to the empty cache. -/
theorem C13_addRelation_witness :
    ((Cache.empty.addRelation "c.mjs".toList "a.mjs".toList).addRelation
      "c.mjs".toList "a.mjs".toList).parents "c.mjs".toList = ["a.mjs".toList] ∧
    (((Cache.empty.addRelation "c.mjs".toList "a.mjs".toList).addRelation
      "c.mjs".toList "a.mjs".toList).parents "c.mjs".toList).countP
        (fun p => decide (p = "a.mjs".toList)) = 1 :=
  ⟨by decide,
   ((C13_addRelation (Cache.empty.addRelation "c.mjs".toList "a.mjs".toList)
      "c.mjs".toList "a.mjs".toList).2.2.2.2.2.2.2
      (Cache.Reachable.addRelation Cache.Reachable.empty _ _)).2⟩

end EjsMin

namespace EjsMin

/-! ## Reads on a cache that agrees with the backing store -/

theorem Outcome.state_of_ends {α : Type} {P : Mjs → Prop} {o : Outcome α} (h : o.Ends P) :
    P o.state := by
  cases o <;> exact h

namespace Mjs

theorem coherent_setSourceText (env : Env) (c : Cache) (name text : Str)
    (hc : c.Coherent env) (ht : loadText env name = some text) :
    (c.setSourceText name text).Coherent env := by
  intro x t hx
  by_cases hxn : x = name
  · subst hxn
    have h1 := (truthy_eq_some hx).1
    unfold Cache.getSourceText Cache.setSourceText at h1
    rw [JsObj.get_set_self] at h1
    rw [ht, ← Option.some.inj h1]
  · apply hc x t
    unfold Cache.getSourceText Cache.setSourceText at hx
    rw [JsObj.get_set_ne _ _ hxn] at hx
    exact hx

theorem coherent_of_sourceCache_eq (env : Env) {c d : Cache} (h : d.sourceCache = c.sourceCache)
    (hc : c.Coherent env) : d.Coherent env := by
  intro x t hx
  apply hc x t
  unfold Cache.getSourceText at hx ⊢
  rw [← h]; exact hx

/-- On a coherent cache `loadSource` hands back what a fetch would, and leaves the
cache coherent. -/
theorem loadSource_coherent (env : Env) (s : Mjs) (name : Str) (hs : s.cache.Coherent env) :
    (loadSource env s name).Ends (fun s1 => s1.cache.Coherent env) ∧
    (loadSource env s name).result =
      (match env.readFileSync name with
       | none => some (.error (.notFound name))
       | some raw => if reCss name then some (env.uglifycss raw) else some (.ok raw)) := by
  unfold loadSource
  cases ht : truthy (s.cache.getSourceText name) with
  | some text =>
    refine ⟨hs, ?_⟩
    have h1 := hs name text ht
    unfold loadText at h1
    cases hf : env.readFileSync name with
    | none => simp [hf] at h1
    | some raw =>
      simp only [hf] at h1 ⊢
      by_cases hc : reCss name = true
      · simp only [hc, if_true] at h1 ⊢
        cases hu : env.uglifycss raw with
        | error e => simp [hu] at h1
        | ok shrunk =>
          simp only [hu, Option.some.injEq] at h1
          subst h1; rfl
      · simp only [hc] at h1 ⊢
        simp only [Bool.false_eq_true, if_false, Option.some.injEq] at h1 ⊢
        subst h1; rfl
  | none =>
    cases hf : env.readFileSync name with
    | none => exact ⟨hs, rfl⟩
    | some raw =>
      by_cases hc : reCss name = true
      · simp only [hc, if_true]
        cases hu : env.uglifycss raw with
        | error e => exact ⟨hs, rfl⟩
        | ok shrunk =>
          refine ⟨?_, rfl⟩
          exact coherent_setSourceText env _ name shrunk hs (by simp [loadText, hf, hc, hu])
      · simp only [hc]
        refine ⟨?_, rfl⟩
        exact coherent_setSourceText env _ name raw hs (by simp [loadText, hf, hc])

theorem loadSource_congr (env : Env) (s t : Mjs) (name : Str) (hs : s.cache.Coherent env)
    (ht : t.cache.Coherent env) :
    (loadSource env s name).result = (loadSource env t name).result := by
  rw [(loadSource_coherent env s name hs).2, (loadSource_coherent env t name ht).2]

theorem result_ok {α : Type} {o : Outcome α} {v : α} (h : o.result = some (.ok v)) :
    ∃ s, o = .ok v s := by
  cases o with
  | ok w s => simp only [Outcome.result, Option.some.injEq, Except.ok.injEq] at h; exact ⟨s, by rw [h]⟩
  | throw e s => simp [Outcome.result] at h
  | diverge s => simp [Outcome.result] at h

theorem result_error {α : Type} {o : Outcome α} {e : JsError} (h : o.result = some (.error e)) :
    ∃ s, o = .throw e s := by
  cases o with
  | ok w s => simp [Outcome.result] at h
  | throw e2 s =>
    simp only [Outcome.result, Option.some.injEq, Except.error.injEq] at h; exact ⟨s, by rw [h]⟩
  | diverge s => simp [Outcome.result] at h

theorem result_none {α : Type} {o : Outcome α} (h : o.result = none) : ∃ s, o = .diverge s := by
  cases o with
  | ok w s => simp [Outcome.result] at h
  | throw e2 s => simp [Outcome.result] at h
  | diverge s => exact ⟨s, rfl⟩

/-- The include loop gives the same result from any two coherent states, when the
recursive call does. -/
theorem includeLoop_congr (env : Env) (rd : Mjs → Str → Outcome Str)
    (hrd : ∀ s t child, s.cache.Coherent env → t.cache.Coherent env →
      (rd s child).result = (rd t child).result ∧
      (rd s child).Ends (fun s1 => s1.cache.Coherent env))
    (fuel : Nat) (s t : Mjs) (text : Str) (lastIndex : Nat)
    (hs : s.cache.Coherent env) (ht : t.cache.Coherent env) :
    (includeLoop rd fuel s text lastIndex).result = (includeLoop rd fuel t text lastIndex).result ∧
    (includeLoop rd fuel s text lastIndex).Ends (fun s1 => s1.cache.Coherent env) := by
  induction fuel generalizing s t text lastIndex with
  | zero => exact ⟨rfl, hs⟩
  | succ n ih =>
    unfold includeLoop
    cases hm : execInclude text lastIndex with
    | none => exact ⟨rfl, hs⟩
    | some m =>
      obtain ⟨hres, hends⟩ := hrd s t m.group hs ht
      have hends2 := (hrd t s m.group ht hs).2
      cases h1 : rd s m.group with
      | ok v s1 =>
        rw [h1] at hres hends
        obtain ⟨t1, h2⟩ := result_ok hres.symm
        rw [h2] at hends2
        simp only [h1, h2]
        exact ih s1 t1 _ _ hends hends2
      | throw e s1 =>
        rw [h1] at hres hends
        obtain ⟨t1, h2⟩ := result_error hres.symm
        simp only [h1, h2]
        exact ⟨rfl, hends⟩
      | diverge s1 =>
        rw [h1] at hres hends
        obtain ⟨t1, h2⟩ := result_none hres.symm
        simp only [h1, h2]
        exact ⟨rfl, hends⟩

/-- The result of `read` does not depend on what a coherent cache holds, and
`read` keeps the cache coherent: what it stores is the text as fetched. -/
theorem read_congr (env : Env) (fuel : Nat) (s t : Mjs) (name : Str) (parent : Option Str)
    (hs : s.cache.Coherent env) (ht : t.cache.Coherent env) :
    (read env fuel s name parent).result = (read env fuel t name parent).result ∧
    (read env fuel s name parent).Ends (fun s1 => s1.cache.Coherent env) := by
  induction fuel generalizing s t name parent with
  | zero => exact ⟨rfl, hs⟩
  | succ n ih =>
    unfold read
    have hres := loadSource_congr env s t name hs ht
    have hends := (loadSource_coherent env s name hs).1
    have hends2 := (loadSource_coherent env t name ht).1
    cases h1 : loadSource env s name with
    | throw e s1 =>
      rw [h1] at hres hends
      obtain ⟨t1, h2⟩ := result_error hres.symm
      simp only [h1, h2]
      exact ⟨rfl, hends⟩
    | diverge s1 =>
      rw [h1] at hres hends
      obtain ⟨t1, h2⟩ := result_none hres.symm
      simp only [h1, h2]
      exact ⟨rfl, hends⟩
    | ok text s1 =>
      rw [h1] at hres hends
      obtain ⟨t1, h2⟩ := result_ok hres.symm
      rw [h2] at hends2
      simp only [h1, h2]
      have hc1 : (match parent with
          | some (c :: p) => ({ s1 with cache := s1.cache.addRelation name (c :: p) } : Mjs)
          | _ => s1).cache.Coherent env := by
        cases parent with
        | none => exact hends
        | some p =>
          cases p with
          | nil => exact hends
          | cons c p => exact coherent_of_sourceCache_eq env rfl hends
      have hc2 : (match parent with
          | some (c :: p) => ({ t1 with cache := t1.cache.addRelation name (c :: p) } : Mjs)
          | _ => t1).cache.Coherent env := by
        cases parent with
        | none => exact hends2
        | some p =>
          cases p with
          | nil => exact hends2
          | cons c p => exact coherent_of_sourceCache_eq env rfl hends2
      by_cases hm : reMjs name = true
      · simp only [hm, if_true]
        exact includeLoop_congr env (fun s child => read env n s child (some name))
          (fun a b child ha hb => ih a b child (some name) ha hb) n _ _ text 0 hc1 hc2
      · simp only [hm]
        exact ⟨rfl, hc1⟩

end Mjs

end EjsMin

namespace EjsMin

namespace Mjs

/-- After `loadSource` of `x`, the text of `C` is usable exactly when it was before
or has just been fetched. -/
theorem loadSource_status (env : Env) (s : Mjs) (x C : Str) :
    truthy ((loadSource env s x).state.cache.getSourceText C) =
      (if x = C ∧ truthy (s.cache.getSourceText C) = none then truthy (loadText env C)
       else truthy (s.cache.getSourceText C)) ∧
    (Event.fetch C ∈ (loadSource env s x).state.effects ↔
      Event.fetch C ∈ s.effects ∨ (x = C ∧ truthy (s.cache.getSourceText C) = none)) := by
  have hset : ∀ (u : Mjs) (text : Str), u.cache = s.cache →
      truthy ((u.cache.setSourceText x text).getSourceText C) =
        if x = C then truthy (some text) else truthy (s.cache.getSourceText C) := by
    intro u text hu
    unfold Cache.getSourceText Cache.setSourceText
    by_cases hxc : x = C
    · subst hxc
      simp only [JsObj.get_set_self, if_true]
    · have : C ≠ x := fun e => hxc e.symm
      simp only [JsObj.get_set_ne _ _ this, hxc, if_false, hu]
  unfold loadSource
  cases ht : truthy (s.cache.getSourceText x) with
  | some text =>
    simp only [Outcome.state]
    constructor
    · by_cases hxc : x = C
      · subst hxc
        simp [ht]
      · simp [hxc]
    · constructor
      · exact fun h => Or.inl h
      · rintro (h | ⟨rfl, h⟩)
        · exact h
        · rw [ht] at h; exact Option.noConfusion h
  | none =>
    have hmem : ∀ (l : List Event), (Event.fetch C ∈ s.effects ++ Event.fetch x :: l ↔
        Event.fetch C ∈ s.effects ∨ x = C ∨ Event.fetch C ∈ l) := by
      intro l
      simp only [List.mem_append, List.mem_cons, Event.fetch.injEq]
      constructor
      · rintro (h | h | h)
        · exact Or.inl h
        · exact Or.inr (Or.inl h.symm)
        · exact Or.inr (Or.inr h)
      · rintro (h | h | h)
        · exact Or.inl h
        · exact Or.inr (Or.inl h.symm)
        · exact Or.inr (Or.inr h)
    cases hf : env.readFileSync x with
    | none =>
      simp only [Outcome.state, emit]
      constructor
      · by_cases hxc : x = C
        · subst hxc
          simp only [ht, loadText, hf, and_self, if_true]
          rfl
        · simp [hxc]
      · have := hmem []
        simp only [List.not_mem_nil, or_false] at this
        rw [this]
        by_cases hxc : x = C
        · subst hxc; simp [ht]
        · simp [hxc]
    | some raw =>
      by_cases hc : reCss x = true
      · simp only [hc, if_true]
        cases hu : env.uglifycss raw with
        | error e =>
          simp only [Outcome.state, emit]
          constructor
          · by_cases hxc : x = C
            · subst hxc
              simp only [ht, loadText, hf, hc, hu, and_self, if_true]
              rfl
            · simp [hxc]
          · rw [List.append_assoc, List.singleton_append, hmem [Event.cssShrink raw]]
            by_cases hxc : x = C
            · subst hxc; simp [ht]
            · simp [hxc]
        | ok shrunk =>
          simp only [Outcome.state, emit]
          constructor
          · rw [hset _ shrunk rfl]
            by_cases hxc : x = C
            · subst hxc
              simp [ht, loadText, hf, hc, hu]
            · simp [hxc]
          · rw [List.append_assoc, List.singleton_append, hmem [Event.cssShrink raw]]
            by_cases hxc : x = C
            · subst hxc; simp [ht]
            · simp [hxc]
      · simp only [hc]
        simp only [Outcome.state, emit, Bool.false_eq_true, if_false]
        constructor
        · rw [hset _ raw rfl]
          by_cases hxc : x = C
          · subst hxc
            simp [ht, loadText, hf, hc]
          · simp [hxc]
        · have := hmem []
          simp only [List.not_mem_nil, or_false] at this
          rw [this]
          by_cases hxc : x = C
          · subst hxc; simp [ht]
          · simp [hxc]

theorem loadSource_same (env : Env) (C : Str) (s t : Mjs) (x : Str) (h : SameFor env C s t) :
    (loadSource env s x).result = (loadSource env t x).result ∧
    SameFor env C (loadSource env s x).state (loadSource env t x).state := by
  obtain ⟨hs, ht, hst, hev⟩ := h
  refine ⟨loadSource_congr env s t x hs ht,
    Outcome.state_of_ends (loadSource_coherent env s x hs).1,
    Outcome.state_of_ends (loadSource_coherent env t x ht).1, ?_, ?_⟩
  · rw [(loadSource_status env s x C).1, (loadSource_status env t x C).1]
    by_cases hxc : x = C
    · by_cases h1 : truthy (s.cache.getSourceText C) = none
      · have h2 := hst.mp h1
        simp only [hxc, h1, h2, and_self, if_true]
      · have h2 : ¬ truthy (t.cache.getSourceText C) = none := fun e => h1 (hst.mpr e)
        simp only [hxc, h1, h2, and_false, if_false]
    · simp only [hxc, false_and, if_false]
      exact hst
  · rw [(loadSource_status env s x C).2, (loadSource_status env t x C).2, hev, hst]

theorem sameFor_addRelation (env : Env) (C : Str) (s t : Mjs) (parent : Option Str)
    (child : Str) (h : SameFor env C s t) :
    SameFor env C
      (match parent with
        | some (c :: p) => ({ s with cache := s.cache.addRelation child (c :: p) } : Mjs)
        | _ => s)
      (match parent with
        | some (c :: p) => ({ t with cache := t.cache.addRelation child (c :: p) } : Mjs)
        | _ => t) := by
  cases parent with
  | none => exact h
  | some p =>
    cases p with
    | nil => exact h
    | cons c p => exact h

/-- The include loop treats `C` alike from two states that do, when the recursive
call does. -/
theorem includeLoop_same (env : Env) (C : Str) (rd : Mjs → Str → Outcome Str)
    (hrd : ∀ s t child, SameFor env C s t →
      (rd s child).result = (rd t child).result ∧
      SameFor env C (rd s child).state (rd t child).state)
    (fuel : Nat) (s t : Mjs) (text : Str) (lastIndex : Nat) (h : SameFor env C s t) :
    (includeLoop rd fuel s text lastIndex).result = (includeLoop rd fuel t text lastIndex).result ∧
    SameFor env C (includeLoop rd fuel s text lastIndex).state
      (includeLoop rd fuel t text lastIndex).state := by
  induction fuel generalizing s t text lastIndex with
  | zero => exact ⟨rfl, h⟩
  | succ n ih =>
    unfold includeLoop
    cases hm : execInclude text lastIndex with
    | none => exact ⟨rfl, h⟩
    | some m =>
      obtain ⟨hres, hsame⟩ := hrd s t m.group h
      cases h1 : rd s m.group with
      | ok v s1 =>
        rw [h1] at hres hsame
        obtain ⟨t1, h2⟩ := result_ok hres.symm
        rw [h2] at hsame
        simp only [h1, h2]
        exact ih s1 t1 _ _ hsame
      | throw e s1 =>
        rw [h1] at hres hsame
        obtain ⟨t1, h2⟩ := result_error hres.symm
        rw [h2] at hsame
        simp only [h1, h2]
        exact ⟨rfl, hsame⟩
      | diverge s1 =>
        rw [h1] at hres hsame
        obtain ⟨t1, h2⟩ := result_none hres.symm
        rw [h2] at hsame
        simp only [h1, h2]
        exact ⟨rfl, hsame⟩

/-- From two states that treat `C` alike, `read` hands back the same result and
fetches `C` in both runs or in neither. -/
theorem read_same (env : Env) (C : Str) (fuel : Nat) (s t : Mjs) (name : Str)
    (parent : Option Str) (h : SameFor env C s t) :
    (read env fuel s name parent).result = (read env fuel t name parent).result ∧
    SameFor env C (read env fuel s name parent).state (read env fuel t name parent).state := by
  induction fuel generalizing s t name parent with
  | zero => exact ⟨rfl, h⟩
  | succ n ih =>
    unfold read
    obtain ⟨hres, hsame⟩ := loadSource_same env C s t name h
    cases h1 : loadSource env s name with
    | throw e s1 =>
      rw [h1] at hres hsame
      obtain ⟨t1, h2⟩ := result_error hres.symm
      rw [h2] at hsame
      simp only [h2]
      exact ⟨rfl, hsame⟩
    | diverge s1 =>
      rw [h1] at hres hsame
      obtain ⟨t1, h2⟩ := result_none hres.symm
      rw [h2] at hsame
      simp only [h2]
      exact ⟨rfl, hsame⟩
    | ok text s1 =>
      rw [h1] at hres hsame
      obtain ⟨t1, h2⟩ := result_ok hres.symm
      rw [h2] at hsame
      simp only [h2]
      have hadd := sameFor_addRelation env C s1 t1 parent name hsame
      by_cases hm : reMjs name = true
      · simp only [hm, if_true]
        exact includeLoop_same env C (fun s child => read env n s child (some name))
          (fun a b child hab => ih a b child (some name) hab) n _ _ text 0 hadd
      · simp only [hm]
        exact ⟨rfl, hadd⟩

end Mjs

end EjsMin

namespace EjsMin

namespace Mjs

theorem coherent_empty (env : Env) : Cache.empty.Coherent env := by
  intro x text h
  simp [Cache.empty, Cache.getSourceText, JsObj.get, truthy] at h

/-- What `compileFile` hands back when there is no Compiled Entry is fixed by what
`read` hands back and by the `compress` option. -/
theorem compileFile_result_of_read (env : Env) (fuel : Nat) (s t : Mjs) (id : Str)
    (hs : s.cache.getCompiled (env.relative id) = none)
    (ht : t.cache.getCompiled (env.relative id) = none)
    (hopt : t.options = s.options)
    (hread : (read env fuel s (env.relative id) none).result =
      (read env fuel t (env.relative id) none).result) :
    (compileFile env fuel s id).result = (compileFile env fuel t id).result := by
  have hos := read_extends env fuel s (env.relative id) none
  have hot := read_extends env fuel t (env.relative id) none
  unfold compileFile
  simp only [hs, ht]
  cases h1 : read env fuel s (env.relative id) none with
  | throw e s1 =>
    rw [h1] at hread
    obtain ⟨t1, h2⟩ := result_error hread.symm
    simp only [h2]; rfl
  | diverge s1 =>
    rw [h1] at hread
    obtain ⟨t1, h2⟩ := result_none hread.symm
    simp only [h2]; rfl
  | ok text s1 =>
    rw [h1] at hread hos
    obtain ⟨t1, h2⟩ := result_ok hread.symm
    rw [h2] at hot
    have ho : t1.options.compress = s1.options.compress := by
      rw [hot.options_eq, hos.options_eq, hopt]
    simp only [h2, ho]
    by_cases hc : s1.options.compress = true
    · simp only [hc, if_true]
      by_cases hcss : reCss (env.relative id) = true
      · simp only [hcss, if_true]
        cases env.uglifycss text with
        | error e => rfl
        | ok shrunk =>
          simp only []
          cases env.ejsCompile shrunk <;> rfl
      · simp only [hcss]
        unfold minify
        simp only [Bool.false_eq_true, if_false]
        cases env.uglifyjs
            (substitute env (directiveSpans 0 text) (text, [])).1 with
        | error e => rfl
        | ok code =>
          simp only []
          cases env.ejsCompile
            (restore (substitute env (directiveSpans 0 text) (text, [])).2 code) <;> rfl
    · simp only [hc]
      simp only [Bool.false_eq_true, if_false]
      cases env.ejsCompile text <;> rfl

/-- However `compileFile` ends, a coherent cache stays coherent. -/
theorem compileFile_coherent (env : Env) (fuel : Nat) (s : Mjs) (id : Str)
    (hs : s.cache.Coherent env) :
    (compileFile env fuel s id).Ends (fun s1 => s1.cache.Coherent env) := by
  have hr := (read_congr env fuel s s (env.relative id) none hs hs).2
  unfold compileFile
  simp only []
  cases hg : s.cache.getCompiled (env.relative id) with
  | some fn => exact hs
  | none =>
    simp only []
    cases h1 : read env fuel s (env.relative id) none with
    | throw e s1 => rw [h1] at hr; exact hr
    | diverge s1 => rw [h1] at hr; exact hr
    | ok text s1 =>
      rw [h1] at hr
      have hr' : s1.cache.Coherent env := hr
      simp only []
      by_cases hc : s1.options.compress = true
      · simp only [hc, if_true]
        by_cases hcss : reCss (env.relative id) = true
        · simp only [hcss, if_true]
          cases env.uglifycss text with
          | error e => exact hr'
          | ok shrunk =>
            simp only []
            cases env.ejsCompile shrunk with
            | error e => exact hr'
            | ok fn => exact coherent_of_sourceCache_eq env rfl hr'
        · simp only [hcss]
          unfold minify
          simp only [Bool.false_eq_true, if_false]
          cases env.uglifyjs (substitute env (directiveSpans 0 text) (text, [])).1 with
          | error e => exact hr'
          | ok code =>
            simp only []
            cases env.ejsCompile
                (restore (substitute env (directiveSpans 0 text) (text, [])).2 code) with
            | error e => exact hr'
            | ok fn => exact coherent_of_sourceCache_eq env rfl hr'
      · simp only [hc]
        simp only [Bool.false_eq_true, if_false]
        cases env.ejsCompile text with
        | error e => exact hr'
        | ok fn => exact coherent_of_sourceCache_eq env rfl hr'

end Mjs

/-- C12. Let the cache agree with the backing store, let `clearOne(C)` run, and
let the file of `C` change (every other file unchanged).  Then `C` has no
Content Entry, so a read of `C` fetches it; every Content Entry left is the raw
text of its file; every `read` hands back exactly what it hands back on an empty
cache with the files as they are now, hence built from the new text of `C`, and
stores only raw texts; `compileFile` of `C` or of a recorded transitive includer
of `C` hands back what it hands back on an empty cache; and a `read` fetches `C`
exactly when the same `read` on an empty cache does. -/
theorem C12_refetch_after_clearOne (env env2 : Env) (s : Mjs) (C : Str) (fuel1 : Nat)
    (c1 : Cache) (hcoh : s.cache.Coherent env)
    (hfiles : ∀ x, x ≠ C → env2.readFileSync x = env.readFileSync x)
    (hcss : env2.uglifycss = env.uglifycss)
    (hclear : s.cache.clearOne fuel1 C = some c1) :
    c1.getSourceText C = none ∧
    (∃ evs, (Mjs.loadSource env2 { s with cache := c1 } C).state.effects =
      s.effects ++ Event.fetch C :: evs) ∧
    c1.Coherent env2 ∧
    (∀ fuel A parent,
      (Mjs.read env2 fuel { s with cache := c1 } A parent).result =
        (Mjs.read env2 fuel { s with cache := Cache.empty } A parent).result ∧
      (Mjs.read env2 fuel { s with cache := c1 } A parent).Ends
        (fun s2 => s2.cache.Coherent env2)) ∧
    (∀ fuel id, (env2.relative id = C ∨
        Relation.TransGen s.cache.IsParent C (env2.relative id)) →
      (Mjs.compileFile env2 fuel { s with cache := c1 } id).result =
        (Mjs.compileFile env2 fuel { s with cache := Cache.empty } id).result) ∧
    (∀ fuel A parent,
      (Event.fetch C ∈ (Mjs.read env2 fuel ⟨s.options, c1, []⟩ A parent).state.effects ↔
        Event.fetch C ∈
          (Mjs.read env2 fuel ⟨s.options, Cache.empty, []⟩ A parent).state.effects)) := by
  obtain ⟨h1, h2, h3, h4⟩ := Cache.clearOne_spec fuel1 s.cache c1 C hclear
  have hsrc : ∀ x, x ≠ C → c1.getSourceText x = s.cache.getSourceText x := by
    intro x hx
    obtain ⟨_, hf, _⟩ := Cache.clearOne_filters fuel1 s.cache c1 C hclear
    unfold Cache.getSourceText
    rw [hf]
    have := JsObj.get_delete_ne s.cache.sourceCache hx
    unfold JsObj.delete at this
    rw [← this]
    congr 1
    apply List.filter_congr
    intro e _
    simp
  have hc1 : c1.Coherent env2 := by
    intro x text hx
    by_cases hxc : x = C
    · subst hxc
      rw [h1] at hx
      simp [Mjs.truthy] at hx
    · rw [hsrc x hxc] at hx
      have := hcoh x text hx
      unfold loadText at this ⊢
      rw [hfiles x hxc, hcss]
      exact this
  refine ⟨h1, ?_, hc1, ?_, ?_, ?_⟩
  rotate_right
  · intro fuel A parent
    have hsame : Mjs.SameFor env2 C ⟨s.options, c1, []⟩ ⟨s.options, Cache.empty, []⟩ :=
      ⟨hc1, Mjs.coherent_empty env2,
        ⟨fun _ => rfl, fun _ => by show Mjs.truthy (c1.getSourceText C) = none; rw [h1]; rfl⟩,
        Iff.rfl⟩
    exact (Mjs.read_same env2 C fuel _ _ A parent hsame).2.2.2.2
  · unfold Mjs.loadSource
    simp only [h1, Mjs.truthy]
    cases env2.readFileSync C with
    | none => exact ⟨[], by simp [Mjs.emit, Outcome.state]⟩
    | some raw =>
      by_cases hcs : reCss C = true
      · simp only [hcs, if_true]
        cases env2.uglifycss raw with
        | error e => exact ⟨[.cssShrink raw], by simp [Mjs.emit, Outcome.state]⟩
        | ok shrunk => exact ⟨[.cssShrink raw], by simp [Mjs.emit, Outcome.state]⟩
      · simp only [hcs]
        exact ⟨[], by simp [Mjs.emit, Outcome.state]⟩
  · intro fuel A parent
    exact Mjs.read_congr env2 fuel _ _ A parent hc1 (Mjs.coherent_empty env2)
  · intro fuel id hid
    have hmiss : ({ s with cache := c1 } : Mjs).cache.getCompiled (env2.relative id) = none := by
      rcases hid with h | h
      · rw [h]; exact h2
      · exact h4 _ h
    exact Mjs.compileFile_result_of_read env2 fuel { s with cache := c1 }
      { s with cache := Cache.empty } id hmiss rfl rfl
      (Mjs.read_congr env2 fuel { s with cache := c1 } { s with cache := Cache.empty }
        _ none hc1 (Mjs.coherent_empty env2)).1

end EjsMin

namespace EjsMin

theorem chainState_coherent : chainState.cache.Coherent (exampleEnv chainFiles) :=
  Outcome.state_of_ends
    (Mjs.compileFile_coherent (exampleEnv chainFiles) 4 freshMjs "a.mjs".toList
      (Mjs.coherent_empty _))

/-- Witness for C12: `a.mjs` is compiled, `clearOne("c.mjs")` runs, the file of
`c.mjs` changes, and the next read of `a.mjs` is built from the new text, with
`c.mjs` the only file fetched. -/
theorem C12_refetch_after_clearOne_witness :
    chainState.cache.clearOne 3 "c.mjs".toList = some chainClearedCache ∧
    (Mjs.read (exampleEnv chainFilesChanged) 4 { chainState with cache := chainClearedCache }
      "a.mjs".toList none).result = some (.ok "<h1><b><%= subtitle %></b></h1>".toList) ∧
    (Mjs.read (exampleEnv chainFilesChanged) 4 { chainState with cache := chainClearedCache }
      "a.mjs".toList none).state.effects.drop chainState.effects.length =
      [.fetch "c.mjs".toList] :=
  ⟨by decide,
   ((C12_refetch_after_clearOne (exampleEnv chainFiles) (exampleEnv chainFilesChanged)
      chainState "c.mjs".toList 3 chainClearedCache chainState_coherent
      (by
        intro x hx
        have h : ¬ ['c', '.', 'm', 'j', 's'] = x := fun e => hx e.symm
        simp [exampleEnv, chainFilesChanged, chainFiles, JsObj.get, h])
      rfl (by decide)).2.2.2.1 4 "a.mjs".toList none).1.trans rfl,
   by decide⟩

end EjsMin

namespace EjsMin

/-! ## Cycles: the cascade and the circular include -/

namespace Cache

/-- The cascade never returns from an identifier that reaches a cycle of the
relation graph. -/
theorem clearRelation_none_of_cycle (c0 : Cache) (fuel : Nat) :
    ∀ (c : Cache) (id : Str), c.cacheRelations = c0.cacheRelations →
      (∃ x, Relation.ReflTransGen c0.IsParent id x ∧ Relation.TransGen c0.IsParent x x) →
      clearRelation fuel c id = none := by
  induction fuel with
  | zero => intro c id _ _; rfl
  | succ n ih =>
    intro c id hc ⟨x, hreach, hcyc⟩
    -- a parent of `id` that still reaches the cycle
    have hp : ∃ p, p ∈ c.parents id ∧
        ∃ y, Relation.ReflTransGen c0.IsParent p y ∧ Relation.TransGen c0.IsParent y y := by
      have hpar : ∀ p, c0.IsParent id p → p ∈ c.parents id := by
        intro p h; simpa [IsParent, parents, hc] using h
      rcases Relation.ReflTransGen.cases_head hreach with h | ⟨p, h1, h2⟩
      · subst h
        obtain ⟨p, h1, h2⟩ := Relation.TransGen.head'_iff.mp hcyc
        exact ⟨p, hpar p h1, id, h2, hcyc⟩
      · exact ⟨p, hpar p h1, x, h2, hcyc⟩
    obtain ⟨p, hpmem, hpcyc⟩ := hp
    simp only [clearRelation]
    have key : ∀ (ps : List Str), p ∈ ps → ∀ d : Cache, d.cacheRelations = c0.cacheRelations →
        clearParents (fun c1 parent => clearRelation n c1 parent) ps d = none := by
      intro ps
      induction ps with
      | nil => intro h; simp at h
      | cons q qs ihq =>
        intro hmem d hd
        simp only [clearParents]
        cases hr : clearRelation n (d.deleteCompiled q) q with
        | none => rfl
        | some r =>
          obtain ⟨c1, v1⟩ := r
          rcases List.mem_cons.mp hmem with h | h
          · subst h
            rw [ih (d.deleteCompiled p) p hd hpcyc] at hr
            exact Option.noConfusion hr
          · have hc1 : c1.cacheRelations = c0.cacheRelations := by
              rw [(clearRelation_spec _ _ _ _ _ hr).1, (deleteAll_relations v1 _).1]; exact hd
            simp only [ihq h c1 hc1]
    exact key _ hpmem c hc

theorem clearEach_none (fuel : Nat) (c0 : Cache) (id : Str)
    (hid : ∀ d : Cache, d.cacheRelations = c0.cacheRelations → clearOne fuel d id = none)
    (hs : List Str) (hmem : id ∈ hs) (d : Cache) (hd : d.cacheRelations = c0.cacheRelations) :
    clearEach fuel hs d = none := by
  induction hs generalizing d with
  | nil => simp at hmem
  | cons x hs ih =>
    simp only [clearEach]
    cases hr : clearOne fuel d x with
    | none => rfl
    | some d1 =>
      rcases List.mem_cons.mp hmem with h | h
      · subst h
        rw [hid d hd] at hr
        exact Option.noConfusion hr
      · simp only []
        exact ih h d1 ((clearOne_spec fuel d d1 x hr).2.2.1.trans hd)

end Cache

namespace Mjs

theorem loadSource_ok_of_loadText (env : Env) (s : Mjs) (name text : Str)
    (hs : s.cache.Coherent env) (ht : loadText env name = some text) :
    ∃ s1, loadSource env s name = .ok text s1 ∧ s1.cache.Coherent env := by
  obtain ⟨hends, hres⟩ := loadSource_coherent env s name hs
  have hr : (loadSource env s name).result = some (.ok text) := by
    rw [hres]
    unfold loadText at ht
    cases hf : env.readFileSync name with
    | none => simp [hf] at ht
    | some raw =>
      simp only [hf] at ht ⊢
      by_cases hc : reCss name = true
      · simp only [hc, if_true] at ht ⊢
        cases hu : env.uglifycss raw with
        | error e => simp [hu] at ht
        | ok shrunk =>
          simp only [hu, Option.some.injEq] at ht
          rw [ht]
      · simp only [hc, Bool.false_eq_true, if_false, Option.some.injEq] at ht ⊢
        rw [ht]
  obtain ⟨s1, h1⟩ := result_ok hr
  rw [h1] at hends
  exact ⟨s1, h1, hends⟩

/-- A `read` with a parent that gets past loading records the edge, and the edge
is still there in whatever state the call ends or runs out of fuel. -/
theorem read_edge (env : Env) (fuel : Nat) (s s1 : Mjs) (child : Str) (c : Char) (p : Str) :
    (∀ v, read env fuel s child (some (c :: p)) = .ok v s1 →
      s1.cache.IsParent child (c :: p)) ∧
    (read env (fuel + 1) s child (some (c :: p)) = .diverge s1 →
      s1.cache.IsParent child (c :: p)) := by
  have main : ∀ n o, read env (n + 1) s child (some (c :: p)) = o →
        (∀ v, o = .ok v s1 → s1.cache.IsParent child (c :: p)) ∧
        (o = .diverge s1 → s1.cache.IsParent child (c :: p)) := by
    intro n o ho
    unfold read at ho
    cases hl : loadSource env s child with
    | throw e s2 =>
      simp only [hl] at ho
      subst ho
      exact ⟨fun v h => Outcome.noConfusion h, fun h => Outcome.noConfusion h⟩
    | diverge s2 =>
      exfalso
      unfold loadSource at hl
      split at hl
      · exact Outcome.noConfusion hl
      · split at hl
        · exact Outcome.noConfusion hl
        · split at hl
          · split at hl <;> exact Outcome.noConfusion hl
          · exact Outcome.noConfusion hl
    | ok text s2 =>
      simp only [hl] at ho
      have hedge : ({ s2 with cache := s2.cache.addRelation child (c :: p) } : Mjs).cache.IsParent
          child (c :: p) := isParent_addRelation _ _ _
      by_cases hm : reMjs child = true
      · simp only [hm, if_true] at ho
        have hext := includeLoop_extends (fun s child2 => read env n s child2 (some child))
          (fun s child2 => read_extends env n s child2 (some child)) n
          { s2 with cache := s2.cache.addRelation child (c :: p) } text 0
        rw [ho] at hext
        constructor
        · intro v hv
          subst hv
          exact hext.edges_kept _ _ hedge
        · intro hv
          subst hv
          exact hext.edges_kept _ _ hedge
      · simp only [hm] at ho
        subst ho
        constructor
        · intro v hv
          simp only [Bool.false_eq_true, if_false, Outcome.ok.injEq] at hv
          rw [← hv.2]
          exact hedge
        · intro hv
          simp at hv
  constructor
  · intro v hv
    cases fuel with
    | zero => simp [read] at hv
    | succ n => exact (main n _ rfl).1 v hv
  · intro hv
    exact (main fuel _ rfl).2 hv

/-- One turn of a circular include: when the first include directive of `X` names
`Y` and every read of `Y` with this fuel runs out of fuel, so does the read of
`X`, and in the state of the nested read of `Y`. -/
theorem circular_step (env : Env) (X Y tX : Str) (mX : ReMatch) (hX : reMjs X = true)
    (hlX : loadText env X = some tX) (hmX : execInclude tX 0 = some mX) (hgX : mX.group = Y)
    (n : Nat)
    (hY : ∀ (s : Mjs) (p : Option Str), s.cache.Coherent env →
      ∃ s1, read env (n + 1) s Y p = .diverge s1)
    (s : Mjs) (p : Option Str) (hs : s.cache.Coherent env) :
    ∃ s2 s1, s2.cache.Coherent env ∧ read env (n + 2) s X p = .diverge s1 ∧
      read env (n + 1) s2 Y (some X) = .diverge s1 := by
  obtain ⟨s1, hl, hc1⟩ := loadSource_ok_of_loadText env s X tX hs hlX
  have hc2 : (match p with
      | some (c :: q) => ({ s1 with cache := s1.cache.addRelation X (c :: q) } : Mjs)
      | _ => s1).cache.Coherent env := by
    cases p with
    | none => exact hc1
    | some q =>
      cases q with
      | nil => exact hc1
      | cons c q => exact coherent_of_sourceCache_eq env rfl hc1
  obtain ⟨s3, h3⟩ := hY _ (some X) hc2
  refine ⟨_, s3, hc2, ?_, h3⟩
  rw [read]
  simp only [hl, hX, if_true]
  rw [includeLoop]
  simp only [hmX, hgX, h3]

/-- A read of a template whose text loads and that is a template-language file
runs out of fuel 1 before it scans. -/
theorem read_one_diverges (env : Env) (X tX : Str) (hX : reMjs X = true)
    (hlX : loadText env X = some tX) (s : Mjs) (p : Option Str) (hs : s.cache.Coherent env) :
    ∃ s1, read env 1 s X p = .diverge s1 := by
  obtain ⟨s1, hl, _⟩ := loadSource_ok_of_loadText env s X tX hs hlX
  rw [read]
  simp only [hl, hX, if_true, includeLoop]
  exact ⟨_, rfl⟩

end Mjs

/-- Both directions of a circular include run out of whatever fuel is given. -/
theorem Mjs.circular_include_diverges (env : Env) (A B tA tB : Str) (mA mB : ReMatch)
    (hA : reMjs A = true) (hB : reMjs B = true)
    (hlA : loadText env A = some tA) (hlB : loadText env B = some tB)
    (hmA : execInclude tA 0 = some mA) (hgA : mA.group = B)
    (hmB : execInclude tB 0 = some mB) (hgB : mB.group = A)
    (n : Nat) (s : Mjs) (parent : Option Str) (hs : s.cache.Coherent env) :
    ∃ s1, Mjs.read env n s A parent = .diverge s1 := by
  have main : ∀ n, (∀ (s : Mjs) (p : Option Str), s.cache.Coherent env →
        ∃ s1, Mjs.read env (n + 1) s A p = .diverge s1) ∧
      (∀ (s : Mjs) (p : Option Str), s.cache.Coherent env →
        ∃ s1, Mjs.read env (n + 1) s B p = .diverge s1) := by
    intro n
    induction n with
    | zero =>
      exact ⟨fun s p hs => Mjs.read_one_diverges env A tA hA hlA s p hs,
        fun s p hs => Mjs.read_one_diverges env B tB hB hlB s p hs⟩
    | succ k ih =>
      constructor
      · intro s p hs
        obtain ⟨_, s1, _, h, _⟩ := Mjs.circular_step env A B tA mA hA hlA hmA hgA k ih.2 s p hs
        exact ⟨s1, h⟩
      · intro s p hs
        obtain ⟨_, s1, _, h, _⟩ := Mjs.circular_step env B A tB mB hB hlB hmB hgB k ih.1 s p hs
        exact ⟨s1, h⟩
  cases n with
  | zero => exact ⟨s, rfl⟩
  | succ k => exact (main k).1 s parent hs

end EjsMin

namespace EjsMin

/-- C19. On an acyclic relation graph `clearRelation`, `clearOne` and `clearAll`
return once the fuel is large enough.  From an identifier that reaches a cycle of
the relation graph `clearRelation` and `clearOne` never return, whatever the fuel,
and neither does `clearAll` when that identifier has a Content Entry.  The state
in which a circular include attempt (first include directive of `A` names `B`,
that of `B` names `A`) runs out of fuel holds the edges (`B`, `A`) and
(`A`, `B`), a cycle through `A`, so the cascade from `A` never returns on it. -/
theorem C19_cascade_termination (c : Cache) :
    (c.Acyclic →
      (∀ id, ∃ N : Nat, ∀ fuel, N < fuel →
        (c.clearRelation fuel id).isSome = true ∧ (c.clearOne fuel id).isSome = true) ∧
      (∃ N : Nat, ∀ fuel, N < fuel → (c.clearAll fuel).isSome = true)) ∧
    (∀ id, (∃ x, Relation.ReflTransGen c.IsParent id x ∧ Relation.TransGen c.IsParent x x) →
      ∀ fuel, c.clearRelation fuel id = none ∧ c.clearOne fuel id = none ∧
        (c.getSourceText id ≠ none → c.clearAll fuel = none)) ∧
    (∀ (env : Env) (A B tA tB : Str) (mA mB : ReMatch) (k : Nat) (s s1 : Mjs),
      reMjs A = true → reMjs B = true →
      loadText env A = some tA → loadText env B = some tB →
      execInclude tA 0 = some mA → mA.group = B →
      execInclude tB 0 = some mB → mB.group = A →
      s.cache.Coherent env →
      Mjs.read env (k + 3) s A none = .diverge s1 →
      s1.cache.IsParent B A ∧ s1.cache.IsParent A B ∧
      ∀ fuel, s1.cache.clearRelation fuel A = none ∧ s1.cache.clearOne fuel A = none) := by
  have hcyc : ∀ (c : Cache) (id : Str),
      (∃ x, Relation.ReflTransGen c.IsParent id x ∧ Relation.TransGen c.IsParent x x) →
      ∀ fuel, (∀ d : Cache, d.cacheRelations = c.cacheRelations →
        Cache.clearRelation fuel d id = none ∧ Cache.clearOne fuel d id = none) := by
    intro c id h fuel d hd
    refine ⟨Cache.clearRelation_none_of_cycle c fuel d id hd h, ?_⟩
    unfold Cache.clearOne
    simp only [Option.map_eq_none']
    exact Cache.clearRelation_none_of_cycle c fuel _ id hd h
  refine ⟨?_, ?_, ?_⟩
  · intro hac
    obtain ⟨n, hn⟩ := Cache.clearRelation_terminates c hac
    constructor
    · intro id
      refine ⟨n id, fun fuel hf => ⟨hn fuel id hf c rfl, ?_⟩⟩
      unfold Cache.clearOne
      simp only [Option.isSome_map']
      exact hn fuel id hf _ rfl
    · obtain ⟨N, hN⟩ := Cache.exists_bound n (JsObj.keys c.sourceCache)
      exact ⟨N, fun fuel hf => Cache.clearEach_isSome c n hn fuel _
        (fun x hx => lt_of_le_of_lt (hN x hx) hf) c rfl⟩
  · intro id h fuel
    refine ⟨(hcyc c id h fuel c rfl).1, (hcyc c id h fuel c rfl).2, ?_⟩
    intro hsrc
    exact Cache.clearEach_none fuel c id (fun d hd => (hcyc c id h fuel d hd).2) _
      ((JsObj.get_ne_none_iff _ _).mp hsrc) c rfl
  · intro env A B tA tB mA mB k s s1 hA hB hlA hlB hmA hgA hmB hgB hs hdiv
    have hdivB : ∀ (n : Nat) (t : Mjs) (p : Option Str), t.cache.Coherent env →
        ∃ t1, Mjs.read env n t B p = .diverge t1 :=
      fun n t p ht =>
        Mjs.circular_include_diverges env B A tB tA mB mA hB hA hlB hlA hmB hgB hmA hgA n t p ht
    have hdivA : ∀ (n : Nat) (t : Mjs) (p : Option Str), t.cache.Coherent env →
        ∃ t1, Mjs.read env n t A p = .diverge t1 :=
      fun n t p ht =>
        Mjs.circular_include_diverges env A B tA tB mA mB hA hB hlA hlB hmA hgA hmB hgB n t p ht
    obtain ⟨s2, u1, hc2, h1, h2⟩ := Mjs.circular_step env A B tA mA hA hlA hmA hgA (k + 1)
      (fun t p ht => hdivB _ t p ht) s none hs
    rw [hdiv] at h1
    have hu1 : u1 = s1 := by injection h1 with h; exact h.symm
    subst hu1
    obtain ⟨s3, u2, _, h3, h4⟩ := Mjs.circular_step env B A tB mB hB hlB hmB hgB k
      (fun t p ht => hdivA _ t p ht) s2 (some A) hc2
    rw [h2] at h3
    have hu2 : u2 = u1 := by injection h3 with h; exact h.symm
    subst hu2
    obtain ⟨cA, pA, hAe⟩ : ∃ c p, A = c :: p := by
      cases A with
      | nil => simp [reMjs] at hA
      | cons c p => exact ⟨c, p, rfl⟩
    obtain ⟨cB, pB, hBe⟩ : ∃ c p, B = c :: p := by
      cases B with
      | nil => simp [reMjs] at hB
      | cons c p => exact ⟨c, p, rfl⟩
    have e1 : u2.cache.IsParent B A := by
      have := (Mjs.read_edge env (k + 1) s2 u2 B cA pA).2
      rw [← hAe] at this
      exact this h2
    have e2 : u2.cache.IsParent A B := by
      have := (Mjs.read_edge env k s3 u2 A cB pB).2
      rw [← hBe] at this
      exact this h4
    refine ⟨e1, e2, fun fuel => ?_⟩
    exact hcyc u2.cache A ⟨A, Relation.ReflTransGen.refl,
      Relation.TransGen.head e2 (Relation.TransGen.single e1)⟩ fuel _ rfl

end EjsMin

namespace EjsMin

/-! ## What `compileFile` may change -/

namespace Mjs

/-- However the include loop ends, every key of the Content Store is still a key,
when that holds of the recursive call. -/
theorem includeLoop_keys_kept (rd : Mjs → Str → Outcome Str)
    (hrd : ∀ u child, (rd u child).Ends
      (fun t => ∀ x, u.cache.getSourceText x ≠ none → t.cache.getSourceText x ≠ none))
    (m : Nat) (u : Mjs) (text : Str) (li : Nat) :
    (includeLoop rd m u text li).Ends
      (fun t => ∀ x, u.cache.getSourceText x ≠ none → t.cache.getSourceText x ≠ none) := by
  induction m generalizing u text li with
  | zero => exact fun _ h => h
  | succ m ih =>
    unfold includeLoop
    cases hm : execInclude text li with
    | none => exact fun _ h => h
    | some mt =>
      have h1 := hrd u mt.group
      cases hr : rd u mt.group with
      | diverge u1 => rw [hr] at h1; simp only [hr]; exact h1
      | throw e u1 => rw [hr] at h1; simp only [hr]; exact h1
      | ok inc u1 =>
        rw [hr] at h1
        simp only [hr]
        have h2 := ih u1 (jsReplace text mt.whole inc) (mt.index + mt.whole.length)
        revert h2
        generalize includeLoop rd m u1 (jsReplace text mt.whole inc)
          (mt.index + mt.whole.length) = out
        intro h2
        cases out with
        | diverge u2 => exact fun x h => h2 x (h1 x h)
        | throw e u2 => exact fun x h => h2 x (h1 x h)
        | ok v u2 => exact fun x h => h2 x (h1 x h)

/-- However `read` ends, every key of the Content Store is still a key. -/
theorem read_keys_kept (env : Env) (fuel : Nat) (s : Mjs) (name : Str) (parent : Option Str) :
    (read env fuel s name parent).Ends
      (fun t => ∀ x, s.cache.getSourceText x ≠ none → t.cache.getSourceText x ≠ none) := by
  have hset : ∀ (u : Mjs) (k text : Str) (x : Str), u.cache.getSourceText x ≠ none →
      (u.cache.setSourceText k text).getSourceText x ≠ none := by
    intro u k text x hx
    unfold Cache.getSourceText Cache.setSourceText at *
    by_cases hk : x = k
    · subst hk; rw [JsObj.get_set_self]; exact fun h => Option.noConfusion h
    · rw [JsObj.get_set_ne _ _ hk]; exact hx
  have hload : ∀ (u : Mjs) (k : Str), (loadSource env u k).Ends
      (fun t => ∀ x, u.cache.getSourceText x ≠ none → t.cache.getSourceText x ≠ none) := by
    intro u k
    unfold loadSource
    split
    · exact fun _ h => h
    · split
      · exact fun _ h => h
      · split
        · split
          · exact fun _ h => h
          · exact fun x h => hset _ k _ x h
        · exact fun x h => hset _ k _ x h
  induction fuel generalizing s name parent with
  | zero => exact fun _ h => h
  | succ n ih =>
    unfold read
    have h1 := hload s name
    cases hl : loadSource env s name with
    | diverge s1 => rw [hl] at h1; exact h1
    | throw e s1 => rw [hl] at h1; exact h1
    | ok text s1 =>
      rw [hl] at h1
      simp only []
      have h2 : ∀ x, s.cache.getSourceText x ≠ none → (match parent with
          | some (c :: p) => ({ s1 with cache := s1.cache.addRelation name (c :: p) } : Mjs)
          | _ => s1).cache.getSourceText x ≠ none := by
        cases parent with
        | none => exact h1
        | some p =>
          cases p with
          | nil => exact h1
          | cons c p => exact h1
      revert h2
      generalize (match parent with
          | some (c :: p) => ({ s1 with cache := s1.cache.addRelation name (c :: p) } : Mjs)
          | _ => s1) = s2
      intro h2
      by_cases hm : reMjs name = true
      · simp only [hm, if_true]
        have h3 := includeLoop_keys_kept (fun s child => read env n s child (some name))
          (fun u child => ih u child (some name)) n s2 text 0
        revert h3
        generalize includeLoop (fun s child => read env n s child (some name)) n s2 text 0 = out
        intro h3
        cases out with
        | diverge s3 => exact fun x h => h3 x (h2 x h)
        | throw e s3 => exact fun x h => h3 x (h2 x h)
        | ok v s3 => exact fun x h => h3 x (h2 x h)
      · simp only [hm]
        exact h2

/-- A `read` that returns leaves a Content Entry for the name it was asked for. -/
theorem read_ok_source (env : Env) (fuel : Nat) (s s1 : Mjs) (name v : Str)
    (parent : Option Str) (h : read env fuel s name parent = .ok v s1) :
    s1.cache.getSourceText name ≠ none := by
  cases fuel with
  | zero => simp [read] at h
  | succ n =>
    unfold read at h
    cases hl : loadSource env s name with
    | diverge s2 => simp [hl] at h
    | throw e s2 => simp [hl] at h
    | ok text s2 =>
      have hsrc : s2.cache.getSourceText name ≠ none := by
        unfold loadSource at hl
        split at hl
        · rename_i t ht
          simp only [Outcome.ok.injEq] at hl
          rw [← hl.2, (truthy_eq_some ht).1]
          exact fun h => Option.noConfusion h
        · split at hl
          · exact Outcome.noConfusion hl
          · split at hl
            · split at hl
              · exact Outcome.noConfusion hl
              · simp only [Outcome.ok.injEq] at hl
                rw [← hl.2]
                unfold Cache.getSourceText Cache.setSourceText
                simp only [JsObj.get_set_self]
                exact fun h => Option.noConfusion h
            · simp only [Outcome.ok.injEq] at hl
              rw [← hl.2]
              unfold Cache.getSourceText Cache.setSourceText
              simp only [JsObj.get_set_self]
              exact fun h => Option.noConfusion h
      simp only [hl] at h
      have hsrc2 : (match parent with
          | some (c :: p) => ({ s2 with cache := s2.cache.addRelation name (c :: p) } : Mjs)
          | _ => s2).cache.getSourceText name ≠ none := by
        cases parent with
        | none => exact hsrc
        | some p =>
          cases p with
          | nil => exact hsrc
          | cons c p => exact hsrc
      revert hsrc2 h
      generalize (match parent with
          | some (c :: p) => ({ s2 with cache := s2.cache.addRelation name (c :: p) } : Mjs)
          | _ => s2) = s3
      intro h hsrc2
      by_cases hm : reMjs name = true
      · simp only [hm, if_true] at h
        have := includeLoop_keys_kept (fun s child => read env n s child (some name))
          (fun u child => read_keys_kept env n u child (some name)) n s3 text 0
        rw [h] at this
        exact this name hsrc2
      · simp only [hm, Bool.false_eq_true, if_false, Outcome.ok.injEq] at h
        rw [← h.2]
        exact hsrc2

/-- How a `compileFile` that starts without a Compiled Entry ends: either `read`
did not return and its state is the final state, or `read` returned and the final
cache is the cache `read` left, with the Compiled Entry added on success. -/
theorem compileFile_cases (env : Env) (fuel : Nat) (s : Mjs) (id : Str)
    (hmiss : s.cache.getCompiled (env.relative id) = none) :
    (∃ v sr, read env fuel s (env.relative id) none = .ok v sr ∧
      ((∃ fn s1, compileFile env fuel s id = .ok fn s1 ∧ s1.options = sr.options ∧
          s1.cache = sr.cache.setCompiled (env.relative id) fn) ∨
       (∃ e s1, compileFile env fuel s id = .throw e s1 ∧ s1.options = sr.options ∧
          s1.cache = sr.cache))) ∨
    (∃ e sr, read env fuel s (env.relative id) none = .throw e sr ∧
      compileFile env fuel s id = .throw e sr) ∨
    (∃ sr, read env fuel s (env.relative id) none = .diverge sr ∧
      compileFile env fuel s id = .diverge sr) := by
  unfold compileFile
  simp only [hmiss]
  cases h1 : read env fuel s (env.relative id) none with
  | throw e sr => exact Or.inr (Or.inl ⟨e, sr, rfl, rfl⟩)
  | diverge sr => exact Or.inr (Or.inr ⟨sr, rfl, rfl⟩)
  | ok text sr =>
    refine Or.inl ⟨text, sr, rfl, ?_⟩
    simp only []
    by_cases hc : sr.options.compress = true
    · simp only [hc, if_true]
      by_cases hcss : reCss (env.relative id) = true
      · simp only [hcss, if_true]
        cases env.uglifycss text with
        | error e => exact Or.inr ⟨_, _, rfl, rfl, rfl⟩
        | ok shrunk =>
          simp only []
          cases env.ejsCompile shrunk with
          | error e => exact Or.inr ⟨_, _, rfl, rfl, rfl⟩
          | ok fn => exact Or.inl ⟨_, _, rfl, rfl, rfl⟩
      · simp only [hcss]
        unfold minify
        simp only [Bool.false_eq_true, if_false]
        cases env.uglifyjs (substitute env (directiveSpans 0 text) (text, [])).1 with
        | error e => exact Or.inr ⟨_, _, rfl, rfl, rfl⟩
        | ok code =>
          simp only []
          cases env.ejsCompile
              (restore (substitute env (directiveSpans 0 text) (text, [])).2 code) with
          | error e => exact Or.inr ⟨_, _, rfl, rfl, rfl⟩
          | ok fn => exact Or.inl ⟨_, _, rfl, rfl, rfl⟩
    · simp only [hc]
      simp only [Bool.false_eq_true, if_false]
      cases env.ejsCompile text with
      | error e => exact Or.inr ⟨_, _, rfl, rfl, rfl⟩
      | ok fn => exact Or.inl ⟨_, _, rfl, rfl, rfl⟩

/-- However `compileFile` ends: options unchanged, keys of the Content Store and
relation edges kept, and every identifier with a Compiled Entry has a Content
Entry if that was so before. -/
theorem compileFile_grows (env : Env) (fuel : Nat) (s : Mjs) (id : Str) :
    (compileFile env fuel s id).Ends (fun t =>
      t.options = s.options ∧
      (∀ x, s.cache.getSourceText x ≠ none → t.cache.getSourceText x ≠ none) ∧
      (∀ a b, s.cache.IsParent a b → t.cache.IsParent a b) ∧
      ((∀ x, s.cache.getCompiled x ≠ none → s.cache.getSourceText x ≠ none) →
        ∀ x, t.cache.getCompiled x ≠ none → t.cache.getSourceText x ≠ none)) := by
  cases hg : s.cache.getCompiled (env.relative id) with
  | some fn =>
    have : compileFile env fuel s id = .ok fn s := by
      unfold compileFile; simp only [hg]
    rw [this]
    exact ⟨rfl, fun _ h => h, fun _ _ h => h, fun h => h⟩
  | none =>
    have hext := read_extends env fuel s (env.relative id) none
    have hkeys := read_keys_kept env fuel s (env.relative id) none
    have hinv : ∀ sr : Mjs, s.Extends sr →
        (∀ x, s.cache.getSourceText x ≠ none → sr.cache.getSourceText x ≠ none) →
        (∀ x, s.cache.getCompiled x ≠ none → s.cache.getSourceText x ≠ none) →
        ∀ x, sr.cache.getCompiled x ≠ none → sr.cache.getSourceText x ≠ none := by
      intro sr he hk hi x hx
      apply hk x (hi x ?_)
      unfold Cache.getCompiled at hx ⊢
      rw [← he.compiled_eq]; exact hx
    rcases compileFile_cases env fuel s id hg with
      ⟨v, sr, hr, hfin⟩ | ⟨e, sr, hr, hc⟩ | ⟨sr, hr, hc⟩
    · rw [hr] at hext hkeys
      rcases hfin with ⟨fn, s1, hc, ho, hcache⟩ | ⟨e, s1, hc, ho, hcache⟩
      · rw [hc]
        refine ⟨ho.trans hext.options_eq, ?_, ?_, ?_⟩
        · intro x hx; rw [hcache]; exact hkeys x hx
        · intro a b hab; rw [hcache]; exact hext.edges_kept a b hab
        · intro hi x hx
          rw [hcache] at hx ⊢
          by_cases hxe : x = env.relative id
          · rw [hxe]
            exact read_ok_source env fuel s sr _ v none hr
          · apply hinv sr hext hkeys hi x
            unfold Cache.getCompiled Cache.setCompiled at hx
            rw [JsObj.get_set_ne _ _ hxe] at hx
            exact hx
      · rw [hc]
        refine ⟨ho.trans hext.options_eq, ?_, ?_, ?_⟩
        · intro x hx; rw [hcache]; exact hkeys x hx
        · intro a b hab; rw [hcache]; exact hext.edges_kept a b hab
        · intro hi x hx
          rw [hcache] at hx ⊢
          exact hinv sr hext hkeys hi x hx
    · rw [hr] at hext hkeys
      rw [hc]
      exact ⟨hext.options_eq, hkeys, hext.edges_kept, hinv sr hext hkeys⟩
    · rw [hr] at hext hkeys
      rw [hc]
      exact ⟨hext.options_eq, hkeys, hext.edges_kept, hinv sr hext hkeys⟩

end Mjs

end EjsMin

namespace EjsMin

namespace Mjs

/-- A `read` of a template that returns has resolved the first include directive
of its text, and the edge for it is recorded. -/
theorem read_first_include_edge (env : Env) (fuel : Nat) (s s1 : Mjs) (X tX v : Str)
    (mX : ReMatch) (parent : Option Str) (hs : s.cache.Coherent env) (hX : reMjs X = true)
    (hlX : loadText env X = some tX) (hmX : execInclude tX 0 = some mX)
    (h : read env fuel s X parent = .ok v s1) : s1.cache.IsParent mX.group X := by
  obtain ⟨cX, pX, hXe⟩ : ∃ c p, X = c :: p := by
    cases X with
    | nil => simp [reMjs] at hX
    | cons c p => exact ⟨c, p, rfl⟩
  cases fuel with
  | zero => simp [read] at h
  | succ n =>
    obtain ⟨s2, hl, _⟩ := loadSource_ok_of_loadText env s X tX hs hlX
    rw [read] at h
    simp only [hl, hX, if_true] at h
    revert h
    generalize (match parent with
        | some (c :: p) => ({ s2 with cache := s2.cache.addRelation X (c :: p) } : Mjs)
        | _ => s2) = s3
    intro h
    cases n with
    | zero => simp [includeLoop] at h
    | succ m =>
      rw [includeLoop] at h
      simp only [hmX] at h
      cases hr : read env (m + 1) s3 mX.group (some X) with
      | diverge u => simp [hr] at h
      | throw e u => simp [hr] at h
      | ok inc u =>
        simp only [hr] at h
        have hedge : u.cache.IsParent mX.group X := by
          have := (read_edge env (m + 1) s3 u mX.group cX pX).1 inc
          rw [← hXe] at this
          exact this hr
        have hext := includeLoop_extends (fun s child => read env (m + 1) s child (some X))
          (fun s child => read_extends env (m + 1) s child (some X)) m u
          (jsReplace tX mX.whole inc) (mX.index + mX.whole.length)
        rw [h] at hext
        exact hext.edges_kept _ _ hedge

end Mjs

/-- C20. In every state reached from an empty cache by calls of `compileFile`,
`clearOne` and `clearAll`, however they end, every identifier with a Compiled
Entry has a Content Entry; so a `clearAll` that returns leaves the Compiled Store
empty as well as the Content Store, and the Relation Graph as it was; and no
such call ever removes an edge. -/
theorem C20_compiled_has_content (env : Env) (s t : Mjs) (hs : s.cache = Cache.empty)
    (h : Mjs.Reaches env s t) :
    (∀ x, t.cache.getCompiled x ≠ none → t.cache.getSourceText x ≠ none) ∧
    (∀ fuel c2, t.cache.clearAll fuel = some c2 →
      c2.compiledCache = [] ∧ c2.sourceCache = [] ∧
      c2.cacheRelations = t.cache.cacheRelations) ∧
    (∀ u, Mjs.Reaches env t u →
      ∀ child parent, t.cache.IsParent child parent → u.cache.IsParent child parent) := by
  have hinv : ∀ x, t.cache.getCompiled x ≠ none → t.cache.getSourceText x ≠ none := by
    induction h with
    | refl =>
      intro x hx
      rw [hs] at hx
      simp [Cache.empty, Cache.getCompiled, JsObj.get] at hx
    | compileFile _ fuel id ih =>
      exact (Outcome.state_of_ends (Mjs.compileFile_grows env fuel _ id)).2.2.2 ih
    | clearOne _ fuel hash hr ih =>
      rename_i t0 c2 _
      intro x hx
      obtain ⟨_, hsrc, vs, hcomp, hvs⟩ := Cache.clearOne_filters fuel t0.cache c2 hash hr
      show JsObj.get c2.sourceCache x ≠ none
      have hx' : JsObj.get c2.compiledCache x ≠ none := hx
      rw [hcomp] at hx'
      rw [hsrc]
      by_cases hxv : x ∈ vs
      · exact absurd (JsObj.get_filter_of_not _ (fun k => decide (k ∉ vs)) x (by simpa using hxv))
          hx'
      · have hxh : x ≠ hash := fun e => hxv ((hvs x).mpr (Or.inl e))
        have h1 : JsObj.get t0.cache.compiledCache x ≠ none := by
          intro hn
          apply hx'
          have := JsObj.get_filter_of_none t0.cache.compiledCache (fun k => decide (k ∉ vs)) x hn
          exact this
        have h2 := ih x h1
        rw [JsObj.get_filter_of_pos _ (fun k => decide (k ∉ [hash])) x (by simpa using hxh)]
        exact h2
    | clearOneAborted _ hash vs ih =>
      rename_i t0 _
      intro x hx
      have hc : ∀ y, (⟨t0.cache.sourceCache.delete hash, t0.cache.compiledCache.delete hash,
          t0.cache.cacheRelations⟩ : Cache).getCompiled y =
            JsObj.get (JsObj.delete t0.cache.compiledCache hash) y := fun _ => rfl
      have hx' : x ∉ vs ∧ x ≠ hash ∧ t0.cache.getCompiled x ≠ none := by
        refine ⟨fun hv => hx (Cache.getCompiled_deleteAll_of_mem vs _ x hv), ?_, ?_⟩
        · rintro rfl
          exact hx (Cache.getCompiled_deleteAll_of_none vs _ x
            ((hc x).trans (JsObj.get_delete_self _ _)))
        · intro hn
          exact hx (Cache.getCompiled_deleteAll_of_none vs _ x
            ((hc x).trans (JsObj.get_delete_eq_none _ hash x hn)))
      show JsObj.get (t0.cache.clearOneAborted hash vs).sourceCache x ≠ none
      unfold Cache.clearOneAborted
      rw [(Cache.deleteAll_relations vs _).2]
      show JsObj.get (JsObj.delete t0.cache.sourceCache hash) x ≠ none
      rw [JsObj.get_delete_ne _ hx'.2.1]
      exact ih x hx'.2.2
    | clearAll _ fuel hr ih =>
      rename_i t0 c2 _
      intro x hx
      obtain ⟨_, hsrc, vs, hcomp, hvs⟩ := Cache.clearEach_filters fuel _ t0.cache c2 hr
      show JsObj.get c2.sourceCache x ≠ none
      have hx' : JsObj.get c2.compiledCache x ≠ none := hx
      rw [hcomp] at hx'
      rw [hsrc]
      by_cases hxv : x ∈ vs
      · exact absurd (JsObj.get_filter_of_not _ (fun k => decide (k ∉ vs)) x (by simpa using hxv))
          hx'
      · have hxh : x ∉ JsObj.keys t0.cache.sourceCache :=
          fun e => hxv ((hvs x).mpr ⟨x, e, Or.inl rfl⟩)
        have h1 : JsObj.get t0.cache.compiledCache x ≠ none := by
          intro hn
          apply hx'
          exact JsObj.get_filter_of_none t0.cache.compiledCache (fun k => decide (k ∉ vs)) x hn
        exact absurd ((JsObj.get_ne_none_iff _ _).mp (ih x h1)) hxh
  refine ⟨hinv, ?_, ?_⟩
  · intro fuel c2 hr
    obtain ⟨hrel, hsrc, vs, hcomp, hvs⟩ := Cache.clearEach_filters fuel _ t.cache c2 hr
    refine ⟨?_, ?_, hrel⟩
    · rw [hcomp, List.filter_eq_nil_iff]
      intro e he
      have hk : e.1 ∈ JsObj.keys t.cache.compiledCache := List.mem_map.mpr ⟨e, he, rfl⟩
      have h1 := hinv e.1 ((JsObj.get_ne_none_iff _ _).mpr hk)
      have h2 : e.1 ∈ vs := (hvs e.1).mpr ⟨e.1, (JsObj.get_ne_none_iff _ _).mp h1, Or.inl rfl⟩
      simpa using h2
    · rw [hsrc, List.filter_eq_nil_iff]
      intro e he
      have : e.1 ∈ JsObj.keys t.cache.sourceCache := List.mem_map.mpr ⟨e, he, rfl⟩
      simpa using this
  · intro u hu
    induction hu with
    | refl => exact fun _ _ h => h
    | compileFile _ fuel id ih =>
      intro a b hab
      exact (Outcome.state_of_ends (Mjs.compileFile_grows env fuel _ id)).2.2.1 a b (ih a b hab)
    | clearOne _ fuel hash hr ih =>
      intro a b hab
      have e := (Cache.clearOne_spec _ _ _ _ hr).2.2.1
      have := ih a b hab
      simpa [Cache.IsParent, Cache.parents, e] using this
    | clearAll _ fuel hr ih =>
      intro a b hab
      have e := (Cache.clearEach_filters _ _ _ _ hr).1
      have := ih a b hab
      simpa [Cache.IsParent, Cache.parents, e] using this
    | clearOneAborted _ hash vs ih =>
      intro a b hab
      have := ih a b hab
      simpa [Cache.IsParent, Cache.parents, Cache.clearOneAborted,
        (Cache.deleteAll_relations vs _).1] using this

end EjsMin

namespace EjsMin

/-! ## The constructor -/

namespace Mjs

theorem precompileEach_spec (env : Env) (fuel : Nat) (dir : Str) (names : List Str) (s : Mjs) :
    (precompileEach env fuel dir names s).Ends (fun t => t.options = s.options) ∧
    ∀ e t, precompileEach env fuel dir names s ≠ .throw e t := by
  induction names generalizing s with
  | nil => exact ⟨rfl, fun e t h => Outcome.noConfusion h⟩
  | cons name rest ih =>
    unfold precompileEach
    have h1 := compileFile_grows env fuel s (env.resolve dir name)
    cases hc : compileFile env fuel s (env.resolve dir name) with
    | diverge s1 =>
      rw [hc] at h1
      exact ⟨h1.1, fun e t h => Outcome.noConfusion h⟩
    | throw e s1 =>
      rw [hc] at h1
      simp only []
      obtain ⟨h2, h3⟩ := ih s1
      refine ⟨?_, h3⟩
      revert h2
      generalize precompileEach env fuel dir rest s1 = out
      intro h2
      cases out <;> exact h2.trans h1.1
    | ok fn s1 =>
      rw [hc] at h1
      simp only []
      obtain ⟨h2, h3⟩ := ih s1
      refine ⟨?_, h3⟩
      revert h2
      generalize precompileEach env fuel dir rest s1 = out
      intro h2
      cases out <;> exact h2.trans h1.1

theorem precompileFilter_spec (env : Env) (rec : Mjs → Str → Outcome Unit) (dir : Str)
    (hrec : ∀ s sub, (rec s sub).Ends (fun t => t.options = s.options) ∧
      ∀ e t, rec s sub = .throw e t → ∃ p, e = .notFound p)
    (inodes : List Str) (s : Mjs) :
    (precompileFilter env rec dir inodes s).Ends (fun t => t.options = s.options) ∧
    ∀ e t, precompileFilter env rec dir inodes s = .throw e t → ∃ p, e = .notFound p := by
  induction inodes generalizing s with
  | nil => exact ⟨rfl, fun e t h => Outcome.noConfusion h⟩
  | cons inode rest ih =>
    unfold precompileFilter
    cases hst : env.statSync (env.resolve dir inode) with
    | none =>
      refine ⟨rfl, fun e t h => ?_⟩
      simp only [Outcome.throw.injEq] at h
      exact ⟨_, h.1.symm⟩
    | some stat =>
      simp only []
      split
      · obtain ⟨h2, h3⟩ := ih s
        revert h2 h3
        generalize precompileFilter env rec dir rest s = out
        intro h2 h3
        cases out with
        | ok kept s1 => exact ⟨h2, fun e t h => Outcome.noConfusion h⟩
        | throw e s1 => exact ⟨h2, fun e2 t h => h3 e2 t h⟩
        | diverge s1 => exact ⟨h2, fun e t h => Outcome.noConfusion h⟩
      · split
        · obtain ⟨h1, h1e⟩ := hrec s (env.resolve dir inode)
          revert h1 h1e
          generalize rec s (env.resolve dir inode) = out1
          intro h1 h1e
          cases out1 with
          | ok u s1 =>
            simp only []
            obtain ⟨h2, h3⟩ := ih s1
            refine ⟨?_, h3⟩
            revert h2
            generalize precompileFilter env rec dir rest s1 = out
            intro h2
            cases out <;> exact h2.trans h1
          | throw e s1 => exact ⟨h1, fun e2 t h => h1e e2 t (by simpa using h)⟩
          | diverge s1 => exact ⟨h1, fun e t h => Outcome.noConfusion h⟩
        · exact ih s

/-- However `precompile` ends it leaves the options alone, and the only errors it
throws are those of listing and inspecting directories. -/
theorem precompile_spec (env : Env) (fuel : Nat) (s : Mjs) (dir : Str) :
    (precompile env fuel s dir).Ends (fun t => t.options = s.options) ∧
    ∀ e t, precompile env fuel s dir = .throw e t → ∃ p, e = .notFound p := by
  induction fuel generalizing s dir with
  | zero => exact ⟨rfl, fun e t h => Outcome.noConfusion h⟩
  | succ n ih =>
    unfold precompile
    cases hd : env.readdirSync dir with
    | none =>
      refine ⟨rfl, fun e t h => ?_⟩
      simp only [Outcome.throw.injEq] at h
      exact ⟨_, h.1.symm⟩
    | some inodes =>
      simp only []
      obtain ⟨h1, h1e⟩ := precompileFilter_spec env (fun s sub => precompile env n s sub) dir
        (fun s sub => ih s sub) inodes s
      revert h1 h1e
      generalize precompileFilter env (fun s sub => precompile env n s sub) dir inodes s = out1
      intro h1 h1e
      cases out1 with
      | ok kept s1 =>
        simp only []
        obtain ⟨h2, h3⟩ := precompileEach_spec env n dir kept s1
        refine ⟨?_, fun e t h => absurd h (h3 e t)⟩
        revert h2
        generalize precompileEach env n dir kept s1 = out
        intro h2
        cases out <;> exact h2.trans h1
      | throw e s1 => exact ⟨h1, fun e2 t h => h1e e2 t (by simpa using h)⟩
      | diverge s1 => exact ⟨h1, fun e t h => Outcome.noConfusion h⟩

end Mjs

/-- C15, as stated, fails: with a truthy `root` and `precompile` on, the
constructor throws when the root directory cannot be listed. -/
theorem C15_counterexample :
    Mjs.truthy (some "/missing".toList) = some "/missing".toList ∧
    Mjs.construct (exampleEnv []) 5 ⟨some "/missing".toList, none, none, some true, none⟩ =
      .failed (.notFound "/missing".toList) :=
  ⟨rfl, rfl⟩

/-- C15, amended. The constructor throws its own error ('MJS: set root dir!')
exactly when the options carry no truthy `root`; with a truthy `root` and
`precompile` not switched on it returns an instance with an empty cache; the only
other errors it throws come from listing and inspecting directories during
`precompile`; and whenever it returns an instance, `root` is the one given and
each of `compress`, `watch`, `precompile` and `log` is the value supplied, or
its default (true, false, false, false) when none was supplied. -/
theorem C15_construct (env : Env) (fuel : Nat) (options : RawOptions) :
    (Mjs.construct env fuel options = .failed .rootNotSet ↔ Mjs.truthy options.root = none) ∧
    (∀ root, Mjs.truthy options.root = some root → options.precompile.getD false = false →
      Mjs.construct env fuel options =
        .built ⟨⟨root, options.compress.getD true, options.watch.getD false, false,
          options.log.getD false⟩, Cache.empty, []⟩) ∧
    (∀ e, Mjs.construct env fuel options = .failed e → e = .rootNotSet ∨ ∃ p, e = .notFound p) ∧
    (∀ m, Mjs.construct env fuel options = .built m →
      Mjs.truthy options.root = some m.options.root ∧
      m.options.compress = options.compress.getD true ∧
      m.options.watch = options.watch.getD false ∧
      m.options.precompile = options.precompile.getD false ∧
      m.options.log = options.log.getD false) := by
  unfold Mjs.construct
  cases hr : Mjs.truthy options.root with
  | none =>
    refine ⟨⟨fun _ => rfl, fun _ => rfl⟩, fun root h => Option.noConfusion h, ?_, ?_⟩
    · intro e h
      simp only [Construction.failed.injEq] at h
      exact Or.inl h.symm
    · intro m h
      exact Construction.noConfusion h
  | some root =>
    simp only []
    cases hp : options.precompile.getD false with
    | false =>
      simp only [Bool.false_eq_true, if_false]
      refine ⟨⟨fun h => Construction.noConfusion h, fun h => Option.noConfusion h⟩, ?_, ?_, ?_⟩
      · intro r hr2 _
        simp only [Option.some.injEq] at hr2
        rw [hr2]
      · intro e h
        exact Construction.noConfusion h
      · intro m h
        simp only [Construction.built.injEq] at h
        subst h
        exact ⟨rfl, rfl, rfl, rfl, rfl⟩
    | true =>
      simp only [if_true]
      obtain ⟨h1, h1e⟩ := Mjs.precompile_spec env fuel
        ⟨⟨root, options.compress.getD true, options.watch.getD false, true,
          options.log.getD false⟩, Cache.empty, []⟩ root
      revert h1 h1e
      generalize Mjs.precompile env fuel
        ⟨⟨root, options.compress.getD true, options.watch.getD false, true,
          options.log.getD false⟩, Cache.empty, []⟩ root = out
      intro h1 h1e
      cases out with
      | ok u s1 =>
        simp only []
        refine ⟨⟨fun h => Construction.noConfusion h, fun h => Option.noConfusion h⟩, ?_, ?_, ?_⟩
        · intro r _ h
          exact Bool.noConfusion h
        · intro e h
          exact Construction.noConfusion h
        · intro m h
          simp only [Construction.built.injEq] at h
          subst h
          have h1' : s1.options = _ := h1
          rw [h1']
          exact ⟨rfl, rfl, rfl, rfl, rfl⟩
      | throw e s1 =>
        simp only []
        obtain ⟨p, hp2⟩ := h1e e s1 rfl
        refine ⟨⟨fun h => ?_, fun h => Option.noConfusion h⟩, ?_, ?_, ?_⟩
        · simp only [Construction.failed.injEq] at h
          rw [hp2] at h
          exact JsError.noConfusion h
        · intro r _ h
          exact Bool.noConfusion h
        · intro e2 h
          simp only [Construction.failed.injEq] at h
          exact Or.inr ⟨p, by rw [← h, hp2]⟩
        · intro m h
          exact Construction.noConfusion h
      | diverge s1 =>
        simp only []
        refine ⟨⟨fun h => Construction.noConfusion h, fun h => Option.noConfusion h⟩, ?_, ?_, ?_⟩
        · intro r _ h
          exact Bool.noConfusion h
        · intro e h
          exact Construction.noConfusion h
        · intro m h
          exact Construction.noConfusion h

end EjsMin

namespace EjsMin

/-! ## Evaluations and witnesses -/

/-- Witness for C11 on the cache left by compiling `a.mjs` of `chainFiles`. -/
theorem C11_clearAll_witness :
    chainCache.Acyclic ∧
    ∃ N : Nat, ∀ fuel, N < fuel → ∃ c2, chainCache.clearAll fuel = some c2 ∧
      c2.sourceCache = [] ∧
      (∀ x, chainCache.getSourceText x ≠ none → c2.getCompiled x = none) ∧
      (∀ x y, chainCache.getSourceText x ≠ none → Relation.TransGen chainCache.IsParent x y →
        c2.getCompiled y = none) ∧
      (∀ hs : List Str, hs.Perm (JsObj.keys chainCache.sourceCache) →
        Cache.clearEach fuel hs chainCache = some c2) :=
  ⟨chainCache_acyclic, C11_clearAll chainCache chainCache_acyclic⟩

/-- Witness for C15: default options with a root, and a missing root. -/
theorem C15_construct_witness :
    Mjs.construct (exampleEnv []) 0 ⟨some "/views".toList, none, none, none, none⟩ =
      .built freshMjs ∧
    Mjs.construct (exampleEnv []) 0 ⟨none, some false, none, none, none⟩ = .failed .rootNotSet :=
  ⟨(C15_construct (exampleEnv []) 0 ⟨some "/views".toList, none, none, none, none⟩).2.1
      "/views".toList rfl rfl,
   (C15_construct (exampleEnv []) 0 ⟨none, some false, none, none, none⟩).1.mpr rfl⟩

/-- C16 fails on the code: the empty template `a.mjs` has a Content Entry (the
empty text), yet `read` fetches it again, and raises the not-found error once the
file is gone from the backing store. -/
theorem C16_empty_text_refetched :
    emptyCachedState.cache.getSourceText "a.mjs".toList = some [] ∧
    Mjs.read (exampleEnv []) 2 emptyCachedState "a.mjs".toList none =
      .throw (.notFound "a.mjs".toList) (emptyCachedState.emit (.fetch "a.mjs".toList)) ∧
    (Mjs.read (exampleEnv emptyFiles) 2 emptyCachedState "a.mjs".toList none).state.effects =
      [.fetch "a.mjs".toList, .fetch "a.mjs".toList] :=
  ⟨by decide, by decide, by decide⟩

/-- C17 fails on the code: read on its own the plain file `x.html` comes back as
stored, but once its text is substituted into `a.mjs` the loop of `a.mjs` goes on
scanning it (it starts at index 25, past `lastIndex` 22), reads `y.mjs` and
records the edge (`y.mjs`, `a.mjs`). -/
theorem C17_included_text_rescanned :
    (∃ s, Mjs.read (exampleEnv rescanFiles) 4 freshMjs "x.html".toList none =
      .ok "<p>some static markup</p><% include 'y.mjs' %>".toList s) ∧
    (Mjs.read (exampleEnv rescanFiles) 4 freshMjs "a.mjs".toList none).result =
      some (.ok "<p>some static markup</p>Y!".toList) ∧
    (Mjs.read (exampleEnv rescanFiles) 4 freshMjs "a.mjs".toList none).state.cache.parents
      "y.mjs".toList = ["a.mjs".toList] ∧
    (Mjs.read (exampleEnv rescanFiles) 4 freshMjs "a.mjs".toList none).state.effects =
      [.fetch "a.mjs".toList, .fetch "x.html".toList, .fetch "y.mjs".toList] :=
  ⟨⟨_, rfl⟩, rfl, by decide, by decide⟩

/-- Witness for C19: the circular include of `circularFiles` leaves a cycle, on
which the cascade from `a.mjs` never returns. -/
theorem C19_cascade_termination_witness :
    circularState.cache.parents "a.mjs".toList = ["b.mjs".toList] ∧
    circularState.cache.parents "b.mjs".toList = ["a.mjs".toList] ∧
    ∀ fuel, circularState.cache.clearRelation fuel "a.mjs".toList = none ∧
      circularState.cache.clearOne fuel "a.mjs".toList = none :=
  ⟨by decide, by decide,
   ((C19_cascade_termination Cache.empty).2.2 (exampleEnv circularFiles) "a.mjs".toList
      "b.mjs".toList "<% include 'b.mjs' %>".toList "<% include 'a.mjs' %>".toList
      ⟨0, "<% include 'b.mjs' %>".toList, "b.mjs".toList⟩
      ⟨0, "<% include 'a.mjs' %>".toList, "a.mjs".toList⟩ 0 freshMjs circularState
      (by decide) (by decide) (by decide) (by decide) (by decide) rfl (by decide) rfl
      (Mjs.coherent_empty _) (by decide)).2.2⟩

/-- Witness for C20: the state after `a.mjs` of `chainFiles` is compiled. -/
theorem C20_compiled_has_content_witness :
    (∀ x, chainState.cache.getCompiled x ≠ none → chainState.cache.getSourceText x ≠ none) ∧
    (∀ fuel c2, chainState.cache.clearAll fuel = some c2 →
      c2.compiledCache = [] ∧ c2.sourceCache = [] ∧
      c2.cacheRelations = chainState.cache.cacheRelations) :=
  ⟨(C20_compiled_has_content (exampleEnv chainFiles) freshMjs chainState rfl
      (Mjs.Reaches.compileFile Mjs.Reaches.refl 4 "a.mjs".toList)).1,
   (C20_compiled_has_content (exampleEnv chainFiles) freshMjs chainState rfl
      (Mjs.Reaches.compileFile Mjs.Reaches.refl 4 "a.mjs".toList)).2.1⟩

end EjsMin

namespace EjsMin

namespace Mjs

/-- A `compileFile` that starts without a Compiled Entry leaves the options, the
Content Store and the relation graph as its `read` leaves them, asks the backing
store for nothing more than its `read` does, and touches no Compiled Entry but its
own. -/
theorem compileFile_stores (env : Env) (fuel : Nat) (s : Mjs) (id : Str)
    (hmiss : s.cache.getCompiled (env.relative id) = none) :
    (compileFile env fuel s id).state.options =
      (read env fuel s (env.relative id) none).state.options ∧
    (compileFile env fuel s id).state.cache.sourceCache =
      (read env fuel s (env.relative id) none).state.cache.sourceCache ∧
    (compileFile env fuel s id).state.cache.cacheRelations =
      (read env fuel s (env.relative id) none).state.cache.cacheRelations ∧
    (∀ x, x ≠ env.relative id →
      (compileFile env fuel s id).state.cache.getCompiled x = s.cache.getCompiled x) ∧
    (∀ x, Event.fetch x ∈ (compileFile env fuel s id).state.effects ↔
      Event.fetch x ∈ (read env fuel s (env.relative id) none).state.effects) := by
  have hext := read_extends env fuel s (env.relative id) none
  unfold compileFile
  simp only [hmiss]
  cases h1 : read env fuel s (env.relative id) none with
  | throw e sr =>
    rw [h1] at hext
    refine ⟨rfl, rfl, rfl, fun x _ => ?_, fun x => Iff.rfl⟩
    simp only [Outcome.state, Cache.getCompiled, hext.compiled_eq]
  | diverge sr =>
    rw [h1] at hext
    refine ⟨rfl, rfl, rfl, fun x _ => ?_, fun x => Iff.rfl⟩
    simp only [Outcome.state, Cache.getCompiled, hext.compiled_eq]
  | ok text sr =>
    rw [h1] at hext
    have hc0 : ∀ x, sr.cache.getCompiled x = s.cache.getCompiled x := by
      intro x
      simp only [Cache.getCompiled, hext.compiled_eq]
    have hset : ∀ (x : Str) (fn : Artifact), x ≠ env.relative id →
        (sr.cache.setCompiled (env.relative id) fn).getCompiled x = s.cache.getCompiled x := by
      intro x fn hx
      rw [← hc0 x]
      unfold Cache.getCompiled Cache.setCompiled
      exact JsObj.get_set_ne _ _ hx
    simp only []
    by_cases hc : sr.options.compress = true
    · simp only [hc, if_true]
      by_cases hcss : reCss (env.relative id) = true
      · simp only [hcss, if_true]
        cases env.uglifycss text with
        | error e =>
          exact ⟨rfl, rfl, rfl, fun x _ => hc0 x, fun x => by simp [Outcome.state, emit]⟩
        | ok shrunk =>
          simp only []
          cases env.ejsCompile shrunk with
          | error e =>
            exact ⟨rfl, rfl, rfl, fun x _ => hc0 x, fun x => by simp [Outcome.state, emit]⟩
          | ok fn =>
            exact ⟨rfl, rfl, rfl, fun x hx => hset x fn hx,
              fun x => by simp [Outcome.state, emit]⟩
      · simp only [hcss]
        unfold minify
        simp only [Bool.false_eq_true, if_false]
        cases env.uglifyjs (substitute env (directiveSpans 0 text) (text, [])).1 with
        | error e =>
          exact ⟨rfl, rfl, rfl, fun x _ => hc0 x, fun x => by simp [Outcome.state, emit]⟩
        | ok code =>
          simp only []
          cases env.ejsCompile
              (restore (substitute env (directiveSpans 0 text) (text, [])).2 code) with
          | error e =>
            exact ⟨rfl, rfl, rfl, fun x _ => hc0 x, fun x => by simp [Outcome.state, emit]⟩
          | ok fn =>
            exact ⟨rfl, rfl, rfl, fun x hx => hset x fn hx,
              fun x => by simp [Outcome.state, emit]⟩
    · simp only [hc]
      simp only [Bool.false_eq_true, if_false]
      cases env.ejsCompile text with
      | error e =>
        exact ⟨rfl, rfl, rfl, fun x _ => hc0 x, fun x => by simp [Outcome.state, emit]⟩
      | ok fn =>
        exact ⟨rfl, rfl, rfl, fun x hx => hset x fn hx,
          fun x => by simp [Outcome.state, emit]⟩

end Mjs

end EjsMin

namespace EjsMin

/-- C8 fails on the code: `a.mjs` of `missingFiles` holds an include directive
naming `m.mjs`, which the backing store does not have, yet with any shrinkers and
engine `read` returns a text (the directive is skipped as in C4) and neither
`read` nor `compileFile` ever asks the backing store for `m.mjs`.  Where the scan
reaches the directive (`a.mjs` of `failFiles`), `read` raises the not-found
error. -/
theorem C8_missing_include_not_reported (css js : Str → Except JsError Str) (md5 : Str → Nat)
    (engine : Str → Except JsError Artifact) (options : Options) (n : Nat) :
    (libEnv missingFiles css js md5 engine).readFileSync "m.mjs".toList = none ∧
    (libEnv missingFiles css js md5 engine).readFileSync "a.mjs".toList =
      some "<% include 'b.mjs' %><% include 'm.mjs' %>".toList ∧
    execInclude "<% include 'b.mjs' %><% include 'm.mjs' %>".toList 21 =
      some ⟨21, "<% include 'm.mjs' %>".toList, "m.mjs".toList⟩ ∧
    (∃ s, Mjs.read (libEnv missingFiles css js md5 engine) (n + 3) ⟨options, Cache.empty, []⟩
        "a.mjs".toList none = .ok "<b>hi</b><% include 'm.mjs' %>".toList s ∧
      s.effects = [.fetch "a.mjs".toList, .fetch "b.mjs".toList]) ∧
    Event.fetch "m.mjs".toList ∉
      (Mjs.compileFile (libEnv missingFiles css js md5 engine) (n + 3)
        ⟨options, Cache.empty, []⟩ "a.mjs".toList).state.effects ∧
    (∃ s, Mjs.read (libEnv failFiles css js md5 engine) (n + 3) ⟨options, Cache.empty, []⟩
        "a.mjs".toList none = .throw (.notFound "m.mjs".toList) s) := by
  have hr : Mjs.read (libEnv missingFiles css js md5 engine) (n + 3) ⟨options, Cache.empty, []⟩
      "a.mjs".toList none = .ok "<b>hi</b><% include 'm.mjs' %>".toList
        ⟨options,
          ⟨[("a.mjs".toList, "<% include 'b.mjs' %><% include 'm.mjs' %>".toList),
            ("b.mjs".toList, "<b>hi</b>".toList)], [],
           [("b.mjs".toList, ["a.mjs".toList])]⟩,
          [.fetch "a.mjs".toList, .fetch "b.mjs".toList]⟩ := rfl
  refine ⟨rfl, rfl, by decide, ⟨_, hr, rfl⟩, ?_, ⟨_, rfl⟩⟩
  rw [(Mjs.compileFile_stores (libEnv missingFiles css js md5 engine) (n + 3)
    ⟨options, Cache.empty, []⟩ "a.mjs".toList rfl).2.2.2.2 "m.mjs".toList]
  have hrel : (libEnv missingFiles css js md5 engine).relative "a.mjs".toList = "a.mjs".toList :=
    rfl
  rw [hrel, hr]
  show Event.fetch "m.mjs".toList ∉ [Event.fetch "a.mjs".toList, Event.fetch "b.mjs".toList]
  decide

end EjsMin

namespace EjsMin

/-- C14 fails on the code: `a.mjs` of `circularSkipFiles` holds an include
directive naming `b.mjs` and `b.mjs` one naming `a.mjs`, yet with any fuel of three
or more `read("a.mjs")` returns a text, never reading `b.mjs` (its directive is
skipped as in C4), and `read("b.mjs")` returns as well.  Where the scan reaches
the directives (`circularFiles`), `read("a.mjs")` is still running at every fuel. -/
theorem C14_circular_include_returns (n : Nat) :
    (exampleEnv circularSkipFiles).readFileSync "a.mjs".toList =
      some "<% include 'x.mjs' %><% include 'b.mjs' %>".toList ∧
    execInclude "<% include 'x.mjs' %><% include 'b.mjs' %>".toList 21 =
      some ⟨21, "<% include 'b.mjs' %>".toList, "b.mjs".toList⟩ ∧
    (exampleEnv circularSkipFiles).readFileSync "b.mjs".toList =
      some "<% include 'a.mjs' %>".toList ∧
    execInclude "<% include 'a.mjs' %>".toList 0 =
      some ⟨0, "<% include 'a.mjs' %>".toList, "a.mjs".toList⟩ ∧
    (∃ s, Mjs.read (exampleEnv circularSkipFiles) (n + 3) freshMjs "a.mjs".toList none =
        .ok "x<% include 'b.mjs' %>".toList s ∧
      s.effects = [.fetch "a.mjs".toList, .fetch "x.mjs".toList]) ∧
    (∃ s, Mjs.read (exampleEnv circularSkipFiles) (n + 4) freshMjs "b.mjs".toList none =
        .ok "x<% include 'b.mjs' %>".toList s ∧
      s.effects = [.fetch "b.mjs".toList, .fetch "a.mjs".toList, .fetch "x.mjs".toList]) ∧
    (∃ s1, Mjs.read (exampleEnv circularFiles) n freshMjs "a.mjs".toList none = .diverge s1) :=
  ⟨rfl, by decide, rfl, by decide, ⟨_, rfl, rfl⟩, ⟨_, rfl, rfl⟩,
   Mjs.circular_include_diverges (exampleEnv circularFiles) "a.mjs".toList "b.mjs".toList
    "<% include 'b.mjs' %>".toList "<% include 'a.mjs' %>".toList
    ⟨0, "<% include 'b.mjs' %>".toList, "b.mjs".toList⟩
    ⟨0, "<% include 'a.mjs' %>".toList, "a.mjs".toList⟩
    (by decide) (by decide) (by decide) (by decide) (by decide) rfl (by decide) rfl
    n freshMjs none (Mjs.coherent_empty _)⟩

/-- C18 fails on the code: `a.mjs` and `b.mjs` of `sharedSkipFiles` both hold an
include directive naming `c.mjs`; they are compiled one after the other, with any
shrinkers and engine and however each compile ends; afterwards the only parent
recorded for `c.mjs` is `b.mjs`: the directive in `a.mjs` is skipped as in C4, so
no `read("c.mjs", "a.mjs")` is made and the edge (`c.mjs`, `a.mjs`) is missing.
Where the scan reaches both directives (`twoIncluderFiles`), both edges are
recorded. -/
theorem C18_skipped_include_no_edge (css js : Str → Except JsError Str) (md5 : Str → Nat)
    (engine : Str → Except JsError Artifact) (options : Options) (n m : Nat) :
    (libEnv sharedSkipFiles css js md5 engine).readFileSync "a.mjs".toList =
      some "<% include 'x.mjs' %><% include 'c.mjs' %>".toList ∧
    execInclude "<% include 'x.mjs' %><% include 'c.mjs' %>".toList 21 =
      some ⟨21, "<% include 'c.mjs' %>".toList, "c.mjs".toList⟩ ∧
    (libEnv sharedSkipFiles css js md5 engine).readFileSync "b.mjs".toList =
      some "<% include 'c.mjs' %> from b".toList ∧
    execInclude "<% include 'c.mjs' %> from b".toList 0 =
      some ⟨0, "<% include 'c.mjs' %>".toList, "c.mjs".toList⟩ ∧
    (∃ s, Mjs.read (libEnv sharedSkipFiles css js md5 engine) (n + 3)
        ⟨options, Cache.empty, []⟩ "a.mjs".toList none =
          .ok "x<% include 'c.mjs' %>".toList s ∧
      s.effects = [.fetch "a.mjs".toList, .fetch "x.mjs".toList]) ∧
    (Mjs.compileFile (libEnv sharedSkipFiles css js md5 engine) (n + 3)
      ⟨options, Cache.empty, []⟩ "a.mjs".toList).state.cache.parents "c.mjs".toList = [] ∧
    (Mjs.compileFile (libEnv sharedSkipFiles css js md5 engine) (m + 3)
      (Mjs.compileFile (libEnv sharedSkipFiles css js md5 engine) (n + 3)
        ⟨options, Cache.empty, []⟩ "a.mjs".toList).state
      "b.mjs".toList).state.cache.parents "c.mjs".toList = ["b.mjs".toList] ∧
    (Mjs.compileFile (libEnv twoIncluderFiles css js md5 engine) (m + 3)
      (Mjs.compileFile (libEnv twoIncluderFiles css js md5 engine) (n + 3)
        ⟨options, Cache.empty, []⟩ "a.mjs".toList).state
      "b.mjs".toList).state.cache.parents "c.mjs".toList =
        ["a.mjs".toList, "b.mjs".toList] := by
  have hr : Mjs.read (libEnv sharedSkipFiles css js md5 engine) (n + 3)
      ⟨options, Cache.empty, []⟩ "a.mjs".toList none = .ok "x<% include 'c.mjs' %>".toList
        ⟨options,
          ⟨[("a.mjs".toList, "<% include 'x.mjs' %><% include 'c.mjs' %>".toList),
            ("x.mjs".toList, "x".toList)], [],
           [("x.mjs".toList, ["a.mjs".toList])]⟩,
          [.fetch "a.mjs".toList, .fetch "x.mjs".toList]⟩ := rfl
  have h1 := Mjs.compileFile_stores (libEnv sharedSkipFiles css js md5 engine) (n + 3)
    ⟨options, Cache.empty, []⟩ "a.mjs".toList rfl
  have hrelA : (libEnv sharedSkipFiles css js md5 engine).relative "a.mjs".toList =
    "a.mjs".toList := rfl
  rw [hrelA, hr] at h1
  obtain ⟨_, hsrc, hrel, hcomp, _⟩ := h1
  refine ⟨rfl, by decide, rfl, by decide, ⟨_, hr, rfl⟩, ?_, ?_, ?_⟩
  · unfold Cache.parents
    rw [hrel]
    rfl
  · have hmiss := hcomp "b.mjs".toList (by decide)
    revert hsrc hrel hmiss
    generalize (Mjs.compileFile (libEnv sharedSkipFiles css js md5 engine) (n + 3)
      ⟨options, Cache.empty, []⟩ "a.mjs".toList).state = s1
    obtain ⟨o1, ⟨src, comp, rel⟩, e1⟩ := s1
    intro hsrc hrel hmiss
    simp only [Outcome.state] at hsrc hrel
    subst hsrc hrel
    have h2 := Mjs.compileFile_stores (libEnv sharedSkipFiles css js md5 engine) (m + 3)
      ⟨o1, ⟨_, comp, _⟩, e1⟩ "b.mjs".toList hmiss
    unfold Cache.parents
    rw [h2.2.2.1]
    rfl
  · have hr2 : Mjs.read (libEnv twoIncluderFiles css js md5 engine) (n + 3)
        ⟨options, Cache.empty, []⟩ "a.mjs".toList none = .ok "shared from a".toList
          ⟨options,
            ⟨[("a.mjs".toList, "<% include 'c.mjs' %> from a".toList),
              ("c.mjs".toList, "shared".toList)], [],
             [("c.mjs".toList, ["a.mjs".toList])]⟩,
            [.fetch "a.mjs".toList, .fetch "c.mjs".toList]⟩ := rfl
    have h3 := Mjs.compileFile_stores (libEnv twoIncluderFiles css js md5 engine) (n + 3)
      ⟨options, Cache.empty, []⟩ "a.mjs".toList rfl
    have hrelA2 : (libEnv twoIncluderFiles css js md5 engine).relative "a.mjs".toList =
      "a.mjs".toList := rfl
    rw [hrelA2, hr2] at h3
    obtain ⟨_, hsrc2, hrel2, hcomp2, _⟩ := h3
    have hmiss := hcomp2 "b.mjs".toList (by decide)
    revert hsrc2 hrel2 hmiss
    generalize (Mjs.compileFile (libEnv twoIncluderFiles css js md5 engine) (n + 3)
      ⟨options, Cache.empty, []⟩ "a.mjs".toList).state = s1
    obtain ⟨o1, ⟨src, comp, rel⟩, e1⟩ := s1
    intro hsrc2 hrel2 hmiss
    simp only [Outcome.state] at hsrc2 hrel2
    subst hsrc2 hrel2
    have h4 := Mjs.compileFile_stores (libEnv twoIncluderFiles css js md5 engine) (m + 3)
      ⟨o1, ⟨_, comp, _⟩, e1⟩ "b.mjs".toList hmiss
    unfold Cache.parents
    rw [h4.2.2.1]
    rfl

end EjsMin
